import Mathlib

/-!
Verification of the shadcn-color-tool OKLCH annotation extension
(`src/extension.ts`).

Modelling conventions (shallow embedding):

* A buffer is a `List Char`.  Spans are absolute character offsets into the
  original buffer, half open, exactly as the TypeScript code computes them
  through `document.offsetAt`.
* JavaScript numbers are modelled by `ℚ`.  The inputs parsed by the code are
  decimal numerals built from digits, dots and percent signs, for which
  `parseFloat` is exact decimal parsing of the longest valid numeric
  prefix, returning `NaN` (here `none`) when no numeric prefix exists.
* The regex `\s` class is modelled by the ASCII whitespace characters plus
  NBSP and the BOM; the remaining exotic Unicode space characters are not
  produced or consumed by any claim considered here.
* `vscode.workspace.applyEdit` applies a `WorkspaceEdit` atomically; with
  overlapping ranges the host rejects the whole transaction and the buffer
  is unchanged.  `applyEditsIfSafe` models this.
-/

namespace SCT

/-- The regex character class for whitespace as used by the scanner. -/
def isWs (ch : Char) : Bool :=
  ch = ' ' || ch = '\t' || ch = '\n' || ch = '\r' ||
    ch.val = 11 || ch.val = 12 || ch.val = 160 || ch.val = 65279

/-- The regex character class for the numeral pieces of the token: `[\d.]`. -/
def isNumCh (ch : Char) : Bool := ch.isDigit || ch = '.'

/-- The regex character class for the alpha numeral: `[\d.%]`. -/
def isPctCh (ch : Char) : Bool := ch.isDigit || ch = '.' || ch = '%'

/-- Decimal value of a digit string. -/
def digitsToNat (ds : List Char) : Nat :=
  ds.foldl (fun acc ch => 10 * acc + (ch.toNat - 48)) 0

/-- JavaScript `parseFloat` restricted to strings over digits, dots and
percent signs: parse the longest leading prefix of the shape
`digits [. digits]` or `. digits`; `none` models `NaN` (no numeric prefix).
The numeric value is kept as an exact rational; whether that value is
finite as a JavaScript double (`parseFloat` of a numeral at or above
`jsInfThreshold` yields `Infinity`, which `isNaN` does not reject) is
a separate question, answered by `parsesFiniteB` below. -/
def parseFloatQ (s : List Char) : Option ℚ :=
  let ip := s.takeWhile Char.isDigit
  let r := s.dropWhile Char.isDigit
  match r with
  | '.' :: r2 =>
    let fp := r2.takeWhile Char.isDigit
    if ip.isEmpty && fp.isEmpty then none
    else some ((digitsToNat ip : ℚ) + (digitsToNat fp : ℚ) / (10 : ℚ) ^ fp.length)
  | _ => if ip.isEmpty then none else some (digitsToNat ip)

/-- The smallest magnitude a decimal numeral can denote and overflow to
`Infinity` as an IEEE 754 double under round to nearest, ties to even:
the midpoint between the largest finite double and 2^1024. -/
def jsInfThreshold : ℚ := ((2 ^ 1024 - 2 ^ 970 : ℕ) : ℚ)

/-- Whether a numeral parses to a finite JavaScript number: it parses at
all, and its exact value stays below the double overflow threshold (the
numerals of the scanner are nonnegative, so only positive overflow can
occur). -/
def parsesFiniteB (s : List Char) : Bool :=
  match parseFloatQ s with
  | some q => q < jsInfThreshold
  | none => false

/-- The pieces of one successful match of the scanner regex
`oklch\(\s*([\d.]+)\s+([\d.]+)\s+([\d.]+)(\s*\/\s*[\d.%]+)?\s*\)`. -/
structure MatchParts where
  ws1 : List Char
  lRaw : List Char
  ws2 : List Char
  cRaw : List Char
  ws3 : List Char
  hRaw : List Char
  alphaRaw : Option (List Char)
  wsEnd : List Char
deriving Repr, DecidableEq

/-- The literal `oklch(` that opens every match. -/
def oklchHead : List Char := "oklch(".toList

/-- The exact text consumed by a match. -/
def MatchParts.text (m : MatchParts) : List Char :=
  oklchHead ++ m.ws1 ++ m.lRaw ++ m.ws2 ++ m.cRaw ++ m.ws3 ++ m.hRaw ++
    (match m.alphaRaw with | some a => a | none => []) ++ m.wsEnd ++ [')']

/-- Length of the matched text. -/
def MatchParts.len (m : MatchParts) : Nat := m.text.length

/-- `X+` for a character class: the greedy nonempty run, or `none`. -/
def reqClass (p : Char → Bool) (s : List Char) : Option (List Char × List Char) :=
  if (s.takeWhile p).isEmpty then none else some (s.takeWhile p, s.dropWhile p)

/-- Matching of the regex body after the literal `oklch(`.  The regex is
deterministic here: every character class is disjoint from its successor,
so greedy matching with no backtracking is exact. -/
def matchBody (s : List Char) : Option (MatchParts × List Char) :=
  let ws1 := s.takeWhile isWs
  let s1 := s.dropWhile isWs
  match reqClass isNumCh s1 with
  | none => none
  | some (lR, s2) =>
  match reqClass isWs s2 with
  | none => none
  | some (ws2, s3) =>
  match reqClass isNumCh s3 with
  | none => none
  | some (cR, s4) =>
  match reqClass isWs s4 with
  | none => none
  | some (ws3, s5) =>
  match reqClass isNumCh s5 with
  | none => none
  | some (hR, s6) =>
  let ws4 := s6.takeWhile isWs
  match s6.dropWhile isWs with
  | ')' :: rest => some (⟨ws1, lR, ws2, cR, ws3, hR, none, ws4⟩, rest)
  | '/' :: s8 =>
    let ws5 := s8.takeWhile isWs
    match reqClass isPctCh (s8.dropWhile isWs) with
    | none => none
    | some (aR, s10) =>
    let ws6 := s10.takeWhile isWs
    match s10.dropWhile isWs with
    | ')' :: rest =>
      some (⟨ws1, lR, ws2, cR, ws3, hR, some (ws4 ++ '/' :: ws5 ++ aR), ws6⟩, rest)
    | _ => none
  | _ => none

/-- One attempt of the scanner regex at the current position. -/
def matchOklchAt (s : List Char) : Option (MatchParts × List Char) :=
  if s.take 6 = oklchHead then matchBody (s.drop 6) else none

/-- A parsed token (`ParsedOklch` in the source): numeric components, the
optional numeric alpha, the verbatim alpha substring, and the span. -/
structure OklchToken where
  l : ℚ
  c : ℚ
  h : ℚ
  alpha : Option ℚ
  alphaRaw : Option (List Char)
  start : Nat
  len : Nat
deriving Repr, DecidableEq

/-- Offset one past the last character of the token. -/
def OklchToken.endPos (t : OklchToken) : Nat := t.start + t.len

/-- First maximal run of `[\d.%]` characters (the regex `/[\d.%]+/` used to
extract the numeric part of the alpha clause). -/
def firstNumRun : List Char → Option (List Char)
  | [] => none
  | ch :: r => if isPctCh ch then some (ch :: r.takeWhile isPctCh) else firstNumRun r

/-- Numeric alpha from the extracted numeral: a trailing percent sign selects
the percentage form (divide by 100). -/
def alphaFromRun (a : List Char) : Option ℚ :=
  if a.getLast? = some '%' then (parseFloatQ a.dropLast).map (fun q => q / 100)
  else parseFloatQ a

/-- Numeric alpha of a captured alpha clause such as `" / 15%"`. -/
def deriveAlpha (g : List Char) : Option ℚ :=
  (firstNumRun g).bind alphaFromRun

/-- Build the token for a regex match, mirroring lines 389-426 of the source:
reject when `L`, `C` or `H` does not parse, or when an alpha clause is
present but its numeric part does not parse. -/
def mkToken (pos : Nat) (m : MatchParts) : Option OklchToken :=
  match parseFloatQ m.lRaw, parseFloatQ m.cRaw, parseFloatQ m.hRaw with
  | some lv, some cv, some hv =>
    match m.alphaRaw with
    | some g =>
      match deriveAlpha g with
      | some av => some ⟨lv, cv, hv, some av, some g, pos, m.len⟩
      | none => none
    | none => some ⟨lv, cv, hv, none, none, pos, m.len⟩
  | _, _, _ => none

/-- The scan loop of `parseOklchFunctionsInRange`: a global non overlapping
match cursor; a rejected match still advances the cursor past the match.
`fuel` only forces termination and is set to the buffer length. -/
def scanAux : Nat → List Char → Nat → List OklchToken
  | 0, _, _ => []
  | _ + 1, [], _ => []
  | fuel + 1, ch :: r, pos =>
    match matchOklchAt (ch :: r) with
    | some (m, rest) =>
      match mkToken pos m with
      | some t => t :: scanAux fuel rest (pos + m.len)
      | none => scanAux fuel rest (pos + m.len)
    | none => scanAux fuel r (pos + 1)

/-- Scan a whole buffer, producing tokens in span order. -/
def scanTokens (buf : List Char) : List OklchToken := scanAux buf.length buf 0

/-- Characters that terminate the line of a position. -/
def notNl (ch : Char) : Bool := ch ≠ '\n' && ch ≠ '\r'

/-- Index of the first occurrence of `*/`. -/
def findStarSlash : List Char → Option Nat
  | [] => none
  | ch :: r =>
    if ch = '*' ∧ r.head? = some '/' then some 0
    else (findStarSlash r).map (fun k => k + 1)

/-- `findAdjacentCommentRange`: look on the rest of the line for
`^(\s*)(\/\*.*?\*\/)` and return the whitespace length and comment length. -/
def findAdjacentComment (tail : List Char) : Option (Nat × Nat) :=
  let line := tail.takeWhile notNl
  let ws := line.takeWhile isWs
  let r := line.dropWhile isWs
  match r with
  | '/' :: '*' :: body => (findStarSlash body).map (fun k => (ws.length, k + 4))
  | _ => none

/-- `approxEqual` of the source: strict absolute difference bound. -/
def approxEqual (a b eps : ℚ) : Bool := |a - b| < eps

/-- The default epsilon of `approxEqual` (0.0001). -/
def epsDefault : ℚ := 1 / 10000

/-- A palette record (`ColorMapEntry`). -/
structure ColorEntry where
  name : List Char
  l : ℚ
  c : ℚ
  h : ℚ
deriving Repr, DecidableEq

/-- The component wise tolerance test of `findColorName`. -/
def entryMatches (lv cv hv : ℚ) (e : ColorEntry) : Bool :=
  approxEqual e.l lv epsDefault && approxEqual e.c cv epsDefault &&
    approxEqual e.h hv epsDefault

/-- `findColorName`: first palette entry matching component wise. -/
def findColorName (pal : List ColorEntry) (lv cv hv : ℚ) : Option (List Char) :=
  (pal.find? (entryMatches lv cv hv)).map ColorEntry.name

/-- Decimal digits of a natural number (auxiliary, fuelled). -/
def natDecimalAux : Nat → Nat → List Char
  | 0, _ => []
  | fuel + 1, n =>
    if n < 10 then [Char.ofNat (48 + n)]
    else natDecimalAux fuel (n / 10) ++ [Char.ofNat (48 + n % 10)]

/-- Decimal digits of a natural number. -/
def natDecimal (n : Nat) : List Char := natDecimalAux (n + 1) n

/-- `Math.round`: round half toward positive infinity. -/
def jsRound (q : ℚ) : ℤ := ⌊q + 1 / 2⌋

/-- Decimal rendering of an integer. -/
def intDecimal (z : ℤ) : List Char :=
  if z < 0 then '-' :: natDecimal z.natAbs else natDecimal z.toNat

/-- Smallest power of ten that clears the denominator, when one of at most
10^30 exists. -/
def pow10Scale (den : Nat) : Option Nat :=
  (List.range 31).find? (fun k => 10 ^ k % den = 0)

/-- Left pad with zeros to width `k`. -/
def padZeros (k : Nat) (ds : List Char) : List Char :=
  List.replicate (k - ds.length) '0' ++ ds

/-- Rendering of a nonnegative rational with finite decimal expansion, the
way JavaScript template literals print the palette numbers. -/
def renderNonnegQ (q : ℚ) : List Char :=
  match pow10Scale q.den with
  | some k =>
    if k = 0 then natDecimal q.num.toNat
    else
      let scaled := q.num.toNat * 10 ^ k / q.den
      natDecimal (scaled / 10 ^ k) ++ '.' :: padZeros k (natDecimal (scaled % 10 ^ k))
  | none => natDecimal q.num.toNat ++ '/' :: natDecimal q.den

/-- JavaScript number to string for the palette values. -/
def renderQ (q : ℚ) : List Char :=
  if q < 0 then '-' :: renderNonnegQ (-q) else renderNonnegQ q

/-- `createOklchString`: the replacement literal, with the original alpha
substring appended verbatim when present. -/
def createOklchString (entry : ColorEntry) (alphaRaw : Option (List Char)) : List Char :=
  oklchHead ++ renderQ entry.l ++ ' ' :: renderQ entry.c ++ ' ' :: renderQ entry.h ++
    (match alphaRaw with | some a => a | none => []) ++ [')']

/-- `createAnnotationComment`: `/* name */`, with ` / P%` inserted when the
alpha is defined and not within 0.001 of 1. -/
def createAnnotationComment (name : List Char) (alpha : Option ℚ) : List Char :=
  let base :=
    match alpha with
    | some a =>
      if approxEqual a 1 (1 / 1000) then name
      else name ++ " / ".toList ++ intDecimal (jsRound (a * 100)) ++ ['%']
    | none => name
  "/* ".toList ++ base ++ " */".toList

/-- An edit operation of the plan, spans in original buffer offsets. -/
inductive EditOp where
  | replaceOp (start len : Nat) (text : List Char)
  | insertOp (pos : Nat) (text : List Char)
  | deleteOp (start len : Nat)
deriving Repr, DecidableEq

/-- Lower end of the span an edit targets. -/
def EditOp.lo : EditOp → Nat
  | .replaceOp s _ _ => s
  | .insertOp p _ => p
  | .deleteOp s _ => s

/-- Upper end of the span an edit targets. -/
def EditOp.hi : EditOp → Nat
  | .replaceOp s l _ => s + l
  | .insertOp p _ => p
  | .deleteOp s l => s + l

/-- Whether an edit is an insertion. -/
def EditOp.isInsert : EditOp → Bool
  | .insertOp _ _ => true
  | _ => false

/-- Apply a single edit, the span read against the current text. -/
def applyOne (buf : List Char) : EditOp → List Char
  | .replaceOp s l txt => buf.take s ++ txt ++ buf.drop (s + l)
  | .insertOp p txt => buf.take p ++ txt ++ buf.drop p
  | .deleteOp s l => buf.take s ++ buf.drop (s + l)

/-- Apply a list of edits front to back; the plans are built in descending
span order, so spans of pending edits stay valid. -/
def applyEdits (buf : List Char) (ops : List EditOp) : List Char :=
  ops.foldl applyOne buf

/-- Two edits collide when their spans overlap; an insertion collides only
when it falls strictly inside the span of another edit. -/
def editsCollide (a b : EditOp) : Bool :=
  match a, b with
  | .insertOp _ _, .insertOp _ _ => false
  | .insertOp p _, o => o.lo < p && p < o.hi
  | o, .insertOp p _ => o.lo < p && p < o.hi
  | o1, o2 => o1.lo < o2.hi && o2.lo < o1.hi

/-- A plan the host accepts: no two edits collide. -/
def overlapFreeB : List EditOp → Bool
  | [] => true
  | o :: r => r.all (fun o2 => !editsCollide o o2) && overlapFreeB r

/-- Atomic application: the host rejects a colliding plan wholesale. -/
def applyEditsIfSafe (buf : List Char) (ops : List EditOp) : List Char :=
  if overlapFreeB ops then applyEdits buf ops else buf

/-- The label used when the palette has no name for a token. -/
def customLabel : List Char := "Custom".toList

/-- Name resolved for a token in the annotate handler. -/
def annotationNameFor (pal : List ColorEntry) (t : OklchToken) : List Char :=
  match findColorName pal t.l t.c t.h with
  | some n => n
  | none => customLabel

/-- One step of the annotate handler for one token, against the original
buffer: skip when the adjacent comment equals the computed one, replace a
different comment, insert (with a leading space) when none is there. -/
def annotateStep (pal : List ColorEntry) (buf : List Char) (t : OklchToken) :
    Option (Nat × EditOp) :=
  let commentStr := createAnnotationComment (annotationNameFor pal t) t.alpha
  match findAdjacentComment (buf.drop t.endPos) with
  | some (wsLen, cLen) =>
    let existing := ((buf.drop t.endPos).drop wsLen).take cLen
    if existing = commentStr then none
    else some (t.start, .replaceOp (t.endPos + wsLen) cLen commentStr)
  | none => some (t.start, .insertOp t.endPos (' ' :: commentStr))

/-- The annotate plan: tokens processed in reverse span order; each pair
keeps the span start of the token that emitted the edit. -/
def annotatePairs (pal : List ColorEntry) (buf : List Char) : List (Nat × EditOp) :=
  (scanTokens buf).reverse.filterMap (annotateStep pal buf)

/-- The edits of the annotate plan. -/
def annotatePlan (pal : List ColorEntry) (buf : List Char) : List EditOp :=
  (annotatePairs pal buf).map Prod.snd

/-- The buffer text after the annotate command. -/
def annotateAll (pal : List ColorEntry) (buf : List Char) : List Char :=
  applyEditsIfSafe buf (annotatePlan pal buf)

/-- One step of the removal handler: delete whitespace plus comment after a
token when present. -/
def removeStep (buf : List Char) (t : OklchToken) : Option (Nat × EditOp) :=
  match findAdjacentComment (buf.drop t.endPos) with
  | some (wsLen, cLen) => some (t.start, .deleteOp t.endPos (wsLen + cLen))
  | none => none

/-- The removal plan, tokens in reverse span order. -/
def removePairs (buf : List Char) : List (Nat × EditOp) :=
  (scanTokens buf).reverse.filterMap (removeStep buf)

/-- The edits of the removal plan. -/
def removePlan (buf : List Char) : List EditOp :=
  (removePairs buf).map Prod.snd

/-- The buffer text after the remove annotations command. -/
def removeAll (buf : List Char) : List Char :=
  applyEditsIfSafe buf (removePlan buf)

/-- The fixed gray scale family names. -/
def grayScaleNames : List (List Char) :=
  ["Slate".toList, "Gray".toList, "Zinc".toList, "Neutral".toList, "Stone".toList]

/-- Whether `pat` is an initial segment of `s`. -/
def leadsWith : List Char → List Char → Bool
  | [], _ => true
  | _ :: _, [] => false
  | a :: as, b :: bs => a = b && leadsWith as bs

/-- `isGrayScaleColor`: the name starts with a gray family name and a space. -/
def isGrayScaleColor (name : List Char) : Bool :=
  grayScaleNames.any (fun g => leadsWith (g ++ [' ']) name)

/-- `extractShade`: the regex `\s(\d+)$` captured digits — the maximal
trailing digit run, preceded by a whitespace character. -/
def extractShade (name : List Char) : Option (List Char) :=
  let rds := name.reverse.takeWhile Char.isDigit
  if rds.isEmpty then none
  else
    match name.reverse.drop rds.length with
    | ch :: _ => if isWs ch then some rds.reverse else none
    | [] => none

/-- A gray token together with its resolved name and shade. -/
structure GrayInfo where
  tok : OklchToken
  originalName : List Char
  shade : List Char
deriving Repr, DecidableEq

/-- The gray tokens of the buffer, in span order (step 1 of the handler). -/
def grayInfos (pal : List ColorEntry) (buf : List Char) : List GrayInfo :=
  (scanTokens buf).filterMap (fun t =>
    match findColorName pal t.l t.c t.h with
    | some n =>
      if isGrayScaleColor n then
        match extractShade n with
        | some sh => some ⟨t, n, sh⟩
        | none => none
      else none
    | none => none)

/-- One step of the gray conversion: look up `{target} {shade}`; absent means
skip with no edit; present yields the color replacement and, when an adjacent
comment exists, a comment replacement. -/
def convertStep (pal : List ColorEntry) (buf : List Char) (target : List Char)
    (g : GrayInfo) : Option (Nat × List EditOp) :=
  let targetName := target ++ ' ' :: g.shade
  match pal.find? (fun e => e.name = targetName) with
  | some entry =>
    let colorEdit := EditOp.replaceOp g.tok.start g.tok.len
      (createOklchString entry g.tok.alphaRaw)
    let newComment := createAnnotationComment targetName g.tok.alpha
    some (g.tok.start,
      match findAdjacentComment (buf.drop g.tok.endPos) with
      | some (wsLen, cLen) =>
        [colorEdit, .replaceOp (g.tok.endPos + wsLen) cLen newComment]
      | none => [colorEdit])
  | none => none

/-- The gray conversion plan, tokens in reverse span order. -/
def convertPairs (pal : List ColorEntry) (buf : List Char) (target : List Char) :
    List (Nat × List EditOp) :=
  (grayInfos pal buf).reverse.filterMap (convertStep pal buf target)

/-- The conversion count reported by the handler. -/
def convertedCount (pal : List ColorEntry) (buf : List Char) (target : List Char) : Nat :=
  (convertPairs pal buf target).length

/-- The plan of `selectColorHandler` for a chosen entry: replace the color
span using the verbatim alpha substring; when an adjacent comment exists,
replace it (unconditionally) with the comment for the chosen name; no edit
is added otherwise. -/
def selectPlan (buf : List Char) (start len : Nat) (alphaRaw : Option (List Char))
    (entry : ColorEntry) : List EditOp :=
  let newOklch := createOklchString entry alphaRaw
  let alphaNum : Option ℚ := alphaRaw.bind deriveAlpha
  let newComment := createAnnotationComment entry.name alphaNum
  EditOp.replaceOp start len newOklch ::
    (match findAdjacentComment (buf.drop (start + len)) with
     | some (wsLen, cLen) => [EditOp.replaceOp (start + len + wsLen) cLen newComment]
     | none => [])

/-- Shift a token span by `k` (used to relate scans of a suffix to scans of
the whole buffer). -/
def tokenShift (k : Nat) (t : OklchToken) : OklchToken :=
  { t with start := t.start + k }

/-- Shift an edit span by `k`. -/
def shiftOp (k : Nat) : EditOp → EditOp
  | .replaceOp s l txt => .replaceOp (s + k) l txt
  | .insertOp p txt => .insertOp (p + k) txt
  | .deleteOp s l => .deleteOp (s + k) l

/-- The comment the annotate handler computes for a token. -/
def annotCommentFor (pal : List ColorEntry) (t : OklchToken) : List Char :=
  createAnnotationComment (annotationNameFor pal t) t.alpha

/-- Recursive reconstruction of the annotate command on a buffer with no
pre-existing adjacent comments: after every accepted token the computed
comment is inserted with a leading space. -/
def annotGo (pal : List ColorEntry) : Nat → List Char → List Char
  | 0, s => s
  | _ + 1, [] => []
  | f + 1, ch :: r =>
    match matchOklchAt (ch :: r) with
    | some (m, rest) =>
      match mkToken 0 m with
      | some t =>
        m.text ++ (' ' :: annotCommentFor pal t) ++ annotGo pal f rest
      | none => m.text ++ annotGo pal f rest
    | none => ch :: annotGo pal f r

/-- Recursive reconstruction of the annotate command on an arbitrary buffer
(used when the emitted plan is collision free): after every accepted token
the adjacent comment is looked up; an equal comment is kept, a different
one is replaced by the computed comment, a missing one is inserted with a
leading space. -/
def annotGo2 (pal : List ColorEntry) : Nat → List Char → List Char
  | 0, s => s
  | _ + 1, [] => []
  | f + 1, ch :: r =>
    match matchOklchAt (ch :: r) with
    | some (m, rest) =>
      match mkToken 0 m with
      | some t =>
        match findAdjacentComment rest with
        | none => m.text ++ (' ' :: annotCommentFor pal t) ++ annotGo2 pal f rest
        | some (w, cLen) =>
          if (rest.drop w).take cLen = annotCommentFor pal t then
            m.text ++ annotGo2 pal f rest
          else
            m.text ++ rest.take w ++ annotCommentFor pal t ++
              annotGo2 pal f (rest.drop (w + cLen))
      | none => m.text ++ annotGo2 pal f rest
    | none => ch :: annotGo2 pal f r

/-- The token list of the generally annotated buffer, positions shifted by
the accumulated length changes to the left. -/
def goTokens2 (pal : List ColorEntry) : Nat → List Char → Nat → List OklchToken
  | 0, _, _ => []
  | _ + 1, [], _ => []
  | f + 1, ch :: r, pos =>
    match matchOklchAt (ch :: r) with
    | some (m, rest) =>
      match mkToken pos m with
      | some t =>
        match findAdjacentComment rest with
        | none =>
          t :: goTokens2 pal f rest (pos + m.len + 1 + (annotCommentFor pal t).length)
        | some (w, cLen) =>
          if (rest.drop w).take cLen = annotCommentFor pal t then
            t :: goTokens2 pal f rest (pos + m.len)
          else
            t :: goTokens2 pal f (rest.drop (w + cLen))
              (pos + m.len + w + (annotCommentFor pal t).length)
      | none => goTokens2 pal f rest (pos + m.len)
    | none => goTokens2 pal f r (pos + 1)

/-- Well-formedness of match pieces: each piece lies in its character
class, the required pieces are nonempty, and the alpha clause has the
captured shape. -/
def WFParts (m : MatchParts) : Prop :=
  (∀ ch ∈ m.ws1, isWs ch) ∧ (∀ ch ∈ m.ws2, isWs ch) ∧ (∀ ch ∈ m.ws3, isWs ch) ∧
  (∀ ch ∈ m.wsEnd, isWs ch) ∧
  (∀ ch ∈ m.lRaw, isNumCh ch) ∧ (∀ ch ∈ m.cRaw, isNumCh ch) ∧
  (∀ ch ∈ m.hRaw, isNumCh ch) ∧
  m.lRaw ≠ [] ∧ m.ws2 ≠ [] ∧ m.cRaw ≠ [] ∧ m.ws3 ≠ [] ∧ m.hRaw ≠ [] ∧
  (match m.alphaRaw with
   | none => True
   | some g => ∃ w4 w5 aR, g = w4 ++ '/' :: w5 ++ aR ∧
       (∀ ch ∈ w4, isWs ch) ∧ (∀ ch ∈ w5, isWs ch) ∧
       (∀ ch ∈ aR, isPctCh ch) ∧ aR ≠ [])

/-- A palette name (or buffer comment payload) that cannot confuse the
scanner or the comment locator: no parenthesis, no star, no line break. -/
def saneName (n : List Char) : Prop :=
  '(' ∉ n ∧ '*' ∉ n ∧ '\n' ∉ n ∧ '\r' ∉ n

/-- A palette whose names are all sane. -/
def sanePalette (pal : List ColorEntry) : Prop :=
  ∀ e ∈ pal, saneName e.name

/-- The token list of the annotated buffer, reconstructed recursively: one
token per accepted match of the original buffer, its start shifted past all
comments inserted to its left. -/
def goTokens (pal : List ColorEntry) : Nat → List Char → Nat → List OklchToken
  | 0, _, _ => []
  | _ + 1, [], _ => []
  | f + 1, ch :: r, pos =>
    match matchOklchAt (ch :: r) with
    | some (m, rest) =>
      match mkToken pos m with
      | some t => t :: goTokens pal f rest (pos + m.len + 1 + (annotCommentFor pal t).length)
      | none => goTokens pal f rest (pos + m.len)
    | none => goTokens pal f r (pos + 1)

/-! ### Basic lemmas about the matcher -/

theorem reqClass_eq_some {p : Char → Bool} {s t r : List Char}
    (h : reqClass p s = some (t, r)) :
    t = s.takeWhile p ∧ r = s.dropWhile p ∧ t.isEmpty = false := by
  unfold reqClass at h
  split at h
  · exact absurd h (by simp)
  · next hne =>
    refine ⟨?_, ?_, ?_⟩ <;> simp_all [Prod.ext_iff]
    cases h' : (s.takeWhile p).isEmpty <;> simp_all

theorem reqClass_append {p : Char → Bool} {s t r : List Char}
    (h : reqClass p s = some (t, r)) : s = t ++ r := by
  obtain ⟨ht, hr, _⟩ := reqClass_eq_some h
  rw [ht, hr, List.takeWhile_append_dropWhile]

/-- Decomposition of a successful body match. -/
theorem matchBody_decomp {s : List Char} {m : MatchParts} {rest : List Char}
    (h : matchBody s = some (m, rest)) :
    s = m.ws1 ++ m.lRaw ++ m.ws2 ++ m.cRaw ++ m.ws3 ++ m.hRaw ++
      (match m.alphaRaw with | some a => a | none => []) ++ m.wsEnd ++ ')' :: rest := by
  unfold matchBody at h
  simp only [] at h
  iterate 10 (all_goals try split at h)
  all_goals (try simp only [Option.some.injEq, Prod.mk.injEq, reduceCtorEq] at h)
  case h_2.h_2.h_2.h_2.h_2.h_1 =>
    rename_i x5 a5 r5 h1 x4 a4 r4 h2 x3 a3 r3 h3 x2 a2 r2 h4 x1 a1 r1 h5 x0 rst h6
    obtain ⟨hm, hrest⟩ := h
    subst hrest
    rw [← hm]
    simp only []
    conv_lhs => rw [← List.takeWhile_append_dropWhile (p := isWs) (l := s),
      reqClass_append h1, reqClass_append h2, reqClass_append h3,
      reqClass_append h4, reqClass_append h5,
      ← List.takeWhile_append_dropWhile (p := isWs) (l := r1), h6]
    simp [List.append_assoc]
  case h_2.h_2.h_2.h_2.h_2.h_2.h_2.h_1 =>
    rename_i x5 a5 r5 h1 x4 a4 r4 h2 x3 a3 r3 h3 x2 a2 r2 h4 x1 a1 r1 h5 x8 s8 h6 x7 a0 r0 h7 x0 rst h8
    obtain ⟨hm, hrest⟩ := h
    subst hrest
    rw [← hm]
    simp only []
    conv_lhs => rw [← List.takeWhile_append_dropWhile (p := isWs) (l := s),
      reqClass_append h1, reqClass_append h2, reqClass_append h3,
      reqClass_append h4, reqClass_append h5,
      ← List.takeWhile_append_dropWhile (p := isWs) (l := r1), h6,
      ← List.takeWhile_append_dropWhile (p := isWs) (l := s8),
      reqClass_append h7,
      ← List.takeWhile_append_dropWhile (p := isWs) (l := r0), h8]
    simp [List.append_assoc]

/-- A successful attempt consumes exactly the matched text. -/
theorem matchOklchAt_decomp {s : List Char} {m : MatchParts} {rest : List Char}
    (h : matchOklchAt s = some (m, rest)) : s = m.text ++ rest := by
  unfold matchOklchAt at h
  split at h
  · next hhead =>
    have hbody := matchBody_decomp h
    have : s = s.take 6 ++ s.drop 6 := (List.take_append_drop 6 s).symm
    rw [this, hhead, hbody]
    simp [MatchParts.text, List.append_assoc]
  · exact absurd h (by simp)

theorem MatchParts.len_ge (m : MatchParts) : 7 ≤ m.len := by
  simp only [MatchParts.len, MatchParts.text, oklchHead]
  simp only [List.length_append, List.length_cons, String.toList]
  simp
  omega

theorem matchOklchAt_rest_len {s : List Char} {m : MatchParts} {rest : List Char}
    (h : matchOklchAt s = some (m, rest)) : s.length = m.len + rest.length := by
  rw [matchOklchAt_decomp h]
  simp [MatchParts.len]

theorem matchOklchAt_rest_lt {s : List Char} {m : MatchParts} {rest : List Char}
    (h : matchOklchAt s = some (m, rest)) : rest.length < s.length := by
  have h1 := matchOklchAt_rest_len h
  have h2 := m.len_ge
  omega

/-! ### Scan lemmas -/

theorem scanAux_nil (f pos : Nat) : scanAux f [] pos = [] := by
  cases f <;> rfl

/-- The scan is independent of the fuel once the fuel covers the length. -/
theorem scanAux_fuel : ∀ (n : Nat) (s : List Char), s.length ≤ n →
    ∀ f g pos, s.length ≤ f → s.length ≤ g → scanAux f s pos = scanAux g s pos := by
  intro n
  induction n with
  | zero =>
    intro s hs f g pos _ _
    have : s = [] := List.eq_nil_of_length_eq_zero (Nat.le_zero.mp hs)
    subst this
    rw [scanAux_nil, scanAux_nil]
  | succ n ih =>
    intro s hs f g pos hf hg
    cases s with
    | nil => rw [scanAux_nil, scanAux_nil]
    | cons ch r =>
      obtain ⟨f', rfl⟩ : ∃ f', f = f' + 1 := by
        cases f with
        | zero => simp at hf
        | succ k => exact ⟨k, rfl⟩
      obtain ⟨g', rfl⟩ : ∃ g', g = g' + 1 := by
        cases g with
        | zero => simp at hg
        | succ k => exact ⟨k, rfl⟩
      simp only [scanAux]
      cases hm : matchOklchAt (ch :: r) with
      | some pr =>
        obtain ⟨m, rest⟩ := pr
        have hlen := matchOklchAt_rest_len hm
        have hge := m.len_ge
        have h1 : rest.length ≤ n := by
          simp only [List.length_cons] at hs hlen; omega
        have h2 : rest.length ≤ f' := by
          simp only [List.length_cons] at hf hlen; omega
        have h3 : rest.length ≤ g' := by
          simp only [List.length_cons] at hg hlen; omega
        simp only []
        cases hk : mkToken pos m with
        | some t => rw [ih rest h1 f' g' (pos + m.len) h2 h3]
        | none => rw [ih rest h1 f' g' (pos + m.len) h2 h3]
      | none =>
        have h1 : r.length ≤ n := by simp only [List.length_cons] at hs; omega
        have h2 : r.length ≤ f' := by simp only [List.length_cons] at hf; omega
        have h3 : r.length ≤ g' := by simp only [List.length_cons] at hg; omega
        exact ih r h1 f' g' (pos + 1) h2 h3

/-- Unfolding the canonical scan one step. -/
theorem scanTokens_eq_scanAux (buf : List Char) (f : Nat) (h : buf.length ≤ f) :
    scanTokens buf = scanAux f buf 0 :=
  scanAux_fuel buf.length buf le_rfl buf.length f 0 le_rfl h

theorem mkToken_some_fields {pos : Nat} {m : MatchParts} {t : OklchToken}
    (h : mkToken pos m = some t) :
    t.start = pos ∧ t.len = m.len ∧ t.alphaRaw = m.alphaRaw := by
  unfold mkToken at h
  iterate 10 (all_goals try split at h)
  all_goals simp_all
  all_goals (obtain rfl := h; simp_all)

/-- Every token produced by the scan starts at or after the cursor, ends
within the scanned suffix, and the tokens are in strictly ascending span
order. -/
theorem scanAux_sound : ∀ (f : Nat) (s : List Char) (pos : Nat),
    (∀ t ∈ scanAux f s pos,
      (pos ≤ t.start ∧ t.start + t.len ≤ pos + s.length) ∧ 7 ≤ t.len) ∧
    (scanAux f s pos).Pairwise (fun a b => a.start + a.len ≤ b.start) := by
  intro f
  induction f with
  | zero => intro s pos; simp [scanAux]
  | succ f ih =>
    intro s pos
    cases s with
    | nil => simp [scanAux]
    | cons ch r =>
      simp only [scanAux]
      cases hm : matchOklchAt (ch :: r) with
      | some pr =>
        obtain ⟨m, rest⟩ := pr
        simp only []
        have hlen := matchOklchAt_rest_len hm
        have hge := m.len_ge
        cases hk : mkToken pos m with
        | some t =>
          simp only []
          obtain ⟨hts, htl, -⟩ := mkToken_some_fields hk
          obtain ⟨ihb, ihp⟩ := ih rest (pos + m.len)
          constructor
          · intro u hu
            rcases List.mem_cons.mp hu with rfl | hu
            · refine ⟨⟨by omega, ?_⟩, by omega⟩
              simp only [List.length_cons] at *
              omega
            · have := ihb u hu
              simp only [List.length_cons] at *
              omega
          · refine List.pairwise_cons.mpr ⟨?_, ihp⟩
            intro u hu
            have := ((ihb u hu).1).1
            omega
        | none =>
          simp only []
          obtain ⟨ihb, ihp⟩ := ih rest (pos + m.len)
          refine ⟨?_, ihp⟩
          intro u hu
          have := ihb u hu
          simp only [List.length_cons] at *
          omega
      | none =>
        simp only []
        obtain ⟨ihb, ihp⟩ := ih r (pos + 1)
        refine ⟨?_, ihp⟩
        intro u hu
        have := ihb u hu
        simp only [List.length_cons] at *
        omega

theorem scanTokens_bounds {buf : List Char} {t : OklchToken} (h : t ∈ scanTokens buf) :
    t.start + t.len ≤ buf.length := by
  have := (((scanAux_sound buf.length buf 0).1 t h).1).2
  omega

theorem scanTokens_len_ge {buf : List Char} {t : OklchToken} (h : t ∈ scanTokens buf) :
    7 ≤ t.len :=
  ((scanAux_sound buf.length buf 0).1 t h).2

theorem scanTokens_pairwise (buf : List Char) :
    (scanTokens buf).Pairwise (fun a b => a.start + a.len ≤ b.start) :=
  (scanAux_sound buf.length buf 0).2

theorem scanTokens_pairwise_lt (buf : List Char) :
    (scanTokens buf).Pairwise (fun a b => a.start < b.start) := by
  refine List.Pairwise.imp_of_mem ?_ (scanTokens_pairwise buf)
  intro a b ha _ hab
  have := scanTokens_len_ge ha
  omega

/-! ### Comment locator bounds -/

theorem findStarSlash_le : ∀ (l : List Char) (k : Nat),
    findStarSlash l = some k → k + 2 ≤ l.length := by
  intro l
  induction l with
  | nil => intro k h; simp [findStarSlash] at h
  | cons a r ihr =>
    intro k h
    unfold findStarSlash at h
    split at h
    · next hc =>
      obtain rfl : (0 : Nat) = k := Option.some.injEq .. ▸ h
      obtain ⟨-, hh⟩ := hc
      cases r with
      | nil => simp at hh
      | cons b rr => simp
    · next hc =>
      obtain ⟨k', hk', rfl⟩ := Option.map_eq_some'.mp h
      have := ihr k' hk'
      simp only [List.length_cons]
      omega

theorem findAdjacentComment_le {tail : List Char} {w c : Nat}
    (h : findAdjacentComment tail = some (w, c)) : w + c ≤ tail.length := by
  unfold findAdjacentComment at h
  simp only [] at h
  split at h
  · next body heq =>
    obtain ⟨k, hk, hwc⟩ := Option.map_eq_some'.mp h
    obtain ⟨hw, hc⟩ := Prod.mk.injEq .. ▸ hwc
    have hb := findStarSlash_le body k hk
    have hline : (tail.takeWhile notNl).length ≤ tail.length :=
      (tail.takeWhile_sublist notNl).length_le
    have hsplit : (tail.takeWhile notNl) =
        (tail.takeWhile notNl).takeWhile isWs ++ '/' :: '*' :: body := by
      conv_lhs => rw [← List.takeWhile_append_dropWhile (p := isWs)
        (l := tail.takeWhile notNl), heq]
    have hlen2 := congrArg List.length hsplit
    simp only [List.length_append, List.length_cons] at hlen2
    omega
  · simp at h

/-! ### Pairwise ordering of the emitted plans -/

theorem pairwise_filterMap_of {α β : Type _} (R : α → α → Prop) {S : β → β → Prop}
    (f : α → Option β) :
    ∀ (l : List α), (∀ a b x y, f a = some x → f b = some y → R a b → S x y) →
    l.Pairwise R → (l.filterMap f).Pairwise S := by
  intro l
  induction l with
  | nil => intro _ _; simp
  | cons a r ihr =>
    intro hf h
    obtain ⟨ha, hr⟩ := List.pairwise_cons.mp h
    rw [List.filterMap_cons]
    cases hfa : f a with
    | none => exact ihr hf hr
    | some x =>
      refine List.pairwise_cons.mpr ⟨?_, ihr hf hr⟩
      intro y hy
      obtain ⟨b, hb, hfb⟩ := List.mem_filterMap.mp hy
      exact hf a b x y hfa hfb (ha b hb)

theorem annotateStep_fst {pal : List ColorEntry} {buf : List Char} {t : OklchToken}
    {p : Nat × EditOp} (h : annotateStep pal buf t = some p) : p.1 = t.start := by
  unfold annotateStep at h
  iterate 3 (all_goals try split at h)
  all_goals (try simp at h)
  all_goals (first | (obtain ⟨-, rfl⟩ := h; rfl) | (obtain rfl := h; rfl))

theorem removeStep_fst {buf : List Char} {t : OklchToken}
    {p : Nat × EditOp} (h : removeStep buf t = some p) : p.1 = t.start := by
  unfold removeStep at h
  iterate 3 (all_goals try split at h)
  all_goals (try simp at h)
  all_goals (first | (obtain ⟨-, rfl⟩ := h; rfl) | (obtain rfl := h; rfl))

theorem convertStep_fst {pal : List ColorEntry} {buf target : List Char} {g : GrayInfo}
    {p : Nat × List EditOp} (h : convertStep pal buf target g = some p) :
    p.1 = g.tok.start := by
  unfold convertStep at h
  simp only [] at h
  cases hf : pal.find? (fun e => e.name = target ++ ' ' :: g.shade) with
  | none => rw [hf] at h; simp at h
  | some entry =>
    rw [hf] at h
    simp only [Option.some.injEq] at h
    obtain rfl := h
    rfl

theorem annotatePairs_desc (pal : List ColorEntry) (buf : List Char) :
    ((annotatePairs pal buf).map Prod.fst).Pairwise (fun a b => b < a) := by
  rw [List.pairwise_map]
  refine pairwise_filterMap_of (fun a b => b.start < a.start) (annotateStep pal buf) _ ?_ ?_
  · intro a b x y hx hy hab
    rw [annotateStep_fst hx, annotateStep_fst hy]
    exact hab
  · rw [List.pairwise_reverse]
    exact scanTokens_pairwise_lt buf

theorem removePairs_desc (buf : List Char) :
    ((removePairs buf).map Prod.fst).Pairwise (fun a b => b < a) := by
  rw [List.pairwise_map]
  refine pairwise_filterMap_of (fun a b => b.start < a.start) (removeStep buf) _ ?_ ?_
  · intro a b x y hx hy hab
    rw [removeStep_fst hx, removeStep_fst hy]
    exact hab
  · rw [List.pairwise_reverse]
    exact scanTokens_pairwise_lt buf

theorem grayInfos_pairwise_lt (pal : List ColorEntry) (buf : List Char) :
    (grayInfos pal buf).Pairwise (fun a b => a.tok.start < b.tok.start) := by
  unfold grayInfos
  refine pairwise_filterMap_of (fun a b => a.start < b.start) _ _ ?_ (scanTokens_pairwise_lt buf)
  intro a b x y hx hy hab
  have hxa : x.tok = a := by
    revert hx
    cases findColorName pal a.l a.c a.h <;> simp only []
    · intro hx; simp at hx
    · split
      · cases extractShade _ <;> simp only []
        · intro hx; simp at hx
        · intro hx
          obtain rfl := Option.some.injEq .. ▸ hx
          rfl
      · intro hx; simp at hx
  have hyb : y.tok = b := by
    revert hy
    cases findColorName pal b.l b.c b.h <;> simp only []
    · intro hy; simp at hy
    · split
      · cases extractShade _ <;> simp only []
        · intro hy; simp at hy
        · intro hy
          obtain rfl := Option.some.injEq .. ▸ hy
          rfl
      · intro hy; simp at hy
  rw [hxa, hyb]
  exact hab

theorem convertPairs_desc (pal : List ColorEntry) (buf target : List Char) :
    ((convertPairs pal buf target).map Prod.fst).Pairwise (fun a b => b < a) := by
  rw [List.pairwise_map]
  refine pairwise_filterMap_of (fun a b => b.tok.start < a.tok.start) (convertStep pal buf target) _ ?_ ?_
  · intro a b x y hx hy hab
    rw [convertStep_fst hx, convertStep_fst hy]
    exact hab
  · rw [List.pairwise_reverse]
    exact (grayInfos_pairwise_lt pal buf).imp (fun hab => hab)

/-! ### Plan spans stay inside the original buffer -/

theorem annotateStep_hi {pal : List ColorEntry} {buf : List Char} {t : OklchToken}
    {p : Nat × EditOp} (hb : t.start + t.len ≤ buf.length)
    (h : annotateStep pal buf t = some p) : p.2.hi ≤ buf.length := by
  unfold annotateStep at h
  simp only [] at h
  cases hc : findAdjacentComment (buf.drop t.endPos) with
  | none =>
    rw [hc] at h
    simp only [Option.some.injEq] at h
    obtain rfl := h
    simp only [EditOp.hi, OklchToken.endPos]
    omega
  | some wc =>
    obtain ⟨w, c⟩ := wc
    rw [hc] at h
    simp only [] at h
    split at h
    · simp at h
    · simp only [Option.some.injEq] at h
      obtain rfl := h
      have := findAdjacentComment_le hc
      simp only [List.length_drop, OklchToken.endPos] at this
      simp only [EditOp.hi, OklchToken.endPos]
      omega

theorem removeStep_hi {buf : List Char} {t : OklchToken}
    {p : Nat × EditOp} (hb : t.start + t.len ≤ buf.length)
    (h : removeStep buf t = some p) : p.2.hi ≤ buf.length := by
  unfold removeStep at h
  cases hc : findAdjacentComment (buf.drop t.endPos) with
  | none => rw [hc] at h; simp at h
  | some wc =>
    obtain ⟨w, c⟩ := wc
    rw [hc] at h
    simp only [Option.some.injEq] at h
    obtain rfl := h
    have := findAdjacentComment_le hc
    simp only [List.length_drop, OklchToken.endPos] at this
    simp only [EditOp.hi, OklchToken.endPos]
    omega

theorem convertStep_hi {pal : List ColorEntry} {buf target : List Char} {g : GrayInfo}
    {p : Nat × List EditOp} (hb : g.tok.start + g.tok.len ≤ buf.length)
    (h : convertStep pal buf target g = some p) :
    ∀ op ∈ p.2, op.hi ≤ buf.length := by
  unfold convertStep at h
  simp only [] at h
  cases hf : pal.find? (fun e => e.name = target ++ ' ' :: g.shade) with
  | none => rw [hf] at h; simp at h
  | some entry =>
    rw [hf] at h
    simp only [Option.some.injEq] at h
    obtain rfl := h
    simp only []
    cases hc : findAdjacentComment (buf.drop g.tok.endPos) with
    | none =>
      intro op hop
      simp only [hc, List.mem_singleton] at hop
      subst hop
      simp only [EditOp.hi]
      omega
    | some wc =>
      obtain ⟨w, c⟩ := wc
      intro op hop
      simp only [hc] at hop
      have hcl := findAdjacentComment_le hc
      simp only [List.length_drop, OklchToken.endPos] at hcl
      rcases List.mem_cons.mp hop with rfl | hop
      · simp only [EditOp.hi]; omega
      · rcases List.mem_cons.mp hop with rfl | hop
        · simp only [EditOp.hi, OklchToken.endPos] at *
          omega
        · simp at hop

/-- The gray token list is drawn from the scan. -/
theorem grayInfos_tok_mem {pal : List ColorEntry} {buf : List Char} {g : GrayInfo}
    (h : g ∈ grayInfos pal buf) : g.tok ∈ scanTokens buf := by
  unfold grayInfos at h
  obtain ⟨t, ht, hfg⟩ := List.mem_filterMap.mp h
  have : g.tok = t := by
    revert hfg
    cases findColorName pal t.l t.c t.h <;> simp only []
    · intro hx; simp at hx
    · split
      · cases extractShade _ <;> simp only []
        · intro hx; simp at hx
        · intro hx
          obtain rfl := Option.some.injEq .. ▸ hx
          rfl
      · intro hx; simp at hx
  rw [this]
  exact ht

/-- Claim C1.  Every operation that rewrites the buffer (annotate, remove
annotations, convert gray family) emits its edits while walking the scanned
tokens in strictly descending span start order, and every emitted edit span
is a span of the original, unedited buffer. -/
theorem C1_descending_span_order (pal : List ColorEntry) (buf target : List Char) :
    (((annotatePairs pal buf).map Prod.fst).Pairwise (fun a b => a > b) ∧
     ((removePairs buf).map Prod.fst).Pairwise (fun a b => a > b) ∧
     ((convertPairs pal buf target).map Prod.fst).Pairwise (fun a b => a > b)) ∧
    ((∀ op ∈ annotatePlan pal buf, op.hi ≤ buf.length) ∧
     (∀ op ∈ removePlan buf, op.hi ≤ buf.length) ∧
     (∀ pr ∈ convertPairs pal buf target, ∀ op ∈ pr.2, op.hi ≤ buf.length)) := by
  refine ⟨⟨annotatePairs_desc pal buf, removePairs_desc buf, convertPairs_desc pal buf target⟩,
    ?_, ?_, ?_⟩
  · intro op hop
    obtain ⟨pr, hpr, rfl⟩ := List.mem_map.mp hop
    obtain ⟨t, ht, hstep⟩ := List.mem_filterMap.mp hpr
    have htm : t ∈ scanTokens buf := List.mem_reverse.mp ht
    exact annotateStep_hi (scanTokens_bounds htm) hstep
  · intro op hop
    obtain ⟨pr, hpr, rfl⟩ := List.mem_map.mp hop
    obtain ⟨t, ht, hstep⟩ := List.mem_filterMap.mp hpr
    have htm : t ∈ scanTokens buf := List.mem_reverse.mp ht
    exact removeStep_hi (scanTokens_bounds htm) hstep
  · intro pr hpr
    obtain ⟨g, hg, hstep⟩ := List.mem_filterMap.mp hpr
    have hgm : g ∈ grayInfos pal buf := List.mem_reverse.mp hg
    exact convertStep_hi (scanTokens_bounds (grayInfos_tok_mem hgm)) hstep

/-! ### Claim C10: lenient numerals with several dots -/

unseal Rat.add Rat.sub Rat.mul Rat.inv in
/-- Claim C10.  The scanner accepts `oklch(1.2.3 0 0)`: the component text
`1.2.3` matches the numeral class `[\d.]+`, the token is produced rather
than rejected, and its lightness is the longest leading valid prefix parsed
by `parseFloat`, that is `1.2`. -/
theorem C10_lenient_multidot_numeral :
    (matchOklchAt "oklch(1.2.3 0 0)".toList).map (fun pr => pr.1.lRaw) =
      some "1.2.3".toList ∧
    parseFloatQ "1.2.3".toList = some (mkRat 6 5) ∧
    (scanTokens "oklch(1.2.3 0 0)".toList).map (fun t => (t.l, t.start, t.len)) =
      [(mkRat 6 5, 0, 16)] := by
  decide

/-! ### Claim C5: first match with component wise tolerance -/

theorem entryMatches_iff (lv cv hv : ℚ) (e : ColorEntry) :
    entryMatches lv cv hv e = true ↔
      |e.l - lv| < 1/10000 ∧ |e.c - cv| < 1/10000 ∧ |e.h - hv| < 1/10000 := by
  simp [entryMatches, approxEqual, epsDefault, Bool.and_eq_true, decide_eq_true_eq,
    and_assoc]

theorem find?_congr_mem {α : Type _} (p q : α → Bool) :
    ∀ l : List α, (∀ x ∈ l, p x = q x) → l.find? p = l.find? q := by
  intro l
  induction l with
  | nil => intro _; rfl
  | cons a r ih =>
    intro h
    rw [List.find?_cons, List.find?_cons, h a (List.mem_cons_self a r)]
    cases q a with
    | true => rfl
    | false => exact ih (fun x hx => h x (List.mem_cons_of_mem a hx))

unseal Rat.add Rat.sub Rat.mul Rat.inv in
/-- Claim C5, counterexample to the claimed tolerance equation.  With the
palette `[A ↦ (1.0001, 0, 0), B ↦ (1, 0, 0)]` the triple `(1, 0, 0)` is in
the palette (entry `B`), yet shifting the lightness by `0.00005` moves the
first tolerance match from `B` to the earlier entry `A`, so
`findName(l + 0.00005, c, h) ≠ findName(l, c, h)`. -/
theorem C5_tolerance_counterexample :
    (findColorName [⟨"A".toList, mkRat 10001 10000, 0, 0⟩, ⟨"B".toList, 1, 0, 0⟩]
        1 0 0 = some "B".toList) ∧
    (findColorName [⟨"A".toList, mkRat 10001 10000, 0, 0⟩, ⟨"B".toList, 1, 0, 0⟩]
        (1 + mkRat 1 20000) 0 0 = some "A".toList) ∧
    findColorName [⟨"A".toList, mkRat 10001 10000, 0, 0⟩, ⟨"B".toList, 1, 0, 0⟩]
        (1 + mkRat 1 20000) 0 0 ≠
      findColorName [⟨"A".toList, mkRat 10001 10000, 0, 0⟩, ⟨"B".toList, 1, 0, 0⟩]
        1 0 0 := by
  decide

/-- Claim C5 as amended.  `findName` returns the name of the first palette
entry, in insertion order, whose `l`, `c`, `h` each independently differ
from the query by less than `ε = 0.0001` (three component wise approximate
equalities), and is absent exactly when no entry satisfies all three.  The
tolerance equation `findName(l + 0.00005, c, h) = findName(l, c, h)` holds
for an in palette `(l, c, h)` provided no entry whose `c` and `h` both
match lies in the two boundary zones `(l - 0.0001, l - 0.00005]` and
`[l + 0.0001, l + 0.00015)` that the shift moves across the tolerance
threshold — the counterexample shows the equation fails otherwise. -/
theorem C5_first_component_wise_match (pal : List ColorEntry) (lv cv hv : ℚ) :
    (∀ n, findColorName pal lv cv hv = some n ↔
      ∃ pre e post, pal = pre ++ e :: post ∧ e.name = n ∧
        (|e.l - lv| < 1/10000 ∧ |e.c - cv| < 1/10000 ∧ |e.h - hv| < 1/10000) ∧
        ∀ e2 ∈ pre,
          ¬(|e2.l - lv| < 1/10000 ∧ |e2.c - cv| < 1/10000 ∧ |e2.h - hv| < 1/10000)) ∧
    (findColorName pal lv cv hv = none ↔
      ∀ e ∈ pal,
        ¬(|e.l - lv| < 1/10000 ∧ |e.c - cv| < 1/10000 ∧ |e.h - hv| < 1/10000)) ∧
    ((∃ e ∈ pal, e.l = lv ∧ e.c = cv ∧ e.h = hv) →
      (∀ e ∈ pal, |e.c - cv| < 1/10000 → |e.h - hv| < 1/10000 →
        e.l ≤ lv - 1/10000 ∨ (lv - 1/20000 < e.l ∧ e.l < lv + 1/10000) ∨
          lv + 3/20000 ≤ e.l) →
      findColorName pal (lv + 1/20000) cv hv = findColorName pal lv cv hv) := by
  refine ⟨?_, ?_, ?_⟩
  · intro n
    unfold findColorName
    rw [Option.map_eq_some']
    constructor
    · rintro ⟨e, hfind, rfl⟩
      obtain ⟨hpe, pre, post, rfl, hprev⟩ := List.find?_eq_some.mp hfind
      refine ⟨pre, e, post, rfl, rfl, (entryMatches_iff lv cv hv e).mp hpe, ?_⟩
      intro e2 he2
      rw [← entryMatches_iff lv cv hv e2]
      simpa using hprev e2 he2
    · rintro ⟨pre, e, post, rfl, rfl, hm, hprev⟩
      refine ⟨e, ?_, rfl⟩
      rw [List.find?_eq_some]
      refine ⟨(entryMatches_iff lv cv hv e).mpr hm, pre, post, rfl, ?_⟩
      intro a ha
      simpa using (entryMatches_iff lv cv hv a).not.mpr (hprev a ha)
  · unfold findColorName
    rw [Option.map_eq_none', List.find?_eq_none]
    constructor
    · intro hall e he
      exact (entryMatches_iff lv cv hv e).not.mp (by simpa using hall e he)
    · intro hall e he
      simpa using (entryMatches_iff lv cv hv e).not.mpr (hall e he)
  · intro _ hzone
    unfold findColorName
    rw [find?_congr_mem (entryMatches (lv + 1/20000) cv hv) (entryMatches lv cv hv)]
    intro e he
    by_cases hch : |e.c - cv| < 1/10000 ∧ |e.h - hv| < 1/10000
    · have hz := hzone e he hch.1 hch.2
      have : (|e.l - (lv + 1/20000)| < 1/10000) ↔ (|e.l - lv| < 1/10000) := by
        rw [abs_sub_lt_iff, abs_sub_lt_iff]
        constructor
        · rintro ⟨h1, h2⟩
          rcases hz with h3 | h3 | h3
          · constructor <;> linarith
          · constructor <;> linarith
          · constructor <;> linarith
        · rintro ⟨h1, h2⟩
          rcases hz with h3 | h3 | h3
          · constructor <;> linarith
          · constructor <;> linarith
          · constructor <;> linarith
      have hiff : entryMatches (lv + 1/20000) cv hv e = true ↔
          entryMatches lv cv hv e = true := by
        rw [entryMatches_iff, entryMatches_iff]
        constructor
        · rintro ⟨h1, h2, h3⟩; exact ⟨this.mp h1, h2, h3⟩
        · rintro ⟨h1, h2, h3⟩; exact ⟨this.mpr h1, h2, h3⟩
      cases hb1 : entryMatches (lv + 1/20000) cv hv e <;>
        cases hb2 : entryMatches lv cv hv e <;> simp_all
    · have h1 : entryMatches (lv + 1/20000) cv hv e ≠ true := by
        intro hb
        obtain ⟨-, hc, hh⟩ := (entryMatches_iff _ _ _ e).mp hb
        exact hch ⟨hc, hh⟩
      have h2 : entryMatches lv cv hv e ≠ true := by
        intro hb
        obtain ⟨-, hc, hh⟩ := (entryMatches_iff _ _ _ e).mp hb
        exact hch ⟨hc, hh⟩
      cases hb1 : entryMatches (lv + 1/20000) cv hv e <;>
        cases hb2 : entryMatches lv cv hv e <;> simp_all

/-- Witness for the amended claim C5 at a one entry palette. -/
theorem C5_first_component_wise_match_witness :
    findColorName [⟨"White".toList, 1, 0, 0⟩] (1 + 1/20000) 0 0 =
      findColorName [⟨"White".toList, 1, 0, 0⟩] 1 0 0 :=
  (C5_first_component_wise_match [⟨"White".toList, 1, 0, 0⟩] 1 0 0).2.2
    ⟨⟨"White".toList, 1, 0, 0⟩, by simp, rfl, rfl, rfl⟩
    (by
      intro e he h1 h2
      simp only [List.mem_singleton] at he
      subst he
      right; left
      norm_num)

/-! ### Claim C7: the annotation comment text -/

/-- Claim C7.  The annotation comment is `/* name */` when the alpha is
undefined or within `ε = 0.001` of `1.0`, and `/* name / P% */` with
`P = round(alpha·100)` (half rounds up) otherwise; the name used by the
annotate handler is the palette resolution of the token components, or the
literal label `Custom` when resolution fails. -/
theorem C7_annotation_comment (name : List Char) (a : ℚ) (pal : List ColorEntry)
    (t : OklchToken) :
    (createAnnotationComment name none = "/* ".toList ++ name ++ " */".toList) ∧
    (|a - 1| < 1/1000 →
      createAnnotationComment name (some a) = "/* ".toList ++ name ++ " */".toList) ∧
    (¬(|a - 1| < 1/1000) →
      createAnnotationComment name (some a) =
        "/* ".toList ++ name ++ " / ".toList ++ intDecimal ⌊a * 100 + 1/2⌋ ++
          "% */".toList) ∧
    (findColorName pal t.l t.c t.h = none → annotationNameFor pal t = customLabel) ∧
    (∀ n, findColorName pal t.l t.c t.h = some n → annotationNameFor pal t = n) := by
  refine ⟨rfl, ?_, ?_, ?_, ?_⟩
  · intro ha
    unfold createAnnotationComment
    simp only [approxEqual, decide_eq_true_eq]
    rw [if_pos (by simpa using ha)]
  · intro ha
    unfold createAnnotationComment
    simp only [approxEqual, decide_eq_true_eq]
    rw [if_neg (by simpa using ha)]
    simp [jsRound, List.append_assoc]
  · intro hn
    unfold annotationNameFor
    rw [hn]
  · intro n hn
    unfold annotationNameFor
    rw [hn]

unseal Rat.add Rat.sub Rat.mul Rat.inv in
/-- Witness for claim C7: a translucent custom color yields
`/* Custom / 15% */`, an opaque named color yields `/* White */`. -/
theorem C7_annotation_comment_witness :
    createAnnotationComment "Custom".toList (some (mkRat 15 100)) =
      "/* Custom / 15% */".toList ∧
    createAnnotationComment "White".toList (some 1) = "/* White */".toList := by
  constructor
  · have h := (C7_annotation_comment "Custom".toList (mkRat 15 100) []
      ⟨0, 0, 0, none, none, 0, 0⟩).2.2.1 (by
        rw [Rat.mkRat_eq_div, abs_sub_lt_iff]
        norm_num)
    rw [h]
    decide
  · have h := (C7_annotation_comment "White".toList 1 []
      ⟨0, 0, 0, none, none, 0, 0⟩).2.1 (by norm_num)
    rw [h]
    decide

/-! ### Token text correspondence: captures are verbatim substrings -/

/-- Every scanned token arises from a match whose text sits verbatim in the
scanned suffix, and the token fields come from `mkToken` on that match. -/
theorem scanAux_text : ∀ (f : Nat) (s : List Char) (pos : Nat),
    ∀ t ∈ scanAux f s pos, ∃ m pre rest,
      s = pre ++ MatchParts.text m ++ rest ∧ pos + pre.length = t.start ∧
      mkToken t.start m = some t := by
  intro f
  induction f with
  | zero => intro s pos t ht; simp [scanAux] at ht
  | succ f ih =>
    intro s pos t ht
    cases s with
    | nil => simp [scanAux] at ht
    | cons ch r =>
      simp only [scanAux] at ht
      cases hm : matchOklchAt (ch :: r) with
      | some pr =>
        obtain ⟨m, rest⟩ := pr
        rw [hm] at ht
        simp only [] at ht
        have hdec := matchOklchAt_decomp hm
        cases hk : mkToken pos m with
        | some u =>
          rw [hk] at ht
          try simp only [] at ht
          rcases List.mem_cons.mp ht with rfl | ht
          · exact ⟨m, [], rest, by simpa using hdec, by simp [(mkToken_some_fields hk).1],
              by rwa [(mkToken_some_fields hk).1]⟩
          · obtain ⟨m', pre', rest', hs', hpos', hmk'⟩ := ih rest (pos + m.len) t ht
            refine ⟨m', m.text ++ pre', rest', ?_, ?_, hmk'⟩
            · rw [hdec, hs']
              simp [List.append_assoc]
            · have hlen2 : (MatchParts.text m ++ pre').length =
                  MatchParts.len m + pre'.length := by
                simp [MatchParts.len]
              omega
        | none =>
          rw [hk] at ht
          try simp only [] at ht
          obtain ⟨m', pre', rest', hs', hpos', hmk'⟩ := ih rest (pos + m.len) t ht
          refine ⟨m', m.text ++ pre', rest', ?_, ?_, hmk'⟩
          · rw [hdec, hs']
            simp [List.append_assoc]
          · have hlen2 : (MatchParts.text m ++ pre').length =
                MatchParts.len m + pre'.length := by
              simp [MatchParts.len]
            omega
      | none =>
        rw [hm] at ht
        try simp only [] at ht
        obtain ⟨m', pre', rest', hs', hpos', hmk'⟩ := ih r (pos + 1) t ht
        refine ⟨m', ch :: pre', rest', ?_, ?_, hmk'⟩
        · rw [hs']
          simp
        · simp only [List.length_cons] at hpos' ⊢
          omega

/-! ### Claim C4: alpha is reproduced byte for byte -/

/-- Claim C4.  Replacing the color of a token that carries an alpha clause
builds `oklch(` followed by the palette values joined by single spaces,
then the original alpha substring verbatim, then `)`; the plan of the
replace color handler replaces the token span with exactly that text; and
the alpha substring really is a verbatim substring of the original buffer,
lying inside the token span — it is never re-derived from the numeric
value. -/
theorem C4_alpha_fidelity (buf : List Char) (t : OklchToken) (entry : ColorEntry)
    (araw : List Char) (ht : t ∈ scanTokens buf) (ha : t.alphaRaw = some araw) :
    createOklchString entry t.alphaRaw =
      oklchHead ++ renderQ entry.l ++ ' ' :: renderQ entry.c ++ ' ' :: renderQ entry.h ++
        araw ++ [')'] ∧
    (selectPlan buf t.start t.len t.alphaRaw entry).head? =
      some (.replaceOp t.start t.len (createOklchString entry t.alphaRaw)) ∧
    ∃ i, (buf.drop i).take araw.length = araw ∧
      t.start ≤ i ∧ i + araw.length ≤ t.start + t.len := by
  obtain ⟨m, pre, rest, hs, hpos, hmk⟩ := scanAux_text buf.length buf 0 t ht
  obtain ⟨hstart, hlen, halpha⟩ := mkToken_some_fields hmk
  have hma : m.alphaRaw = some araw := by rw [← halpha, ha]
  refine ⟨by rw [ha]; rfl, by rw [ha]; rfl, ?_⟩
  have htext : MatchParts.text m =
      (oklchHead ++ m.ws1 ++ m.lRaw ++ m.ws2 ++ m.cRaw ++ m.ws3 ++ m.hRaw) ++
        araw ++ (m.wsEnd ++ [')']) := by
    unfold MatchParts.text
    rw [hma]
    simp [List.append_assoc]
  refine ⟨(pre ++ (oklchHead ++ m.ws1 ++ m.lRaw ++ m.ws2 ++ m.cRaw ++ m.ws3 ++
    m.hRaw)).length, ?_, ?_, ?_⟩
  · have hbuf : buf =
        (pre ++ (oklchHead ++ m.ws1 ++ m.lRaw ++ m.ws2 ++ m.cRaw ++ m.ws3 ++ m.hRaw)) ++
          (araw ++ (m.wsEnd ++ [')'] ++ rest)) := by
      rw [hs, htext]
      simp [List.append_assoc]
    rw [hbuf, List.drop_left]
    rw [List.take_append_of_le_length le_rfl, List.take_length]
  · rw [← hpos]
    simp
  · have : MatchParts.len m =
        (oklchHead ++ m.ws1 ++ m.lRaw ++ m.ws2 ++ m.cRaw ++ m.ws3 ++ m.hRaw).length +
          araw.length + (m.wsEnd ++ [')']).length := by
      unfold MatchParts.len
      rw [htext]
      simp [List.append_assoc]
      omega
    rw [← hpos, hlen]
    simp only [List.length_append] at this ⊢
    omega

unseal Rat.add Rat.sub Rat.mul Rat.inv in
/-- Witness for claim C4, at the buffer `a: oklch(1 0 0 / 15%);` with the
token the scanner produces for it and target entry `White`. -/
theorem C4_alpha_fidelity_witness :
    createOklchString ⟨"White".toList, 1, 0, 0⟩
        (OklchToken.alphaRaw ⟨1, 0, 0, some (mkRat 3 20), some " / 15%".toList, 3, 18⟩) =
      oklchHead ++ renderQ (1 : ℚ) ++ ' ' :: renderQ (0 : ℚ) ++ ' ' :: renderQ (0 : ℚ) ++
        " / 15%".toList ++ [')'] ∧
    (selectPlan "a: oklch(1 0 0 / 15%);".toList 3 18
        (OklchToken.alphaRaw ⟨1, 0, 0, some (mkRat 3 20), some " / 15%".toList, 3, 18⟩)
        ⟨"White".toList, 1, 0, 0⟩).head? =
      some (.replaceOp 3 18 (createOklchString ⟨"White".toList, 1, 0, 0⟩
        (OklchToken.alphaRaw ⟨1, 0, 0, some (mkRat 3 20), some " / 15%".toList, 3, 18⟩))) ∧
    ∃ i, (("a: oklch(1 0 0 / 15%);".toList).drop i).take (" / 15%".toList).length =
        " / 15%".toList ∧ 3 ≤ i ∧ i + (" / 15%".toList).length ≤ 3 + 18 :=
  C4_alpha_fidelity "a: oklch(1 0 0 / 15%);".toList
    ⟨1, 0, 0, some (mkRat 3 20), some " / 15%".toList, 3, 18⟩
    ⟨"White".toList, 1, 0, 0⟩ " / 15%".toList (by decide) rfl

/-! ### Claim C6: exact rejection conditions of the scanner -/

set_option maxRecDepth 4000 in
set_option exponentiation.threshold 1100 in
unseal Rat.add Rat.sub Rat.mul Rat.inv in
/-- Counterexample to claim C6 as stated.  A 310 digit `L` numeral matches
the regex and does not parse as a finite JavaScript number (its value
exceeds the double overflow threshold, so `parseFloat` yields `Infinity`),
yet the scanner accepts the token: the code checks only `isNaN`, not
finiteness. -/
theorem C6_infinity_counterexample :
    matchOklchAt (oklchHead ++ List.replicate 310 '9' ++ " 0 0)".toList) =
      some (⟨[], List.replicate 310 '9', [' '], ['0'], [' '], ['0'], none, []⟩, []) ∧
    parsesFiniteB (List.replicate 310 '9') = false ∧
    (mkToken 0 ⟨[], List.replicate 310 '9', [' '], ['0'], [' '], ['0'], none, []⟩).isSome
      = true := by
  decide


theorem mkToken_none_iff (pos : Nat) (m : MatchParts) :
    mkToken pos m = none ↔
      parseFloatQ m.lRaw = none ∨ parseFloatQ m.cRaw = none ∨ parseFloatQ m.hRaw = none ∨
        ∃ g, m.alphaRaw = some g ∧ deriveAlpha g = none := by
  unfold mkToken
  cases hl : parseFloatQ m.lRaw <;> cases hc : parseFloatQ m.cRaw <;>
      cases hh : parseFloatQ m.hRaw <;>
    simp_all
  cases ha : m.alphaRaw with
  | none => simp
  | some g =>
    cases hd : deriveAlpha g <;> simp_all

theorem mkToken_alpha_derived {pos : Nat} {m : MatchParts} {t : OklchToken}
    (h : mkToken pos m = some t) {g : List Char} (hg : t.alphaRaw = some g) :
    deriveAlpha g = t.alpha ∧ ∃ av, t.alpha = some av := by
  unfold mkToken at h
  iterate 5 (all_goals try split at h)
  all_goals try simp at h
  all_goals obtain rfl := h
  all_goals simp_all

/-- Claim C6 (amended).  A regex match is rejected exactly when one of `L`,
`C`, `H` does not parse as a number at all (JavaScript `NaN`), or an alpha
clause is present whose numeric part does not parse at all; the code checks
only `isNaN`, so a component whose numeral overflows the double range to
`Infinity` is still accepted (see the counterexample).  A rejected match
yields no token at all, yet the scan continues past it unchanged; and an
accepted token carrying an alpha substring always carries a numeric alpha
derived from that substring. -/
theorem C6_rejection_exactness (buf : List Char) (pos : Nat) (m : MatchParts) :
    (mkToken pos m = none ↔
      parseFloatQ m.lRaw = none ∨ parseFloatQ m.cRaw = none ∨ parseFloatQ m.hRaw = none ∨
        ∃ g, m.alphaRaw = some g ∧ deriveAlpha g = none) ∧
    (∀ t ∈ scanTokens buf, ∀ g, t.alphaRaw = some g →
      deriveAlpha g = t.alpha ∧ ∃ av, t.alpha = some av) ∧
    (∀ (s rest2 : List Char) (m2 : MatchParts) (pos2 : Nat),
      matchOklchAt s = some (m2, rest2) → mkToken pos2 m2 = none →
      scanAux s.length s pos2 = scanAux rest2.length rest2 (pos2 + m2.len)) := by
  refine ⟨mkToken_none_iff pos m, ?_, ?_⟩
  · intro t ht g hg
    obtain ⟨m', pre, rest, -, -, hmk⟩ := scanAux_text buf.length buf 0 t ht
    exact mkToken_alpha_derived hmk hg
  · intro s rest2 m2 pos2 hm hk
    cases s with
    | nil => simp [matchOklchAt, oklchHead] at hm
    | cons ch r =>
      have hlen := matchOklchAt_rest_len hm
      have hge := m2.len_ge
      simp only [List.length_cons, scanAux]
      rw [hm]
      simp only []
      rw [hk]
      exact scanAux_fuel r.length rest2
        (by simp only [List.length_cons] at hlen; omega) r.length rest2.length _
        (by simp only [List.length_cons] at hlen; omega) le_rfl

unseal Rat.add Rat.sub Rat.mul Rat.inv in
/-- Witness for claim C6 at the buffer `oklch(1 0 0 / %) oklch(2 0 0)`:
the first match carries the unparseable alpha numeral `%` and is rejected,
and the scan continues with the second token intact. -/
theorem C6_rejection_exactness_witness :
    mkToken 0 (⟨[], ['1'], [' '], ['0'], [' '], ['0'],
      some " / %".toList, []⟩ : MatchParts) = none ∧
    scanAux ("oklch(1 0 0 / %) oklch(2 0 0)".toList).length
        "oklch(1 0 0 / %) oklch(2 0 0)".toList 0 =
      scanAux (" oklch(2 0 0)".toList).length " oklch(2 0 0)".toList
        (0 + (⟨[], ['1'], [' '], ['0'], [' '], ['0'],
          some " / %".toList, []⟩ : MatchParts).len) := by
  have h := C6_rejection_exactness "oklch(1 0 0 / %) oklch(2 0 0)".toList 0
    (⟨[], ['1'], [' '], ['0'], [' '], ['0'], some " / %".toList, []⟩ : MatchParts)
  refine ⟨?_, ?_⟩
  · exact h.1.mpr (Or.inr (Or.inr (Or.inr ⟨" / %".toList, rfl, by decide⟩)))
  · exact h.2.2 "oklch(1 0 0 / %) oklch(2 0 0)".toList " oklch(2 0 0)".toList
      (⟨[], ['1'], [' '], ['0'], [' '], ['0'], some " / %".toList, []⟩ : MatchParts) 0
      (by decide) (by decide)

/-! ### Claim C8: the replace color handler and the comment -/

unseal Rat.add Rat.sub Rat.mul Rat.inv in
/-- Counterexample to claim C8.  For a token with no adjacent comment the
replace color handler emits only the color replacement — no `Insert` of the
new comment is ever emitted, contradicting the claimed annotate rules. -/
theorem C8_no_insert_counterexample :
    selectPlan "x: oklch(1 0 0);".toList 3 12 none ⟨"White".toList, 1, 0, 0⟩ =
      [.replaceOp 3 12 (createOklchString ⟨"White".toList, 1, 0, 0⟩ none)] ∧
    ∀ op ∈ selectPlan "x: oklch(1 0 0);".toList 3 12 none ⟨"White".toList, 1, 0, 0⟩,
      op.isInsert = false := by
  decide

/-- Claim C8 as amended.  The replace color handler emits the color span
replacement and, when an adjacent comment exists, an unconditional
`Replace` of the comment span with the comment computed from the newly
chosen name (even when the text coincides); when no adjacent comment
exists, no comment edit is emitted at all — unlike Annotate, it never
inserts and never compares against the existing text. -/
theorem C8_replace_comment_behavior (buf : List Char) (start len : Nat)
    (araw : Option (List Char)) (entry : ColorEntry) :
    (∀ w c, findAdjacentComment (buf.drop (start + len)) = some (w, c) →
      selectPlan buf start len araw entry =
        [.replaceOp start len (createOklchString entry araw),
         .replaceOp (start + len + w) c
           (createAnnotationComment entry.name (araw.bind deriveAlpha))]) ∧
    (findAdjacentComment (buf.drop (start + len)) = none →
      selectPlan buf start len araw entry =
        [.replaceOp start len (createOklchString entry araw)]) := by
  constructor
  · intro w c hc
    unfold selectPlan
    rw [hc]
  · intro hc
    unfold selectPlan
    rw [hc]

unseal Rat.add Rat.sub Rat.mul Rat.inv in
/-- Witness for the amended claim C8: with an adjacent comment `/* hi */`
both edits appear; without one, only the color replacement. -/
theorem C8_replace_comment_behavior_witness :
    selectPlan "oklch(1 0 0) /* hi */".toList 0 12 none ⟨"White".toList, 1, 0, 0⟩ =
      [.replaceOp 0 12 (createOklchString ⟨"White".toList, 1, 0, 0⟩ none),
       .replaceOp (0 + 12 + 1) 8
         (createAnnotationComment "White".toList (Option.bind none deriveAlpha))] ∧
    selectPlan "oklch(1 0 0);".toList 0 12 none ⟨"White".toList, 1, 0, 0⟩ =
      [.replaceOp 0 12 (createOklchString ⟨"White".toList, 1, 0, 0⟩ none)] :=
  ⟨(C8_replace_comment_behavior "oklch(1 0 0) /* hi */".toList 0 12 none
      ⟨"White".toList, 1, 0, 0⟩).1 1 8 (by decide),
   (C8_replace_comment_behavior "oklch(1 0 0);".toList 0 12 none
      ⟨"White".toList, 1, 0, 0⟩).2 (by decide)⟩

/-! ### Claim C9: missing target shades are skipped, not fatal -/

theorem length_filterMap_eq_length_filter {α β : Type _} (f : α → Option β) :
    ∀ l : List α, (l.filterMap f).length = (l.filter (fun a => (f a).isSome)).length := by
  intro l
  induction l with
  | nil => rfl
  | cons a r ih =>
    rw [List.filterMap_cons, List.filter_cons]
    cases hf : f a with
    | none => simpa [hf] using ih
    | some b => simpa [hf] using ih

unseal Rat.add Rat.sub Rat.mul Rat.inv in
/-- Claim C9.  A gray token whose target entry `{target} {shade}` is absent
from the palette is skipped: its step emits no edit and the reported count
is the number of gray tokens whose target entry is present.  In the spec
scenario — `Slate 500` and `Slate 700` converting to `Zinc` with `Zinc 700`
missing — exactly one token converts, the count is 1, and the only emitted
pair is for the first token. -/
theorem C9_missing_target_skipped (pal : List ColorEntry) (buf target : List Char) :
    (∀ g ∈ grayInfos pal buf,
      pal.find? (fun e => e.name = target ++ ' ' :: g.shade) = none →
        convertStep pal buf target g = none) ∧
    convertedCount pal buf target =
      ((grayInfos pal buf).filter
        (fun g => (pal.find? (fun e => e.name = target ++ ' ' :: g.shade)).isSome)).length ∧
    (convertedCount
        [⟨"Slate 500".toList, mkRat 554 1000, mkRat 46 1000, mkRat 257417 1000⟩,
         ⟨"Slate 700".toList, mkRat 372 1000, mkRat 44 1000, mkRat 257287 1000⟩,
         ⟨"Zinc 500".toList, mkRat 552 1000, mkRat 16 1000, mkRat 285938 1000⟩]
        "a: oklch(0.554 0.046 257.417); b: oklch(0.372 0.044 257.287);".toList
        "Zinc".toList = 1 ∧
      (grayInfos
        [⟨"Slate 500".toList, mkRat 554 1000, mkRat 46 1000, mkRat 257417 1000⟩,
         ⟨"Slate 700".toList, mkRat 372 1000, mkRat 44 1000, mkRat 257287 1000⟩,
         ⟨"Zinc 500".toList, mkRat 552 1000, mkRat 16 1000, mkRat 285938 1000⟩]
        "a: oklch(0.554 0.046 257.417); b: oklch(0.372 0.044 257.287);".toList).length = 2 ∧
      (convertPairs
        [⟨"Slate 500".toList, mkRat 554 1000, mkRat 46 1000, mkRat 257417 1000⟩,
         ⟨"Slate 700".toList, mkRat 372 1000, mkRat 44 1000, mkRat 257287 1000⟩,
         ⟨"Zinc 500".toList, mkRat 552 1000, mkRat 16 1000, mkRat 285938 1000⟩]
        "a: oklch(0.554 0.046 257.417); b: oklch(0.372 0.044 257.287);".toList
        "Zinc".toList).map Prod.fst = [3]) := by
  refine ⟨?_, ?_, by decide⟩
  · intro g hg hf
    unfold convertStep
    simp only [] at hf ⊢
    rw [hf]
  · unfold convertedCount convertPairs
    rw [length_filterMap_eq_length_filter]
    rw [List.filter_reverse, List.length_reverse]
    congr 1
    apply List.filter_congr
    intro g hg
    unfold convertStep
    cases hf : pal.find? (fun e => e.name = target ++ ' ' :: g.shade) <;> simp [hf]

unseal Rat.add Rat.sub Rat.mul Rat.inv in
/-- Witness for claim C9: the `Slate 700` gray token with missing target
entry `Zinc 700` yields no edit. -/
theorem C9_missing_target_skipped_witness :
    convertStep
      [⟨"Slate 500".toList, mkRat 554 1000, mkRat 46 1000, mkRat 257417 1000⟩,
       ⟨"Slate 700".toList, mkRat 372 1000, mkRat 44 1000, mkRat 257287 1000⟩,
       ⟨"Zinc 500".toList, mkRat 552 1000, mkRat 16 1000, mkRat 285938 1000⟩]
      "a: oklch(0.554 0.046 257.417); b: oklch(0.372 0.044 257.287);".toList
      "Zinc".toList
      ⟨⟨mkRat 93 250, mkRat 11 250, mkRat 257287 1000, none, none, 34, 26⟩,
        "Slate 700".toList, "700".toList⟩ = none :=
  (C9_missing_target_skipped
    [⟨"Slate 500".toList, mkRat 554 1000, mkRat 46 1000, mkRat 257417 1000⟩,
     ⟨"Slate 700".toList, mkRat 372 1000, mkRat 44 1000, mkRat 257287 1000⟩,
     ⟨"Zinc 500".toList, mkRat 552 1000, mkRat 16 1000, mkRat 285938 1000⟩]
    "a: oklch(0.554 0.046 257.417); b: oklch(0.372 0.044 257.287);".toList
    "Zinc".toList).1
    ⟨⟨mkRat 93 250, mkRat 11 250, mkRat 257287 1000, none, none, 34, 26⟩,
      "Slate 700".toList, "700".toList⟩ (by decide) (by decide)

/-! ### Claim C3: the annotate / remove round trip -/

unseal Rat.add Rat.sub Rat.mul Rat.inv in
/-- Counterexample to claim C3.  A buffer that already carries a
well-formed (and even accurate) annotation is not restored: annotate
leaves it unchanged, but removal deletes the pre-existing annotation. -/
theorem C3_roundtrip_counterexample :
    annotateAll [⟨"White".toList, 1, 0, 0⟩] "oklch(1 0 0) /* White */".toList =
      "oklch(1 0 0) /* White */".toList ∧
    removeAll (annotateAll [⟨"White".toList, 1, 0, 0⟩]
        "oklch(1 0 0) /* White */".toList) ≠
      "oklch(1 0 0) /* White */".toList := by
  decide

/-! ### Character class facts -/

theorem isWs_val (ch : Char) : isWs ch = true ↔
    ch.val = 32 ∨ ch.val = 9 ∨ ch.val = 10 ∨ ch.val = 13 ∨
    ch.val = 11 ∨ ch.val = 12 ∨ ch.val = 160 ∨ ch.val = 65279 := by
  simp only [isWs, Bool.or_eq_true, decide_eq_true_eq, Char.ext_iff]
  have h1 : (' ' : Char).val = 32 := rfl
  have h2 : ('\t' : Char).val = 9 := rfl
  have h3 : ('\n' : Char).val = 10 := rfl
  have h4 : ('\x0d' : Char).val = 13 := rfl
  rw [h1, h2, h3, h4]
  tauto

theorem isWs_false_of_isNumCh {ch : Char} (h : isNumCh ch = true) : isWs ch = false := by
  simp only [isNumCh, Bool.or_eq_true, decide_eq_true_eq] at h
  cases hb : isWs ch
  · rfl
  · exfalso
    rcases h with hd | rfl
    · rw [isWs_val] at hb
      simp only [Char.isDigit, Bool.and_eq_true, decide_eq_true_eq, ge_iff_le] at hd
      obtain ⟨h48, h57⟩ := hd
      rcases hb with hv | hv | hv | hv | hv | hv | hv | hv <;>
        rw [hv] at h48 h57 <;> exact absurd (And.intro h48 h57) (by decide)
    · exact absurd hb (by decide)

theorem isWs_false_of_isPctCh {ch : Char} (h : isPctCh ch = true) : isWs ch = false := by
  simp only [isPctCh, Bool.or_eq_true, decide_eq_true_eq] at h
  rcases h with h | h
  · rcases h with hd | rfl
    · exact isWs_false_of_isNumCh (by simp [isNumCh, hd])
    · decide
  · subst h
    decide

theorem isNumCh_false_of_isWs {ch : Char} (h : isWs ch = true) : isNumCh ch = false := by
  cases hb : isNumCh ch
  · rfl
  · rw [isWs_false_of_isNumCh hb] at h
    exact absurd h (by simp)

theorem isPctCh_false_of_isWs {ch : Char} (h : isWs ch = true) : isPctCh ch = false := by
  cases hb : isPctCh ch
  · rfl
  · rw [isWs_false_of_isPctCh hb] at h
    exact absurd h (by simp)

theorem mem_takeWhile_pred {p : Char → Bool} {l : List Char} :
    ∀ ch ∈ l.takeWhile p, p ch = true := by
  intro ch hch
  have := List.all_takeWhile (l := l) (p := p)
  exact List.all_eq_true.mp this ch hch

/-- A successful body match produces well formed pieces. -/
theorem matchBody_wf {s : List Char} {m : MatchParts} {rest : List Char}
    (h : matchBody s = some (m, rest)) : WFParts m := by
  unfold matchBody at h
  simp only [] at h
  iterate 10 (all_goals try split at h)
  all_goals (try simp only [Option.some.injEq, Prod.mk.injEq, reduceCtorEq] at h)
  case h_2.h_2.h_2.h_2.h_2.h_1 =>
    rename_i x5 a5 r5 h1 x4 a4 r4 h2 x3 a3 r3 h3 x2 a2 r2 h4 x1 a1 r1 h5 x0 rst h6
    obtain ⟨hm, hrest⟩ := h
    subst hrest
    rw [← hm]
    obtain ⟨ha5, -, hne5⟩ := reqClass_eq_some h1
    obtain ⟨ha4, -, hne4⟩ := reqClass_eq_some h2
    obtain ⟨ha3, -, hne3⟩ := reqClass_eq_some h3
    obtain ⟨ha2, -, hne2⟩ := reqClass_eq_some h4
    obtain ⟨ha1, -, hne1⟩ := reqClass_eq_some h5
    subst ha5 ha4 ha3 ha2 ha1
    refine ⟨fun ch hch => mem_takeWhile_pred ch hch, fun ch hch => mem_takeWhile_pred ch hch,
      fun ch hch => mem_takeWhile_pred ch hch, fun ch hch => mem_takeWhile_pred ch hch,
      fun ch hch => mem_takeWhile_pred ch hch, fun ch hch => mem_takeWhile_pred ch hch,
      fun ch hch => mem_takeWhile_pred ch hch, ?_, ?_, ?_, ?_, ?_, trivial⟩
    all_goals simp_all [List.isEmpty_iff]
  case h_2.h_2.h_2.h_2.h_2.h_2.h_2.h_1 =>
    rename_i x5 a5 r5 h1 x4 a4 r4 h2 x3 a3 r3 h3 x2 a2 r2 h4 x1 a1 r1 h5 x8 s8 h6 x7 a0 r0 h7 x0 rst h8
    obtain ⟨hm, hrest⟩ := h
    subst hrest
    rw [← hm]
    obtain ⟨ha5, -, hne5⟩ := reqClass_eq_some h1
    obtain ⟨ha4, -, hne4⟩ := reqClass_eq_some h2
    obtain ⟨ha3, -, hne3⟩ := reqClass_eq_some h3
    obtain ⟨ha2, -, hne2⟩ := reqClass_eq_some h4
    obtain ⟨ha1, -, hne1⟩ := reqClass_eq_some h5
    obtain ⟨ha0, -, hne0⟩ := reqClass_eq_some h7
    subst ha5 ha4 ha3 ha2 ha1 ha0
    refine ⟨fun ch hch => mem_takeWhile_pred ch hch, fun ch hch => mem_takeWhile_pred ch hch,
      fun ch hch => mem_takeWhile_pred ch hch, fun ch hch => mem_takeWhile_pred ch hch,
      fun ch hch => mem_takeWhile_pred ch hch, fun ch hch => mem_takeWhile_pred ch hch,
      fun ch hch => mem_takeWhile_pred ch hch, ?_, ?_, ?_, ?_, ?_, ?_⟩
    · simp_all [List.isEmpty_iff]
    · simp_all [List.isEmpty_iff]
    · simp_all [List.isEmpty_iff]
    · simp_all [List.isEmpty_iff]
    · simp_all [List.isEmpty_iff]
    · refine ⟨_, _, _, rfl, fun ch hch => mem_takeWhile_pred ch hch,
        fun ch hch => mem_takeWhile_pred ch hch, fun ch hch => mem_takeWhile_pred ch hch, ?_⟩
      simp_all [List.isEmpty_iff]

theorem matchOklchAt_wf {s : List Char} {m : MatchParts} {rest : List Char}
    (h : matchOklchAt s = some (m, rest)) : WFParts m := by
  unfold matchOklchAt at h
  split at h
  · exact matchBody_wf h
  · exact absurd h (by simp)

/-- Splitting a class run against a boundary character. -/
theorem takeWhile_class_split {p : Char → Bool} {u v : List Char}
    (hu : ∀ ch ∈ u, p ch = true) (hv : ∀ ch ∈ v.head?, p ch = false) :
    (u ++ v).takeWhile p = u ∧ (u ++ v).dropWhile p = v := by
  constructor
  · rw [List.takeWhile_append_of_pos hu]
    cases v with
    | nil => simp
    | cons a w =>
      rw [List.takeWhile_cons_of_neg]
      · simp
      · simp [hv a rfl]
  · rw [List.dropWhile_append_of_pos hu]
    cases v with
    | nil => simp
    | cons a w =>
      rw [List.dropWhile_cons_of_neg]
      simp [hv a rfl]

theorem reqClass_split {p : Char → Bool} {u v : List Char}
    (hu : ∀ ch ∈ u, p ch = true) (hv : ∀ ch ∈ v.head?, p ch = false) (hne : u ≠ []) :
    reqClass p (u ++ v) = some (u, v) := by
  obtain ⟨ht, hd⟩ := takeWhile_class_split hu hv
  unfold reqClass
  rw [ht, hd, if_neg (by simpa [List.isEmpty_iff] using hne)]

/-- Head boundary: after a nonempty class run, the head of the whole list
fails any class disjoint from the first. -/
theorem head_boundary {p q : Char → Bool} {u v : List Char}
    (hu : ∀ ch ∈ u, p ch = true) (hne : u ≠ [])
    (hpq : ∀ ch2, p ch2 = true → q ch2 = false) :
    ∀ ch ∈ (u ++ v).head?, q ch = false := by
  intro ch hch
  cases u with
  | nil => exact absurd rfl hne
  | cons a w =>
    simp only [List.cons_append, List.head?_cons, Option.mem_def,
      Option.some.injEq] at hch
    rw [← hch]
    exact hpq a (hu a (by simp))

/-- Head boundary through a possibly empty class run. -/
theorem head_boundary_opt {p q : Char → Bool} {u v : List Char}
    (hu : ∀ ch ∈ u, p ch = true)
    (hpq : ∀ ch2, p ch2 = true → q ch2 = false)
    (hv : ∀ ch ∈ v.head?, q ch = false) :
    ∀ ch ∈ (u ++ v).head?, q ch = false := by
  intro ch hch
  cases u with
  | nil => exact hv ch (by simpa using hch)
  | cons a w =>
    simp only [List.cons_append, List.head?_cons, Option.mem_def,
      Option.some.injEq] at hch
    rw [← hch]
    exact hpq a (hu a (by simp))

theorem head_singleton {q : Char → Bool} {a : Char} {v : List Char}
    (ha : q a = false) : ∀ ch ∈ (a :: v).head?, q ch = false := by
  intro ch hch
  simp only [List.head?_cons, Option.mem_def, Option.some.injEq] at hch
  rw [← hch]
  exact ha

/-- Reduction of the body matcher along the spine of a well formed match:
everything up to and including the `H` component is consumed, leaving the
residual computation on `tail`. -/
theorem matchBody_spine (ws1 lR ws2 cR ws3 hR tail : List Char)
    (hw1 : ∀ ch ∈ ws1, isWs ch = true) (hl : ∀ ch ∈ lR, isNumCh ch = true)
    (hw2 : ∀ ch ∈ ws2, isWs ch = true) (hc : ∀ ch ∈ cR, isNumCh ch = true)
    (hw3 : ∀ ch ∈ ws3, isWs ch = true) (hh : ∀ ch ∈ hR, isNumCh ch = true)
    (hlne : lR ≠ []) (hw2ne : ws2 ≠ []) (hcne : cR ≠ []) (hw3ne : ws3 ≠ [])
    (hhne : hR ≠ []) (htail : ∀ ch ∈ tail.head?, isNumCh ch = false) :
    matchBody (ws1 ++ (lR ++ (ws2 ++ (cR ++ (ws3 ++ (hR ++ tail)))))) =
      (match tail.dropWhile isWs with
       | ')' :: rest =>
         some (⟨ws1, lR, ws2, cR, ws3, hR, none, tail.takeWhile isWs⟩, rest)
       | '/' :: s8 =>
         match reqClass isPctCh (s8.dropWhile isWs) with
         | none => none
         | some (aR, s10) =>
           match s10.dropWhile isWs with
           | ')' :: rest =>
             some (⟨ws1, lR, ws2, cR, ws3, hR,
               some (tail.takeWhile isWs ++ '/' :: s8.takeWhile isWs ++ aR),
               s10.takeWhile isWs⟩, rest)
           | _ => none
       | _ => none) := by
  unfold matchBody
  obtain ⟨ht1, hd1⟩ := takeWhile_class_split hw1
    (head_boundary hl hlne (fun ch2 h => isWs_false_of_isNumCh h))
  rw [ht1, hd1]
  simp only []
  rw [reqClass_split hl
    (head_boundary hw2 hw2ne (fun ch2 h => isNumCh_false_of_isWs h)) hlne]
  simp only []
  rw [reqClass_split hw2
    (head_boundary hc hcne (fun ch2 h => isWs_false_of_isNumCh h)) hw2ne]
  simp only []
  rw [reqClass_split hc
    (head_boundary hw3 hw3ne (fun ch2 h => isNumCh_false_of_isWs h)) hcne]
  simp only []
  rw [reqClass_split hw3
    (head_boundary hh hhne (fun ch2 h => isWs_false_of_isNumCh h)) hw3ne]
  simp only []
  rw [reqClass_split hh htail hhne]

/-- The matcher accepts the text of any well formed match, whatever
follows it, and consumes exactly that text. -/
theorem matchOklchAt_sound (m : MatchParts) (hwf : WFParts m) (r2 : List Char) :
    matchOklchAt (m.text ++ r2) = some (m, r2) := by
  obtain ⟨hw1, hw2, hw3, hwE, hl, hc, hh, hlne, hw2ne, hcne, hw3ne, hhne, halpha⟩ := hwf
  have hwErpar : ∀ ch ∈ (m.wsEnd ++ ')' :: r2).head?, isNumCh ch = false :=
    head_boundary_opt hwE (fun ch2 h => isNumCh_false_of_isWs h)
      (head_singleton (by decide))
  have hwErparSplit : (m.wsEnd ++ ')' :: r2).takeWhile isWs = m.wsEnd ∧
      (m.wsEnd ++ ')' :: r2).dropWhile isWs = ')' :: r2 :=
    takeWhile_class_split hwE (head_singleton (by decide))
  cases halph : m.alphaRaw with
  | none =>
    have htext : m.text ++ r2 = oklchHead ++
        (m.ws1 ++ (m.lRaw ++ (m.ws2 ++ (m.cRaw ++ (m.ws3 ++ (m.hRaw ++
          (m.wsEnd ++ ')' :: r2))))))) := by
      simp [MatchParts.text, halph, List.append_assoc]
    rw [htext]
    unfold matchOklchAt
    rw [List.take_append_of_le_length (by simp [oklchHead]),
      List.drop_append_of_le_length (by simp [oklchHead])]
    rw [show oklchHead.take 6 = oklchHead from by decide,
      show oklchHead.drop 6 = [] from by decide, if_pos rfl]
    simp only [List.nil_append]
    rw [matchBody_spine m.ws1 m.lRaw m.ws2 m.cRaw m.ws3 m.hRaw
      (m.wsEnd ++ ')' :: r2) hw1 hl hw2 hc hw3 hh hlne hw2ne hcne hw3ne hhne hwErpar]
    rw [hwErparSplit.2]
    simp only []
    rw [hwErparSplit.1]
    congr 1
    rw [Prod.mk.injEq]
    refine ⟨?_, rfl⟩
    cases m
    simp_all
  | some g =>
    rw [halph] at halpha
    obtain ⟨w4, w5, aR, hg, hw4, hw5, haR, haRne⟩ := halpha
    have htext : m.text ++ r2 = oklchHead ++
        (m.ws1 ++ (m.lRaw ++ (m.ws2 ++ (m.cRaw ++ (m.ws3 ++ (m.hRaw ++
          (w4 ++ ('/' :: (w5 ++ (aR ++ (m.wsEnd ++ ')' :: r2))))))))))) := by
      simp [MatchParts.text, halph, hg, List.append_assoc]
    rw [htext]
    unfold matchOklchAt
    rw [List.take_append_of_le_length (by simp [oklchHead]),
      List.drop_append_of_le_length (by simp [oklchHead])]
    rw [show oklchHead.take 6 = oklchHead from by decide,
      show oklchHead.drop 6 = [] from by decide, if_pos rfl]
    simp only [List.nil_append]
    have hw4tail : ∀ ch ∈ (w4 ++ ('/' :: (w5 ++ (aR ++ (m.wsEnd ++ ')' :: r2))))).head?,
        isNumCh ch = false :=
      head_boundary_opt hw4 (fun ch2 h => isNumCh_false_of_isWs h)
        (head_singleton (by decide))
    rw [matchBody_spine m.ws1 m.lRaw m.ws2 m.cRaw m.ws3 m.hRaw
      (w4 ++ ('/' :: (w5 ++ (aR ++ (m.wsEnd ++ ')' :: r2)))))
      hw1 hl hw2 hc hw3 hh hlne hw2ne hcne hw3ne hhne hw4tail]
    obtain ⟨ht4, hd4⟩ := takeWhile_class_split hw4
      (@head_singleton isWs '/' (w5 ++ (aR ++ (m.wsEnd ++ ')' :: r2))) (by decide))
    rw [hd4]
    simp only []
    obtain ⟨ht5, hd5⟩ := takeWhile_class_split hw5
      (head_boundary haR haRne (fun ch2 h => isWs_false_of_isPctCh h))
    rw [hd5]
    have hwErparPct : ∀ ch ∈ (m.wsEnd ++ ')' :: r2).head?, isPctCh ch = false :=
      head_boundary_opt hwE (fun ch2 h => isPctCh_false_of_isWs h)
        (head_singleton (by decide))
    rw [reqClass_split haR hwErparPct haRne]
    simp only []
    rw [hwErparSplit.2]
    simp only []
    rw [ht4, ht5, hwErparSplit.1]
    congr 1
    rw [Prod.mk.injEq]
    refine ⟨?_, rfl⟩
    cases m
    simp_all

/-! ### Shift lemmas -/

theorem annotCommentFor_shift (pal : List ColorEntry) (k : Nat) (t : OklchToken) :
    annotCommentFor pal (tokenShift k t) = annotCommentFor pal t := rfl

theorem tokenShift_endPos (k : Nat) (t : OklchToken) :
    (tokenShift k t).endPos = t.endPos + k := by
  simp only [tokenShift, OklchToken.endPos]
  omega

theorem mkToken_shift (pos k : Nat) (m : MatchParts) :
    mkToken (pos + k) m = (mkToken pos m).map (tokenShift k) := by
  unfold mkToken
  cases parseFloatQ m.lRaw <;> cases parseFloatQ m.cRaw <;> cases parseFloatQ m.hRaw <;>
    simp only [Option.map_none', Option.map_some']
  cases m.alphaRaw with
  | none => simp [tokenShift]
  | some g => cases hd : deriveAlpha g <;> simp [hd, tokenShift]

theorem scanAux_shift : ∀ (f : Nat) (s : List Char) (pos k : Nat),
    scanAux f s (pos + k) = (scanAux f s pos).map (tokenShift k) := by
  intro f
  induction f with
  | zero => intro s pos k; simp [scanAux]
  | succ f ih =>
    intro s pos k
    cases s with
    | nil => simp [scanAux]
    | cons ch r =>
      simp only [scanAux]
      cases hm : matchOklchAt (ch :: r) with
      | some pr =>
        obtain ⟨m, rest⟩ := pr
        simp only []
        rw [mkToken_shift]
        cases hk : mkToken pos m with
        | some t =>
          simp only [Option.map_some']
          rw [show pos + k + m.len = pos + m.len + k from by omega, ih rest (pos + m.len) k]
          simp
        | none =>
          simp only [Option.map_none']
          rw [show pos + k + m.len = pos + m.len + k from by omega, ih rest (pos + m.len) k]
      | none =>
        rw [show pos + k + 1 = pos + 1 + k from by omega]
        exact ih r (pos + 1) k

theorem goTokens_shift (pal : List ColorEntry) : ∀ (f : Nat) (s : List Char) (pos k : Nat),
    goTokens pal f s (pos + k) = (goTokens pal f s pos).map (tokenShift k) := by
  intro f
  induction f with
  | zero => intro s pos k; simp [goTokens]
  | succ f ih =>
    intro s pos k
    cases s with
    | nil => simp [goTokens]
    | cons ch r =>
      simp only [goTokens]
      cases hm : matchOklchAt (ch :: r) with
      | some pr =>
        obtain ⟨m, rest⟩ := pr
        simp only []
        rw [mkToken_shift]
        cases hk : mkToken pos m with
        | some t =>
          simp only [Option.map_some']
          rw [annotCommentFor_shift,
            show pos + k + m.len + 1 + (annotCommentFor pal t).length =
              pos + m.len + 1 + (annotCommentFor pal t).length + k from by omega,
            ih rest _ k]
          simp
        | none =>
          simp only [Option.map_none']
          rw [show pos + k + m.len = pos + m.len + k from by omega, ih rest (pos + m.len) k]
      | none =>
        rw [show pos + k + 1 = pos + 1 + k from by omega]
        exact ih r (pos + 1) k

theorem applyOne_shift (pre s : List Char) (o : EditOp) :
    applyOne (pre ++ s) (shiftOp pre.length o) = pre ++ applyOne s o := by
  cases o with
  | replaceOp a l txt =>
    simp only [shiftOp, applyOne]
    rw [Nat.add_comm a pre.length, List.take_append,
      show pre.length + a + l = pre.length + (a + l) from by omega, List.drop_append]
    simp [List.append_assoc]
  | insertOp p txt =>
    simp only [shiftOp, applyOne]
    rw [Nat.add_comm p pre.length, List.take_append, List.drop_append]
    simp [List.append_assoc]
  | deleteOp a l =>
    simp only [shiftOp, applyOne]
    rw [Nat.add_comm a pre.length, List.take_append,
      show pre.length + a + l = pre.length + (a + l) from by omega, List.drop_append]
    simp [List.append_assoc]

theorem applyEdits_shift (pre s : List Char) :
    ∀ ops : List EditOp,
      applyEdits (pre ++ s) (ops.map (shiftOp pre.length)) = pre ++ applyEdits s ops := by
  intro ops
  induction ops generalizing s with
  | nil => rfl
  | cons o ops ih =>
    simp only [List.map_cons, applyEdits, List.foldl_cons, applyOne_shift]
    exact ih (applyOne s o)

/-! ### The annotate command on a clean buffer -/

theorem insOf_shift (pal : List ColorEntry) (k : Nat) (t : OklchToken) :
    EditOp.insertOp (tokenShift k t).endPos (' ' :: annotCommentFor pal (tokenShift k t)) =
      shiftOp k (EditOp.insertOp t.endPos (' ' :: annotCommentFor pal t)) := by
  rw [annotCommentFor_shift, tokenShift_endPos]
  rfl

theorem applyEdits_insPlan (pal : List ColorEntry) : ∀ (f : Nat) (s : List Char),
    applyEdits s ((scanAux f s 0).reverse.map
      (fun t => EditOp.insertOp t.endPos (' ' :: annotCommentFor pal t))) =
      annotGo pal f s := by
  intro f
  induction f with
  | zero => intro s; simp [scanAux, annotGo, applyEdits]
  | succ f ih =>
    intro s
    cases s with
    | nil => simp [scanAux, annotGo, applyEdits]
    | cons ch r =>
      simp only [scanAux, annotGo]
      cases hm : matchOklchAt (ch :: r) with
      | none =>
        simp only []
        rw [scanAux_shift f r 0 1, ← List.map_reverse, List.map_map]
        have hco : ((fun t => EditOp.insertOp t.endPos (' ' :: annotCommentFor pal t)) ∘
            tokenShift 1) = (shiftOp 1) ∘
            (fun t => EditOp.insertOp t.endPos (' ' :: annotCommentFor pal t)) := by
          funext t
          exact insOf_shift pal 1 t
        rw [hco, ← List.map_map]
        have hsh := applyEdits_shift [ch] r
          ((scanAux f r 0).reverse.map
            (fun t => EditOp.insertOp t.endPos (' ' :: annotCommentFor pal t)))
        exact hsh.trans (by rw [ih r]; simp)
      | some pr =>
        obtain ⟨m, rest⟩ := pr
        simp only []
        have hs : ch :: r = m.text ++ rest := matchOklchAt_decomp hm
        have hlen : m.text.length = m.len := rfl
        cases hk : mkToken 0 m with
        | some t =>
          obtain ⟨hstart, htlen, _⟩ := mkToken_some_fields hk
          simp only [List.reverse_cons, List.map_append, List.map_cons, List.map_nil]
          rw [applyEdits, List.foldl_append]
          rw [scanAux_shift f rest 0 m.len, ← List.map_reverse, List.map_map]
          have hco : ((fun u => EditOp.insertOp u.endPos (' ' :: annotCommentFor pal u)) ∘
              tokenShift m.len) = (shiftOp m.len) ∘
              (fun u => EditOp.insertOp u.endPos (' ' :: annotCommentFor pal u)) := by
            funext u
            exact insOf_shift pal m.len u
          rw [hco, ← List.map_map]
          have hsh : List.foldl applyOne (ch :: r)
              (((scanAux f rest 0).reverse.map
                (fun u => EditOp.insertOp u.endPos (' ' :: annotCommentFor pal u))).map
                (shiftOp m.len)) = m.text ++ annotGo pal f rest := by
            rw [hs, ← hlen]
            have := applyEdits_shift m.text rest
              ((scanAux f rest 0).reverse.map
                (fun u => EditOp.insertOp u.endPos (' ' :: annotCommentFor pal u)))
            simp only [applyEdits] at this
            rw [this]
            exact congrArg (fun x => m.text ++ x) (ih rest)
          rw [hsh]
          simp only [List.foldl_cons, List.foldl_nil, applyOne]
          have hend : t.endPos = m.len := by
            simp only [OklchToken.endPos, hstart, htlen]
            omega
          rw [hend, ← hlen, List.take_left, List.drop_left]
        | none =>
          rw [scanAux_shift f rest 0 m.len, ← List.map_reverse, List.map_map]
          have hco : ((fun u => EditOp.insertOp u.endPos (' ' :: annotCommentFor pal u)) ∘
              tokenShift m.len) = (shiftOp m.len) ∘
              (fun u => EditOp.insertOp u.endPos (' ' :: annotCommentFor pal u)) := by
            funext u
            exact insOf_shift pal m.len u
          rw [hco, ← List.map_map, hs, ← hlen]
          have := applyEdits_shift m.text rest
            ((scanAux f rest 0).reverse.map
              (fun u => EditOp.insertOp u.endPos (' ' :: annotCommentFor pal u)))
          rw [this, ih rest]

theorem annotateStep_clean {pal : List ColorEntry} {buf : List Char} {t : OklchToken}
    (h : findAdjacentComment (buf.drop t.endPos) = none) :
    annotateStep pal buf t =
      some (t.start, .insertOp t.endPos (' ' :: annotCommentFor pal t)) := by
  unfold annotateStep
  rw [h]
  rfl

theorem filterMap_eq_map_of_some {α β : Type _} (f : α → Option β) (g : α → β) :
    ∀ l : List α, (∀ x ∈ l, f x = some (g x)) → l.filterMap f = l.map g := by
  intro l
  induction l with
  | nil => intro h; rfl
  | cons a l ih =>
    intro h
    rw [List.filterMap_cons, h a (by simp), List.map_cons,
      ih (fun x hx => h x (by simp [hx]))]

theorem overlapFreeB_inserts {α : Type _} (p : α → Nat) (q : α → List Char) :
    ∀ l : List α,
      overlapFreeB (l.map (fun t => EditOp.insertOp (p t) (q t))) = true := by
  intro l
  induction l with
  | nil => rfl
  | cons a l ih =>
    simp only [List.map_cons, overlapFreeB, Bool.and_eq_true, List.all_eq_true]
    refine ⟨?_, ih⟩
    intro o ho
    obtain ⟨u, _, rfl⟩ := List.mem_map.mp ho
    rfl

/-- Bridge: on a buffer where no token has an adjacent comment, the annotate
command inserts the computed comment after every token, which is the
recursive transformer `annotGo`. -/
theorem annotateAll_eq_annotGo (pal : List ColorEntry) (buf : List Char)
    (hclean : ∀ t ∈ scanTokens buf, findAdjacentComment (buf.drop t.endPos) = none) :
    annotateAll pal buf = annotGo pal buf.length buf := by
  have hpairs : annotatePairs pal buf = (scanTokens buf).reverse.map
      (fun t => (t.start, EditOp.insertOp t.endPos (' ' :: annotCommentFor pal t))) := by
    unfold annotatePairs
    exact filterMap_eq_map_of_some _ _ _
      (fun t ht => annotateStep_clean (hclean t (List.mem_reverse.mp ht)))
  have hplan : annotatePlan pal buf = (scanTokens buf).reverse.map
      (fun t => EditOp.insertOp t.endPos (' ' :: annotCommentFor pal t)) := by
    unfold annotatePlan
    rw [hpairs, List.map_map]
    rfl
  unfold annotateAll applyEditsIfSafe
  rw [hplan, if_pos (overlapFreeB_inserts _ _ _)]
  exact applyEdits_insPlan pal buf.length buf

/-! ### Structure of the inserted comments -/

theorem natDecimalAux_digit : ∀ (f n : Nat) (c : Char), c ∈ natDecimalAux f n →
    ∃ d, d < 10 ∧ c = Char.ofNat (48 + d) := by
  intro f
  induction f with
  | zero => intro n c hc; simp [natDecimalAux] at hc
  | succ f ih =>
    intro n c hc
    simp only [natDecimalAux] at hc
    split at hc
    · next h =>
      simp only [List.mem_singleton] at hc
      exact ⟨n, h, hc⟩
    · next h =>
      rw [List.mem_append, List.mem_singleton] at hc
      cases hc with
      | inl h2 => exact ih _ c h2
      | inr h2 => exact ⟨n % 10, Nat.mod_lt _ (by omega), h2⟩

theorem digit_char_facts : ∀ d, d < 10 →
    Char.ofNat (48 + d) ≠ '*' ∧ Char.ofNat (48 + d) ≠ '(' ∧
      notNl (Char.ofNat (48 + d)) = true := by
  intro d hd
  interval_cases d <;> exact ⟨by decide, by decide, by decide⟩

theorem intDecimal_chars : ∀ (z : ℤ) (c : Char), c ∈ intDecimal z →
    c = '-' ∨ ∃ d, d < 10 ∧ c = Char.ofNat (48 + d) := by
  intro z c hc
  unfold intDecimal at hc
  split at hc
  · rw [List.mem_cons] at hc
    cases hc with
    | inl h => exact Or.inl h
    | inr h => exact Or.inr (natDecimalAux_digit _ _ c h)
  · exact Or.inr (natDecimalAux_digit _ _ c hc)

/-- The computed annotation comment is `/* base */` for a star free,
parenthesis free, line break free `base`. -/
theorem comment_shape (name : List Char) (alpha : Option ℚ) (hs : saneName name) :
    ∃ base, createAnnotationComment name alpha =
      '/' :: '*' :: ' ' :: (base ++ [' ', '*', '/']) ∧
      '*' ∉ base ∧ '(' ∉ base ∧ (∀ c ∈ base, notNl c = true) := by
  obtain ⟨h1, h2, h3, h4⟩ := hs
  have hname : '*' ∉ name ∧ '(' ∉ name ∧ ∀ c ∈ name, notNl c = true := by
    refine ⟨h2, h1, fun c hc => ?_⟩
    have hn : c ≠ '\n' := fun e => h3 (e ▸ hc)
    have hr : c ≠ '\r' := fun e => h4 (e ▸ hc)
    simp [notNl, hn, hr]
  have hsep : ∀ x ∈ " / ".toList, x = ' ' ∨ x = '/' := by decide
  unfold createAnnotationComment
  cases alpha with
  | none =>
    refine ⟨name, ?_, hname.1, hname.2.1, hname.2.2⟩
    simp
  | some a =>
    simp only []
    split
    · refine ⟨name, ?_, hname.1, hname.2.1, hname.2.2⟩
      simp
    · refine ⟨name ++ " / ".toList ++ intDecimal (jsRound (a * 100)) ++ ['%'], ?_, ?_, ?_, ?_⟩
      · simp
      · intro hmem
        rw [List.mem_append, List.mem_append, List.mem_append] at hmem
        rcases hmem with ((hmem | hmem) | hmem) | hmem
        · exact hname.1 hmem
        · rcases hsep '*' hmem with h | h <;> exact absurd h (by decide)
        · rcases intDecimal_chars _ _ hmem with h | ⟨d, hd, h⟩
          · exact absurd h (by decide)
          · exact (digit_char_facts d hd).1 h.symm
        · exact absurd (List.mem_singleton.mp hmem) (by decide)
      · intro hmem
        rw [List.mem_append, List.mem_append, List.mem_append] at hmem
        rcases hmem with ((hmem | hmem) | hmem) | hmem
        · exact hname.2.1 hmem
        · rcases hsep '(' hmem with h | h <;> exact absurd h (by decide)
        · rcases intDecimal_chars _ _ hmem with h | ⟨d, hd, h⟩
          · exact absurd h (by decide)
          · exact (digit_char_facts d hd).2.1 h.symm
        · exact absurd (List.mem_singleton.mp hmem) (by decide)
      · intro c hmem
        rw [List.mem_append, List.mem_append, List.mem_append] at hmem
        rcases hmem with ((hmem | hmem) | hmem) | hmem
        · exact hname.2.2 c hmem
        · rcases hsep c hmem with rfl | rfl <;> decide
        · rcases intDecimal_chars _ _ hmem with rfl | ⟨d, hd, rfl⟩
          · decide
          · exact (digit_char_facts d hd).2.2
        · rw [List.mem_singleton] at hmem
          subst hmem
          decide

theorem findStarSlash_first : ∀ (u w : List Char), '*' ∉ u →
    findStarSlash (u ++ '*' :: '/' :: w) = some u.length := by
  intro u
  induction u with
  | nil =>
    intro w _
    simp [findStarSlash]
  | cons a u ih =>
    intro w hu
    simp only [List.cons_append, findStarSlash, List.append_eq]
    rw [if_neg (fun hcond => hu (by simp [hcond.1])), ih w (fun h => hu (by simp [h]))]
    rfl

/-- The comment locator finds an inserted annotation comment: one space of
leading whitespace, then the comment itself. -/
theorem findAdjacent_inserted (name : List Char) (alpha : Option ℚ) (K : List Char)
    (hs : saneName name) :
    findAdjacentComment ((' ' :: createAnnotationComment name alpha) ++ K) =
      some (1, (createAnnotationComment name alpha).length) := by
  obtain ⟨base, hshape, hstar, hpar, hnl⟩ := comment_shape name alpha hs
  have hline : (' ' :: '/' :: '*' :: ' ' :: (base ++ ' ' :: '*' :: '/' :: K)).takeWhile
      notNl = ' ' :: '/' :: '*' :: ' ' :: (base ++ ' ' :: '*' :: '/' :: K.takeWhile notNl) := by
    rw [List.takeWhile_cons_of_pos (by decide), List.takeWhile_cons_of_pos (by decide),
      List.takeWhile_cons_of_pos (by decide), List.takeWhile_cons_of_pos (by decide),
      List.takeWhile_append_of_pos hnl,
      List.takeWhile_cons_of_pos (by decide), List.takeWhile_cons_of_pos (by decide),
      List.takeWhile_cons_of_pos (by decide)]
  have hws : (' ' :: '/' :: '*' :: ' ' ::
      (base ++ ' ' :: '*' :: '/' :: K.takeWhile notNl)).takeWhile isWs = [' '] := by
    rw [List.takeWhile_cons_of_pos (by decide), List.takeWhile_cons_of_neg (by decide)]
  have hdrop : (' ' :: '/' :: '*' :: ' ' ::
      (base ++ ' ' :: '*' :: '/' :: K.takeWhile notNl)).dropWhile isWs =
      '/' :: '*' :: ' ' :: (base ++ ' ' :: '*' :: '/' :: K.takeWhile notNl) := by
    rw [List.dropWhile_cons_of_pos (by decide), List.dropWhile_cons_of_neg (by decide)]
  unfold findAdjacentComment
  rw [hshape]
  simp only [List.cons_append, List.append_assoc, List.nil_append]
  rw [hline, hws, hdrop]
  simp only []
  have hbody : ' ' :: (base ++ ' ' :: '*' :: '/' :: K.takeWhile notNl) =
      (' ' :: (base ++ [' '])) ++ '*' :: '/' :: K.takeWhile notNl := by
    simp
  rw [hbody, findStarSlash_first (' ' :: (base ++ [' '])) _ (by
    intro hmem
    rcases List.mem_cons.mp hmem with h | h
    · exact absurd h.symm (by decide)
    · rcases List.mem_append.mp h with h2 | h2
      · exact hstar h2
      · exact absurd (List.mem_singleton.mp h2).symm (by decide))]
  simp only [Option.map_some', List.length_singleton]
  congr 2
  simp

/-! ### The scanner walks over an inserted comment -/

theorem slash_mem_drop : ∀ (Q : List Char) (i : Nat), i < (Q ++ ['*', '/']).length →
    '/' ∈ (Q ++ ['*', '/']).drop i := by
  intro Q
  induction Q with
  | nil =>
    intro i hi
    match i with
    | 0 => decide
    | 1 => decide
    | n + 2 => simp at hi
  | cons a Q ih =>
    intro i hi
    cases i with
    | zero => simp
    | succ j =>
      rw [List.cons_append, List.drop_succ_cons]
      exact ih j (by simpa using hi)

theorem matchOklchAt_none_of_slash {D K : List Char} (hpar : '(' ∉ D) (hsl : '/' ∈ D) :
    matchOklchAt (D ++ K) = none := by
  unfold matchOklchAt
  rw [if_neg]
  intro hEq
  by_cases hlen : 6 ≤ D.length
  · rw [List.take_append_of_le_length hlen] at hEq
    have : '(' ∈ D.take 6 := by rw [hEq]; decide
    exact hpar (List.take_subset 6 D this)
  · push_neg at hlen
    have h6 : 6 = D.length + (6 - D.length) := by omega
    rw [h6, List.take_append] at hEq
    have hD : D = oklchHead.take D.length := by
      have := congrArg (List.take D.length) hEq
      rwa [List.take_left] at this
    have : '/' ∈ oklchHead := List.take_subset _ _ (hD ▸ hsl)
    exact absurd this (by decide)

/-- No regex match can begin inside an inserted comment (or its leading
space), whatever follows the comment. -/
theorem comment_drop_no_match (name : List Char) (alpha : Option ℚ) (hs : saneName name)
    (K : List Char) : ∀ i, i < (' ' :: createAnnotationComment name alpha).length →
      matchOklchAt ((' ' :: createAnnotationComment name alpha).drop i ++ K) = none := by
  obtain ⟨base, hshape, hstar, hpar, hnl⟩ := comment_shape name alpha hs
  intro i hi
  have hP : (' ' :: createAnnotationComment name alpha) =
      (' ' :: '/' :: '*' :: ' ' :: (base ++ [' '])) ++ ['*', '/'] := by
    rw [hshape]
    simp
  rw [hP] at hi ⊢
  apply matchOklchAt_none_of_slash
  · intro hmem
    have hmem2 : '(' ∈ (' ' :: '/' :: '*' :: ' ' :: (base ++ [' '])) ++ ['*', '/'] :=
      List.drop_subset i _ hmem
    rcases List.mem_cons.mp hmem2 with h | h
    · exact absurd h (by decide)
    · rcases List.mem_cons.mp h with h | h
      · exact absurd h (by decide)
      · rcases List.mem_cons.mp h with h | h
        · exact absurd h (by decide)
        · rcases List.mem_cons.mp h with h | h
          · exact absurd h (by decide)
          · rcases List.mem_append.mp h with h2 | h2
            · rcases List.mem_append.mp h2 with h3 | h3
              · exact hpar h3
              · exact absurd (List.mem_singleton.mp h3) (by decide)
            · rcases List.mem_cons.mp h2 with h3 | h3
              · exact absurd h3 (by decide)
              · exact absurd (List.mem_singleton.mp h3) (by simp)
  · exact slash_mem_drop _ i hi

/-- Skipping a match free prefix: the scanner processes it one character at
a time and continues on the continuation. -/
theorem scanAux_skip : ∀ (P K : List Char) (pos f : Nat),
    (∀ i, i < P.length → matchOklchAt (P.drop i ++ K) = none) →
    P.length + K.length ≤ f →
    scanAux f (P ++ K) pos = scanAux K.length K (pos + P.length) := by
  intro P
  induction P with
  | nil =>
    intro K pos f _ hf
    rw [List.nil_append]
    rw [scanAux_fuel K.length K le_rfl f K.length pos (by simpa using hf) le_rfl]
    simp
  | cons ch P ihP =>
    intro K pos f hnone hf
    obtain ⟨f2, rfl⟩ : ∃ f2, f = f2 + 1 := by
      cases f with
      | zero => simp at hf
      | succ k => exact ⟨k, rfl⟩
    rw [List.cons_append]
    simp only [scanAux]
    have h0 := hnone 0 (by simp)
    rw [List.drop_zero, List.cons_append] at h0
    rw [h0]
    have := ihP K (pos + 1) f2
      (fun i hi => by
        have := hnone (i + 1) (by simpa using Nat.succ_lt_succ hi)
        simpa using this)
      (by have hl : (ch :: P).length = P.length + 1 := rfl
          omega)
    have harg : pos + 1 + P.length = pos + (ch :: P).length := by
      have hl : (ch :: P).length = P.length + 1 := rfl
      omega
    rw [this, harg]

/-! ### Stability of match failure under annotation -/

/-- The text of a well formed match has no opening parenthesis after the
`oklch(` head. -/
theorem wf_text_no_lparen {m : MatchParts} (hwf : WFParts m) :
    '(' ∉ m.text.drop 6 := by
  obtain ⟨hw1, hw2, hw3, hwE, hl, hc, hh, _, _, _, _, _, halpha⟩ := hwf
  have htext : m.text = oklchHead ++ (m.ws1 ++ (m.lRaw ++ (m.ws2 ++ (m.cRaw ++
      (m.ws3 ++ (m.hRaw ++ ((match m.alphaRaw with | some a => a | none => []) ++
        (m.wsEnd ++ [')'])))))))) := by
    simp [MatchParts.text, List.append_assoc]
  have h6 : (6 : Nat) = oklchHead.length := rfl
  rw [htext, h6, List.drop_left]
  intro hmem
  have hWsN : isWs '(' = false := by decide
  have hNumN : isNumCh '(' = false := by decide
  have hPctN : isPctCh '(' = false := by decide
  rcases List.mem_append.mp hmem with h | h
  · rw [hw1 '(' h] at hWsN; exact absurd hWsN (by simp)
  rcases List.mem_append.mp h with h | h
  · rw [hl '(' h] at hNumN; exact absurd hNumN (by simp)
  rcases List.mem_append.mp h with h | h
  · rw [hw2 '(' h] at hWsN; exact absurd hWsN (by simp)
  rcases List.mem_append.mp h with h | h
  · rw [hc '(' h] at hNumN; exact absurd hNumN (by simp)
  rcases List.mem_append.mp h with h | h
  · rw [hw3 '(' h] at hWsN; exact absurd hWsN (by simp)
  rcases List.mem_append.mp h with h | h
  · rw [hh '(' h] at hNumN; exact absurd hNumN (by simp)
  rcases List.mem_append.mp h with h | h
  · cases halph : m.alphaRaw with
    | none => rw [halph] at h; simp at h
    | some g =>
      rw [halph] at h halpha
      obtain ⟨w4, w5, aR, hg, hw4, hw5, haR, _⟩ := halpha
      rw [hg] at h
      rcases List.mem_append.mp h with h2 | h2
      · rcases List.mem_append.mp h2 with h3 | h3
        · rw [hw4 '(' h3] at hWsN; exact absurd hWsN (by simp)
        · rcases List.mem_cons.mp h3 with h4 | h4
          · exact absurd h4 (by decide)
          · rw [hw5 '(' h4] at hWsN; exact absurd hWsN (by simp)
      · rw [haR '(' h2] at hPctN; exact absurd hPctN (by simp)
  rcases List.mem_append.mp h with h | h
  · rw [hwE '(' h] at hWsN; exact absurd hWsN (by simp)
  · exact absurd (List.mem_singleton.mp h) (by decide)

/-- Structure of the annotate transformer output: it is either the input
itself, or it starts with a match free prefix followed by the text of a
well formed match, in both the input and the output. -/
theorem annotGo_struct (pal : List ColorEntry) : ∀ (f : Nat) (s : List Char),
    annotGo pal f s = s ∨
    ∃ s₁ m D rest₀, WFParts m ∧ s = s₁ ++ m.text ++ rest₀ ∧
      annotGo pal f s = s₁ ++ m.text ++ D := by
  intro f
  induction f with
  | zero => intro s; exact Or.inl rfl
  | succ f ih =>
    intro s
    cases s with
    | nil => exact Or.inl rfl
    | cons ch r =>
      simp only [annotGo]
      cases hm : matchOklchAt (ch :: r) with
      | some pr =>
        obtain ⟨m, rest⟩ := pr
        simp only []
        have hs : ch :: r = m.text ++ rest := matchOklchAt_decomp hm
        have hwf : WFParts m := matchOklchAt_wf hm
        cases hk : mkToken 0 m with
        | some t =>
          exact Or.inr ⟨[], m, (' ' :: annotCommentFor pal t) ++ annotGo pal f rest,
            rest, hwf, by simpa using hs, by simp⟩
        | none =>
          exact Or.inr ⟨[], m, annotGo pal f rest, rest, hwf, by simpa using hs, by simp⟩
      | none =>
        rcases ih r with hid | ⟨s₁, m, D, rest₀, hwf, hr, hgo⟩
        · exact Or.inl (by rw [hid])
        · exact Or.inr ⟨ch :: s₁, m, D, rest₀, hwf, by simp [hr], by simp [hgo]⟩

/-- A match failure survives annotation of the tail: if the scanner did not
match at a position of the original buffer, it does not match there in the
annotated buffer either. -/
theorem match_none_stable (pal : List ColorEntry) (f : Nat) (ch : Char) (r : List Char)
    (h : matchOklchAt (ch :: r) = none) :
    matchOklchAt (ch :: annotGo pal f r) = none := by
  cases hnew : matchOklchAt (ch :: annotGo pal f r) with
  | none => rfl
  | some pr =>
    exfalso
    obtain ⟨m2, rest2⟩ := pr
    have hwf2 : WFParts m2 := matchOklchAt_wf hnew
    have hdec : ch :: annotGo pal f r = m2.text ++ rest2 := matchOklchAt_decomp hnew
    rcases annotGo_struct pal f r with hid | ⟨s₁, m, D, rest₀, hwf, hr, hgo⟩
    · rw [hid] at hnew
      rw [hnew] at h
      exact absurd h (by simp)
    · -- the shared prefix of old and new buffer, containing a parenthesis
      -- beyond index 5
      have htext6 : m.text = m.text.take 6 ++ m.text.drop 6 :=
        (List.take_append_drop 6 m.text).symm
      have hhead : m.text.take 6 = oklchHead := by
        have : m.text = oklchHead ++ (m.ws1 ++ (m.lRaw ++ (m.ws2 ++ (m.cRaw ++
            (m.ws3 ++ (m.hRaw ++ ((match m.alphaRaw with | some a => a | none => []) ++
              (m.wsEnd ++ [')'])))))))) := by
          simp [MatchParts.text, List.append_assoc]
        rw [this, List.take_append_of_le_length (by decide)]
        rfl
      -- the new buffer as A ++ '(' :: B
      have hA : ch :: annotGo pal f r =
          (ch :: s₁ ++ ['o', 'k', 'l', 'c', 'h']) ++ '(' ::
            (m.text.drop 6 ++ D) := by
        rw [hgo]
        conv_lhs => rw [htext6, hhead]
        simp [oklchHead, List.append_assoc]
      have hAold : ch :: r =
          (ch :: s₁ ++ ['o', 'k', 'l', 'c', 'h']) ++ '(' ::
            (m.text.drop 6 ++ rest₀) := by
        rw [hr]
        conv_lhs => rw [htext6, hhead]
        simp [oklchHead, List.append_assoc]
      set A : List Char := ch :: s₁ ++ ['o', 'k', 'l', 'c', 'h'] with hAdef
      have hAlen : A.length = s₁.length + 6 := by
        simp [hAdef]
      -- the new match cannot reach past the parenthesis
      have hm2len : m2.len ≤ A.length := by
        by_contra hgt
        push_neg at hgt
        have hsplit : m2.text = (A ++ ['(']) ++ m2.text.drop (A.length + 1) := by
          have h1 : m2.text = m2.text.take (A.length + 1) ++ m2.text.drop (A.length + 1) :=
            (List.take_append_drop _ _).symm
          have h2 : m2.text.take (A.length + 1) = A ++ ['('] := by
            have h3 : m2.text.take (A.length + 1) =
                (m2.text ++ rest2).take (A.length + 1) := by
              rw [List.take_append_of_le_length]
              have h4 := m2.len_ge
              have h5 : m2.len = m2.text.length := rfl
              omega
            rw [h3, ← hdec, hA]
            rw [show A.length + 1 = A.length + 1 from rfl]
            rw [List.take_append]
            simp
          rw [← h2]
          exact h1
        have hparen : '(' ∈ m2.text.drop 6 := by
          rw [hsplit]
          rw [List.drop_append_of_le_length (by simp [hAlen])]
          apply List.mem_append_left
          have hmem2 : '(' ∈ A.drop 6 ++ ['('] := List.mem_append_right _ (by simp)
          have hAd : (A ++ ['(']).drop 6 = A.drop 6 ++ ['('] :=
            List.drop_append_of_le_length (by simp [hAlen])
          rw [hAd]
          exact hmem2
        exact wf_text_no_lparen hwf2 hparen
      -- hence the new match text is a prefix of the shared region
      have hCsh : m2.text = A.take m2.len := by
        have hlen2 : m2.len = m2.text.length := rfl
        have h1 : m2.text = (m2.text ++ rest2).take m2.len := by
          rw [hlen2, List.take_left]
        rw [h1, ← hdec, hA, List.take_append_of_le_length hm2len]
      have hold : matchOklchAt (ch :: r) = some (m2, (ch :: r).drop m2.len) := by
        have htake : (ch :: r).take m2.len = m2.text := by
          rw [hAold, List.take_append_of_le_length hm2len, ← hCsh]
        generalize hK : (ch :: r).drop m2.len = K
        have hsp : ch :: r = m2.text ++ K := by
          conv_lhs => rw [← List.take_append_drop m2.len (ch :: r)]
          rw [htake, hK]
        rw [hsp]
        exact matchOklchAt_sound m2 hwf2 K
      rw [hold] at h
      exact absurd h (by simp)

/-! ### Scanning the annotated buffer -/

theorem saneName_annotationNameFor {pal : List ColorEntry} (hsane : sanePalette pal)
    (t : OklchToken) : saneName (annotationNameFor pal t) := by
  unfold annotationNameFor
  cases hfind : findColorName pal t.l t.c t.h with
  | none => exact ⟨by decide, by decide, by decide, by decide⟩
  | some n =>
    unfold findColorName at hfind
    cases hf : pal.find? (entryMatches t.l t.c t.h) with
    | none => rw [hf] at hfind; simp at hfind
    | some e =>
      rw [hf] at hfind
      simp only [Option.map_some', Option.some.injEq] at hfind
      subst hfind
      exact hsane e (List.mem_of_find?_eq_some hf)

theorem mkToken_none_pos {pos : Nat} {m : MatchParts} (h : mkToken 0 m = none) :
    mkToken pos m = none := by
  rw [mkToken_none_iff] at h ⊢
  exact h

theorem mkToken_some_pos {pos : Nat} {m : MatchParts} {t : OklchToken}
    (h : mkToken 0 m = some t) : mkToken pos m = some (tokenShift pos t) := by
  have := mkToken_shift 0 pos m
  rw [Nat.zero_add] at this
  rw [this, h]
  rfl

/-- Scanning the annotated buffer yields exactly the reconstructed token
list `goTokens`. -/
theorem scanAnnot (pal : List ColorEntry) (hsane : sanePalette pal) :
    ∀ (f : Nat) (s : List Char) (pos F : Nat), s.length ≤ f →
      (annotGo pal f s).length ≤ F →
      scanAux F (annotGo pal f s) pos = goTokens pal f s pos := by
  intro f
  induction f with
  | zero =>
    intro s pos F hsf hF
    have hs : s = [] := List.eq_nil_of_length_eq_zero (Nat.le_zero.mp hsf)
    subst hs
    simp [annotGo, goTokens, scanAux_nil]
  | succ f ih =>
    intro s pos F hsf hF
    cases s with
    | nil => simp [annotGo, goTokens, scanAux_nil]
    | cons ch r =>
      simp only [annotGo] at hF ⊢
      simp only [goTokens]
      cases hm : matchOklchAt (ch :: r) with
      | none =>
        rw [hm] at hF
        simp only [] at hF
        have hstable := match_none_stable pal f ch r hm
        obtain ⟨F2, rfl⟩ : ∃ F2, F = F2 + 1 := by
          cases F with
          | zero => simp at hF
          | succ k => exact ⟨k, rfl⟩
        simp only [scanAux]
        rw [hstable]
        exact ih r (pos + 1) F2 (by simp at hsf; omega)
          (by simp only [List.length_cons] at hF; omega)
      | some pr =>
        obtain ⟨m, rest⟩ := pr
        rw [hm] at hF
        simp only [] at hF
        have hs : ch :: r = m.text ++ rest := matchOklchAt_decomp hm
        have hwf : WFParts m := matchOklchAt_wf hm
        have hrest : rest.length ≤ f := by
          have h1 := matchOklchAt_rest_len hm
          have h2 := m.len_ge
          simp only [List.length_cons] at h1 hsf
          omega
        have hmlen : m.text.length = m.len := rfl
        cases hk : mkToken 0 m with
        | some t =>
          rw [hk] at hF
          simp only [] at hF
          simp only []
          rw [hk]
          simp only []
          rw [mkToken_some_pos hk]
          try simp only []
          cases hne : m.text ++ (' ' :: annotCommentFor pal t) ++ annotGo pal f rest with
          | nil =>
            exfalso
            have := congrArg List.length hne
            simp only [List.length_append, List.length_nil] at this
            have := m.len_ge
            omega
          | cons c0 tl =>
            rw [hne] at hF
            obtain ⟨F2, rfl⟩ : ∃ F2, F = F2 + 1 := by
              cases F with
              | zero => simp at hF
              | succ k => exact ⟨k, rfl⟩
            simp only [scanAux]
            have hmOK : matchOklchAt (c0 :: tl) =
                some (m, (' ' :: annotCommentFor pal t) ++ annotGo pal f rest) := by
              rw [← hne, List.append_assoc]
              exact matchOklchAt_sound m hwf _
            rw [hmOK]
            simp only []
            rw [mkToken_some_pos hk]
            simp only []
            have hsk := scanAux_skip (' ' :: annotCommentFor pal t) (annotGo pal f rest)
              (pos + m.len) F2
              (comment_drop_no_match (annotationNameFor pal t) t.alpha
                (saneName_annotationNameFor hsane t) (annotGo pal f rest))
              (by
                have hlen1 := congrArg List.length hne
                have hlen2 : (m.text ++ (' ' :: annotCommentFor pal t) ++
                    annotGo pal f rest).length = m.text.length +
                    (1 + (annotCommentFor pal t).length) + (annotGo pal f rest).length := by
                  simp
                  omega
                have hlen3 : (' ' :: annotCommentFor pal t).length =
                    (annotCommentFor pal t).length + 1 := rfl
                have hlen4 : (c0 :: tl).length = tl.length + 1 := rfl
                have hge := m.len_ge
                have hmt : m.text.length = m.len := rfl
                omega)
            rw [hsk]
            have harith : pos + m.len + (' ' :: annotCommentFor pal t).length =
                pos + m.len + 1 + (annotCommentFor pal (tokenShift pos t)).length := by
              rw [annotCommentFor_shift]
              simp only [List.length_cons]
              omega
            rw [harith]
            congr 1
            rw [annotCommentFor_shift]
            exact ih rest _ (annotGo pal f rest).length hrest le_rfl
        | none =>
          rw [hk] at hF
          simp only [] at hF
          simp only []
          rw [hk]
          simp only []
          rw [mkToken_none_pos hk]
          try simp only []
          cases hne : m.text ++ annotGo pal f rest with
          | nil =>
            exfalso
            have := congrArg List.length hne
            simp only [List.length_append, List.length_nil] at this
            have := m.len_ge
            omega
          | cons c0 tl =>
            rw [hne] at hF
            obtain ⟨F2, rfl⟩ : ∃ F2, F = F2 + 1 := by
              cases F with
              | zero => simp at hF
              | succ k => exact ⟨k, rfl⟩
            simp only [scanAux]
            have hmOK : matchOklchAt (c0 :: tl) = some (m, annotGo pal f rest) := by
              rw [← hne]
              exact matchOklchAt_sound m hwf _
            rw [hmOK]
            simp only []
            rw [mkToken_none_pos hk]
            simp only []
            exact ih rest (pos + m.len) F2 hrest
              (by
                have hlen1 := congrArg List.length hne
                have hlen2 : (m.text ++ annotGo pal f rest).length =
                    m.text.length + (annotGo pal f rest).length := by simp
                have hlen4 : (c0 :: tl).length = tl.length + 1 := rfl
                have hge := m.len_ge
                have hmt : m.text.length = m.len := rfl
                omega)

/-! ### The removal pass on the annotated buffer -/

theorem shiftOp_lo (k : Nat) (o : EditOp) : (shiftOp k o).lo = o.lo + k := by
  cases o <;> rfl

theorem editsCollide_shift (k : Nat) (a b : EditOp) :
    editsCollide (shiftOp k a) (shiftOp k b) = editsCollide a b := by
  cases a <;> cases b <;>
    simp only [shiftOp, editsCollide, EditOp.lo, EditOp.hi] <;>
    (try rfl) <;>
    (congr 1 <;> rw [decide_eq_decide] <;> omega)

theorem overlapFreeB_map_shift (k : Nat) :
    ∀ l : List EditOp, overlapFreeB (l.map (shiftOp k)) = overlapFreeB l := by
  intro l
  induction l with
  | nil => rfl
  | cons o l ih =>
    simp only [List.map_cons, overlapFreeB, List.all_map, Function.comp]
    rw [ih]
    congr 1
    congr 1
    funext b
    simp only [Function.comp_apply]
    rw [editsCollide_shift]

theorem editsCollide_delete_right (o : EditOp) (x y : Nat) (h : x + y ≤ o.lo) :
    editsCollide o (.deleteOp x y) = false := by
  cases o <;>
    simp only [editsCollide, EditOp.lo, EditOp.hi] at h ⊢ <;>
    simp only [Bool.and_eq_false_iff, decide_eq_false_iff_not, not_lt] <;>
    omega

theorem overlapFreeB_append_singleton {A : List EditOp} {d : EditOp}
    (hA : overlapFreeB A = true) (hd : ∀ o ∈ A, editsCollide o d = false) :
    overlapFreeB (A ++ [d]) = true := by
  induction A with
  | nil => rfl
  | cons o A ih =>
    simp only [overlapFreeB, Bool.and_eq_true, List.all_eq_true] at hA
    simp only [List.cons_append, overlapFreeB, Bool.and_eq_true, List.all_eq_true]
    refine ⟨?_, ih hA.2 (fun o2 ho2 => hd o2 (by simp [ho2]))⟩
    intro o2 ho2
    rcases List.mem_append.mp ho2 with h | h
    · exact hA.1 o2 h
    · rw [List.mem_singleton] at h
      subst h
      rw [hd o (by simp)]
      rfl

theorem removeStep_shift (pre X : List Char) (u : OklchToken) :
    removeStep (pre ++ X) (tokenShift pre.length u) =
      (removeStep X u).map
        (fun pr => (pr.1 + pre.length, shiftOp pre.length pr.2)) := by
  unfold removeStep
  rw [tokenShift_endPos, Nat.add_comm u.endPos pre.length, List.drop_append]
  cases hfa : findAdjacentComment (X.drop u.endPos) with
  | none => rfl
  | some pr =>
    obtain ⟨w, c⟩ := pr
    simp only [Option.map_some']
    simp [tokenShift, shiftOp, OklchToken.endPos]
    omega

theorem annotateStep_shift_none (pal : List ColorEntry) (pre X : List Char)
    (u : OklchToken) (h : annotateStep pal X u = none) :
    annotateStep pal (pre ++ X) (tokenShift pre.length u) = none := by
  unfold annotateStep at h ⊢
  rw [tokenShift_endPos, Nat.add_comm u.endPos pre.length, List.drop_append]
  cases hfa : findAdjacentComment (X.drop u.endPos) with
  | none =>
    rw [hfa] at h
    simp at h
  | some pr =>
    obtain ⟨w, c⟩ := pr
    rw [hfa] at h
    simp only [] at h ⊢
    split at h
    · next heq =>
      rw [show annotationNameFor pal (tokenShift pre.length u) = annotationNameFor pal u
          from rfl,
        show (tokenShift pre.length u).alpha = u.alpha from rfl, if_pos heq]
    · exact absurd h (by simp)

theorem plan_shift (X₀ pre : List Char) (T₀ : List OklchToken) :
    ((T₀.map (tokenShift pre.length)).reverse.filterMap
        (removeStep (pre ++ X₀))).map Prod.snd =
      (((T₀.reverse.filterMap (removeStep X₀)).map Prod.snd).map
        (shiftOp pre.length)) := by
  rw [← List.map_reverse, List.filterMap_map]
  have hfun : (removeStep (pre ++ X₀)) ∘ (tokenShift pre.length) = fun u =>
      (removeStep X₀ u).map
        (fun pr => (pr.1 + pre.length, shiftOp pre.length pr.2)) := by
    funext u
    simp only [Function.comp_apply]
    exact removeStep_shift pre X₀ u
  rw [hfun, ← List.map_filterMap, List.map_map, List.map_map]
  rfl

theorem annot_none_shift (pal : List ColorEntry) (pre X₀ : List Char)
    (T₀ : List OklchToken) (h : ∀ u ∈ T₀, annotateStep pal X₀ u = none) :
    ∀ t ∈ T₀.map (tokenShift pre.length), annotateStep pal (pre ++ X₀) t = none := by
  intro t ht
  obtain ⟨u, hu, rfl⟩ := List.mem_map.mp ht
  exact annotateStep_shift_none pal pre X₀ u (h u hu)

/-- The joint invariant of the annotated buffer: its removal plan is
collision free and undoes the annotation, and its annotate plan is empty. -/
theorem annotGo_remove (pal : List ColorEntry) (hsane : sanePalette pal) :
    ∀ (f : Nat) (s : List Char), s.length ≤ f →
      overlapFreeB (((goTokens pal f s 0).reverse.filterMap
          (removeStep (annotGo pal f s))).map Prod.snd) = true ∧
      applyEdits (annotGo pal f s)
        (((goTokens pal f s 0).reverse.filterMap
          (removeStep (annotGo pal f s))).map Prod.snd) = s ∧
      ∀ t ∈ goTokens pal f s 0, annotateStep pal (annotGo pal f s) t = none := by
  intro f
  induction f with
  | zero =>
    intro s hsf
    have hs : s = [] := List.eq_nil_of_length_eq_zero (Nat.le_zero.mp hsf)
    subst hs
    refine ⟨rfl, rfl, ?_⟩
    intro t ht
    simp [goTokens] at ht
  | succ f ih =>
    intro s hsf
    cases s with
    | nil =>
      refine ⟨rfl, rfl, ?_⟩
      intro t ht
      simp [goTokens] at ht
    | cons ch r =>
      simp only [annotGo, goTokens]
      cases hm : matchOklchAt (ch :: r) with
      | none =>
        simp only []
        obtain ⟨h1, h2, h3⟩ := ih r (by simp only [List.length_cons] at hsf; omega)
        rw [goTokens_shift pal f r 0 1]
        have hlc : ([ch] : List Char).length = 1 := rfl
        have hps := plan_shift (annotGo pal f r) [ch] (goTokens pal f r 0)
        rw [hlc] at hps
        have hbuf : ch :: annotGo pal f r = [ch] ++ annotGo pal f r := rfl
        rw [hbuf, hps]
        refine ⟨?_, ?_, ?_⟩
        · rw [overlapFreeB_map_shift]
          exact h1
        · have := applyEdits_shift [ch] (annotGo pal f r)
            ((((goTokens pal f r 0).reverse.filterMap
              (removeStep (annotGo pal f r))).map Prod.snd))
          rw [hlc] at this
          rw [this, h2]
          rfl
        · have := annot_none_shift pal [ch] (annotGo pal f r) (goTokens pal f r 0) h3
          rw [hlc] at this
          exact this
      | some pr =>
        obtain ⟨m, rest⟩ := pr
        simp only []
        have hs : ch :: r = m.text ++ rest := matchOklchAt_decomp hm
        have hwf : WFParts m := matchOklchAt_wf hm
        have hmlen : m.text.length = m.len := rfl
        have hrest : rest.length ≤ f := by
          have ha := matchOklchAt_rest_len hm
          have hb := m.len_ge
          simp only [List.length_cons] at ha hsf
          omega
        obtain ⟨h1, h2, h3⟩ := ih rest hrest
        cases hk : mkToken 0 m with
        | some t =>
          simp only []
          obtain ⟨hstart, htlen, _⟩ := mkToken_some_fields hk
          have hend : t.endPos = m.len := by
            simp only [OklchToken.endPos, hstart, htlen]
            omega
          have harith : 0 + m.len + 1 + (annotCommentFor pal t).length =
              0 + (m.len + 1 + (annotCommentFor pal t).length) := by omega
          rw [harith, goTokens_shift pal f rest 0
            (m.len + 1 + (annotCommentFor pal t).length)]
          have hpreK : (m.text ++ (' ' :: annotCommentFor pal t)).length =
              m.len + 1 + (annotCommentFor pal t).length := by
            simp only [List.length_append, List.length_cons]
            omega
          have hnew : m.text ++ (' ' :: annotCommentFor pal t) ++ annotGo pal f rest =
              (m.text ++ (' ' :: annotCommentFor pal t)) ++ annotGo pal f rest := rfl
          have hfa : findAdjacentComment ((' ' :: annotCommentFor pal t) ++
              annotGo pal f rest) = some (1, (annotCommentFor pal t).length) :=
            findAdjacent_inserted (annotationNameFor pal t) t.alpha (annotGo pal f rest)
              (saneName_annotationNameFor hsane t)
          have hdropnew : (m.text ++ (' ' :: annotCommentFor pal t) ++
              annotGo pal f rest).drop m.len =
              (' ' :: annotCommentFor pal t) ++ annotGo pal f rest := by
            rw [hnew, List.append_assoc, ← hmlen, List.drop_left]
          have hstep : removeStep (m.text ++ (' ' :: annotCommentFor pal t) ++
              annotGo pal f rest) t =
              some (t.start, .deleteOp m.len (1 + (annotCommentFor pal t).length)) := by
            unfold removeStep
            rw [hend, hdropnew, hfa]
          rw [List.reverse_cons, List.filterMap_append]
          have hsing : List.filterMap (removeStep (m.text ++
              (' ' :: annotCommentFor pal t) ++ annotGo pal f rest)) [t] =
              [(t.start, EditOp.deleteOp m.len (1 + (annotCommentFor pal t).length))] := by
            rw [List.filterMap_cons, hstep]
            rfl
          rw [hsing, List.map_append]
          have hps := plan_shift (annotGo pal f rest)
            (m.text ++ (' ' :: annotCommentFor pal t)) (goTokens pal f rest 0)
          rw [hpreK] at hps
          rw [hnew, hps]
          have happly := applyEdits_shift (m.text ++ (' ' :: annotCommentFor pal t))
            (annotGo pal f rest)
            (((goTokens pal f rest 0).reverse.filterMap
              (removeStep (annotGo pal f rest))).map Prod.snd)
          rw [hpreK] at happly
          refine ⟨?_, ?_, ?_⟩
          · apply overlapFreeB_append_singleton
            · rw [overlapFreeB_map_shift]
              exact h1
            · intro o ho
              obtain ⟨o2, _, rfl⟩ := List.mem_map.mp ho
              apply editsCollide_delete_right
              rw [shiftOp_lo]
              omega
          · simp only [List.map_cons, List.map_nil]
            rw [applyEdits, List.foldl_append]
            have happly2 : List.foldl applyOne
                ((m.text ++ (' ' :: annotCommentFor pal t)) ++ annotGo pal f rest)
                ((((goTokens pal f rest 0).reverse.filterMap
                  (removeStep (annotGo pal f rest))).map Prod.snd).map
                  (shiftOp (m.len + 1 + (annotCommentFor pal t).length))) =
                (m.text ++ (' ' :: annotCommentFor pal t)) ++ rest := by
              have := happly
              simp only [applyEdits] at this
              rw [this]
              exact congrArg (fun x => (m.text ++ (' ' :: annotCommentFor pal t)) ++ x) h2
            rw [happly2]
            simp only [List.foldl_cons, List.foldl_nil, applyOne]
            have htake : ((m.text ++ (' ' :: annotCommentFor pal t)) ++ rest).take m.len =
                m.text := by
              rw [List.append_assoc, ← hmlen, List.take_left]
            have hdrop : ((m.text ++ (' ' :: annotCommentFor pal t)) ++ rest).drop
                (m.len + (1 + (annotCommentFor pal t).length)) = rest := by
              have he : m.len + (1 + (annotCommentFor pal t).length) =
                  (m.text ++ (' ' :: annotCommentFor pal t)).length := by
                rw [hpreK]
                omega
              rw [he, List.drop_left]
            rw [htake, hdrop, ← hs]
          · intro t2 ht2
            rcases List.mem_cons.mp ht2 with rfl | ht2
            · unfold annotateStep
              rw [hend, hdropnew, hfa]
              simp only []
              have hex : (((' ' :: annotCommentFor pal t2) ++
                  annotGo pal f rest).drop 1).take (annotCommentFor pal t2).length =
                  annotCommentFor pal t2 := by
                rw [List.cons_append, List.drop_succ_cons, List.drop_zero, List.take_left]
              rw [hex, if_pos (show annotCommentFor pal t2 =
                createAnnotationComment (annotationNameFor pal t2) t2.alpha from rfl)]
            · have := annot_none_shift pal (m.text ++ (' ' :: annotCommentFor pal t))
                (annotGo pal f rest) (goTokens pal f rest 0) h3
              rw [hpreK] at this
              rw [hnew]
              exact this t2 ht2
        | none =>
          simp only []
          rw [goTokens_shift pal f rest 0 m.len]
          obtain ⟨h1x, h2x, h3x⟩ := ih rest hrest
          have hps := plan_shift (annotGo pal f rest) m.text (goTokens pal f rest 0)
          rw [hmlen] at hps
          rw [hps]
          refine ⟨?_, ?_, ?_⟩
          · rw [overlapFreeB_map_shift]
            exact h1
          · have happly := applyEdits_shift m.text (annotGo pal f rest)
              (((goTokens pal f rest 0).reverse.filterMap
                (removeStep (annotGo pal f rest))).map Prod.snd)
            rw [hmlen] at happly
            rw [happly, h2, ← hs]
          · have := annot_none_shift pal m.text (annotGo pal f rest)
              (goTokens pal f rest 0) h3
            rw [hmlen] at this
            exact this

/-! ### Claims C2 and C3 -/

theorem scanTokens_annotGo (pal : List ColorEntry) (hsane : sanePalette pal)
    (buf : List Char) :
    scanTokens (annotGo pal buf.length buf) = goTokens pal buf.length buf 0 :=
  scanAnnot pal hsane buf.length buf 0 _ le_rfl le_rfl

/-- Claim C3 (amended).  On a buffer none of whose color tokens already has
an adjacent comment, and for a palette whose names contain no parenthesis,
star or line break, removing all annotations right after annotating restores
the original buffer text exactly. -/
theorem C3_roundtrip_amended (pal : List ColorEntry) (buf : List Char)
    (hsane : sanePalette pal)
    (hclean : ∀ t ∈ scanTokens buf, findAdjacentComment (buf.drop t.endPos) = none) :
    removeAll (annotateAll pal buf) = buf := by
  rw [annotateAll_eq_annotGo pal buf hclean]
  obtain ⟨h1, h2, _⟩ := annotGo_remove pal hsane buf.length buf le_rfl
  unfold removeAll applyEditsIfSafe removePlan removePairs
  rw [scanTokens_annotGo pal hsane buf, if_pos h1]
  exact h2

unseal Rat.add Rat.sub Rat.mul Rat.inv in
theorem C3_roundtrip_amended_witness :
    removeAll (annotateAll [⟨"White".toList, 1, 0, 0⟩] "x: oklch(1 0 0);".toList) =
      "x: oklch(1 0 0);".toList :=
  C3_roundtrip_amended [⟨"White".toList, 1, 0, 0⟩] "x: oklch(1 0 0);".toList
    (fun e he => by
      rcases List.mem_singleton.mp he with rfl
      exact ⟨by decide, by decide, by decide, by decide⟩)
    (by decide)

unseal Rat.add Rat.sub Rat.mul Rat.inv in
/-- Counterexample to claim C2.  With a palette name that itself contains an
oklch literal, the comment inserted by the first run contains a new color
token, and the second run annotates it: `annotateAll` is not idempotent on
every buffer. -/
theorem C2_idempotence_counterexample :
    annotateAll [⟨"oklch(5 5 5)".toList, 1, 0, 0⟩]
        (annotateAll [⟨"oklch(5 5 5)".toList, 1, 0, 0⟩] "oklch(1 0 0)".toList) ≠
      annotateAll [⟨"oklch(5 5 5)".toList, 1, 0, 0⟩] "oklch(1 0 0)".toList := by
  decide

/-! ### The annotate command on an arbitrary buffer -/

theorem annotateStep_shift (pal : List ColorEntry) (pre X : List Char) (u : OklchToken) :
    annotateStep pal (pre ++ X) (tokenShift pre.length u) =
      (annotateStep pal X u).map
        (fun pr => (pr.1 + pre.length, shiftOp pre.length pr.2)) := by
  unfold annotateStep
  rw [tokenShift_endPos, Nat.add_comm u.endPos pre.length, List.drop_append]
  rw [show annotationNameFor pal (tokenShift pre.length u) = annotationNameFor pal u
      from rfl,
    show (tokenShift pre.length u).alpha = u.alpha from rfl]
  cases hfa : findAdjacentComment (X.drop u.endPos) with
  | none =>
    simp only [Option.map_some', shiftOp]
    rw [show (tokenShift pre.length u).start = u.start + pre.length from rfl,
      Nat.add_comm pre.length u.endPos]
  | some pr =>
    obtain ⟨w, c⟩ := pr
    simp only []
    split
    · rfl
    · simp only [Option.map_some']
      rw [show (tokenShift pre.length u).start = u.start + pre.length from rfl]
      congr 2
      simp only [shiftOp]
      congr 1
      omega

theorem overlapFreeB_append {A B : List EditOp} (h : overlapFreeB (A ++ B) = true) :
    overlapFreeB A = true ∧ overlapFreeB B = true ∧
      ∀ a ∈ A, ∀ b ∈ B, editsCollide a b = false := by
  induction A with
  | nil => exact ⟨rfl, h, by simp⟩
  | cons o A ih =>
    simp only [List.cons_append, overlapFreeB, Bool.and_eq_true, List.all_eq_true] at h
    obtain ⟨hall, hrest⟩ := h
    obtain ⟨hA, hB, hcross⟩ := ih hrest
    refine ⟨?_, hB, ?_⟩
    · simp only [overlapFreeB, Bool.and_eq_true, List.all_eq_true]
      exact ⟨fun a ha => hall a (by simp [ha]), hA⟩
    · intro a ha b hb
      rcases List.mem_cons.mp ha with rfl | ha
      · have h2 := hall b (by simp [hb])
        simpa using h2
      · exact hcross a ha b hb

/-- The text of a well formed match contains no star after the `oklch(`
head (and none before it either, but the tail form is what the comment
boundary argument needs). -/
theorem wf_text_no_star {m : MatchParts} (hwf : WFParts m) :
    '*' ∉ m.text.drop 6 := by
  obtain ⟨hw1, hw2, hw3, hwE, hl, hc, hh, _, _, _, _, _, halpha⟩ := hwf
  have htext : m.text = oklchHead ++ (m.ws1 ++ (m.lRaw ++ (m.ws2 ++ (m.cRaw ++
      (m.ws3 ++ (m.hRaw ++ ((match m.alphaRaw with | some a => a | none => []) ++
        (m.wsEnd ++ [')'])))))))) := by
    simp [MatchParts.text, List.append_assoc]
  have h6 : (6 : Nat) = oklchHead.length := rfl
  rw [htext, h6, List.drop_left]
  intro hmem
  have hWsN : isWs '*' = false := by decide
  have hNumN : isNumCh '*' = false := by decide
  have hPctN : isPctCh '*' = false := by decide
  rcases List.mem_append.mp hmem with h | h
  · rw [hw1 '*' h] at hWsN; exact absurd hWsN (by simp)
  rcases List.mem_append.mp h with h | h
  · rw [hl '*' h] at hNumN; exact absurd hNumN (by simp)
  rcases List.mem_append.mp h with h | h
  · rw [hw2 '*' h] at hWsN; exact absurd hWsN (by simp)
  rcases List.mem_append.mp h with h | h
  · rw [hc '*' h] at hNumN; exact absurd hNumN (by simp)
  rcases List.mem_append.mp h with h | h
  · rw [hw3 '*' h] at hWsN; exact absurd hWsN (by simp)
  rcases List.mem_append.mp h with h | h
  · rw [hh '*' h] at hNumN; exact absurd hNumN (by simp)
  rcases List.mem_append.mp h with h | h
  · cases halph : m.alphaRaw with
    | none => rw [halph] at h; simp at h
    | some g =>
      rw [halph] at h halpha
      obtain ⟨w4, w5, aR, hg, hw4, hw5, haR, _⟩ := halpha
      rw [hg] at h
      rcases List.mem_append.mp h with h2 | h2
      · rcases List.mem_append.mp h2 with h3 | h3
        · rw [hw4 '*' h3] at hWsN; exact absurd hWsN (by simp)
        · rcases List.mem_cons.mp h3 with h4 | h4
          · exact absurd h4 (by decide)
          · rw [hw5 '*' h4] at hWsN; exact absurd hWsN (by simp)
      · rw [haR '*' h2] at hPctN; exact absurd hPctN (by simp)
  rcases List.mem_append.mp h with h | h
  · rw [hwE '*' h] at hWsN; exact absurd hWsN (by simp)
  · exact absurd (List.mem_singleton.mp h) (by decide)

theorem text_head_o (m : MatchParts) : m.text[0]? = some 'o' := by
  have htext : m.text = oklchHead ++ (m.ws1 ++ (m.lRaw ++ (m.ws2 ++ (m.cRaw ++
      (m.ws3 ++ (m.hRaw ++ ((match m.alphaRaw with | some a => a | none => []) ++
        (m.wsEnd ++ [')'])))))))) := by
    simp [MatchParts.text, List.append_assoc]
  rw [htext]
  rfl

/-- A match cannot start at a character other than `o`. -/
theorem matchOklchAt_cons_ne {c : Char} (hne : c ≠ 'o') (l : List Char) :
    matchOklchAt (c :: l) = none := by
  unfold matchOklchAt
  rw [if_neg]
  intro hEq
  rw [List.take_succ_cons] at hEq
  exact hne (List.cons.injEq .. ▸ hEq |>.1)

theorem findStarSlash_spec : ∀ (l : List Char) (k : Nat), findStarSlash l = some k →
    l[k]? = some '*' ∧ l[k + 1]? = some '/' ∧ k + 2 ≤ l.length := by
  intro l
  induction l with
  | nil => intro k h; simp [findStarSlash] at h
  | cons ch r ih =>
    intro k h
    simp only [findStarSlash] at h
    split at h
    · next hcond =>
      simp only [Option.some.injEq] at h
      subst h
      obtain ⟨rfl, hr⟩ := hcond
      refine ⟨by simp, ?_, ?_⟩
      · cases r with
        | nil => simp at hr
        | cons a r2 =>
          simp only [List.head?_cons, Option.some.injEq] at hr
          subst hr
          simp
      · cases r with
        | nil => simp at hr
        | cons a r2 => simp
    · cases hfs : findStarSlash r with
      | none => rw [hfs] at h; simp at h
      | some k2 =>
        rw [hfs] at h
        simp only [Option.map_some', Option.some.injEq] at h
        subst h
        obtain ⟨h1, h2, h3⟩ := ih k2 hfs
        refine ⟨?_, ?_, ?_⟩
        · rw [List.getElem?_cons_succ]; exact h1
        · rw [List.getElem?_cons_succ]; exact h2
        · simp only [List.length_cons]; omega

theorem getElem?_append_off {α : Type _} (l₁ l₂ : List α) (j : Nat) :
    (l₁ ++ l₂)[l₁.length + j]? = l₂[j]? := by
  rw [List.getElem?_append_right (by omega)]
  congr 1
  omega

theorem getElem?_cons_two {α : Type _} (a b : α) (l : List α) (j : Nat) :
    (a :: b :: l)[j + 2]? = l[j]? := by
  rw [show j + 2 = (j + 1) + 1 from rfl, List.getElem?_cons_succ, List.getElem?_cons_succ]

/-- Anatomy of a located adjacent comment: a whitespace prefix on the
line, the opening `/*`, and the closing `*/` right at the reported end. -/
theorem findAdjacentComment_anatomy {tail : List Char} {w c : Nat}
    (h : findAdjacentComment tail = some (w, c)) :
    (∀ ch ∈ tail.take w, isWs ch = true ∧ notNl ch = true) ∧
    tail[w]? = some '/' ∧ tail[w + 1]? = some '*' ∧
    tail[w + c - 2]? = some '*' ∧ tail[w + c - 1]? = some '/' ∧
    4 ≤ c ∧ w + c ≤ tail.length := by
  have hle := findAdjacentComment_le h
  unfold findAdjacentComment at h
  simp only [] at h
  split at h
  · next body heq =>
    obtain ⟨k, hk, hwc⟩ := Option.map_eq_some'.mp h
    obtain ⟨hw, hc⟩ := Prod.mk.injEq .. ▸ hwc
    obtain ⟨hstar, hslash, hk2⟩ := findStarSlash_spec body k hk
    have hsplit : (tail.takeWhile notNl) =
        (tail.takeWhile notNl).takeWhile isWs ++ '/' :: '*' :: body := by
      conv_lhs => rw [← List.takeWhile_append_dropWhile (p := isWs)
        (l := tail.takeWhile notNl), heq]
    have htail2 : tail = (tail.takeWhile notNl).takeWhile isWs ++
        ('/' :: '*' :: (body ++ tail.dropWhile notNl)) := by
      conv_lhs => rw [← List.takeWhile_append_dropWhile (p := notNl) (l := tail)]
      conv_lhs => rw [hsplit]
      simp [List.append_assoc]
    have hbk : k < body.length := by omega
    have hbk1 : k + 1 < body.length := by omega
    refine ⟨?_, ?_, ?_, ?_, ?_, by omega, hle⟩
    · intro ch hch
      have htake : tail.take w = (tail.takeWhile notNl).takeWhile isWs := by
        conv_lhs => rw [htail2, ← hw]
        exact List.take_left ..
      rw [htake] at hch
      have h1 : isWs ch = true := mem_takeWhile_pred ch hch
      have h2 : ch ∈ tail.takeWhile notNl :=
        (List.takeWhile_sublist _).subset hch
      exact ⟨h1, mem_takeWhile_pred ch h2⟩
    · conv_lhs => rw [htail2, ← hw]
      rw [show ((tail.takeWhile notNl).takeWhile isWs).length =
        ((tail.takeWhile notNl).takeWhile isWs).length + 0 from rfl,
        getElem?_append_off]
      simp
    · conv_lhs => rw [htail2, ← hw]
      rw [getElem?_append_off]
      simp
    · conv_lhs => rw [htail2, ← hw, ← hc]
      rw [show ((tail.takeWhile notNl).takeWhile isWs).length + (k + 4) - 2 =
        ((tail.takeWhile notNl).takeWhile isWs).length + (k + 2) from by omega,
        getElem?_append_off, getElem?_cons_two,
        List.getElem?_append_left hbk]
      exact hstar
    · conv_lhs => rw [htail2, ← hw, ← hc]
      rw [show ((tail.takeWhile notNl).takeWhile isWs).length + (k + 4) - 1 =
        ((tail.takeWhile notNl).takeWhile isWs).length + (k + 1 + 2) from by omega,
        getElem?_append_off, getElem?_cons_two,
        List.getElem?_append_left hbk1]
      exact hslash
  · simp at h

theorem mem_of_getElem?' {α : Type _} {l : List α} {n : Nat} {a : α}
    (h : l[n]? = some a) : a ∈ l := by
  obtain ⟨hn, rfl⟩ := List.getElem?_eq_some.mp h
  exact List.getElem_mem hn

theorem text_decomp (m : MatchParts) : m.text = oklchHead ++ (m.ws1 ++ (m.lRaw ++
    (m.ws2 ++ (m.cRaw ++ (m.ws3 ++ (m.hRaw ++
      ((match m.alphaRaw with | some a => a | none => []) ++
        (m.wsEnd ++ [')'])))))))) := by
  simp [MatchParts.text, List.append_assoc]

/-- A match cannot begin at a buffer position holding anything but `o`. -/
theorem matchOklchAt_drop_none {rest : List Char} {i : Nat} {ch2 : Char}
    (hch : rest[i]? = some ch2) (hne : ch2 ≠ 'o') :
    matchOklchAt (rest.drop i) = none := by
  cases hdrop : rest.drop i with
  | nil => decide
  | cons a l2 =>
    have h1 : (rest.drop i)[0]? = rest[i]? := by
      rw [List.getElem?_drop, Nat.add_zero]
    rw [hdrop, List.getElem?_cons_zero, hch] at h1
    obtain rfl : a = ch2 := by simpa using h1
    exact matchOklchAt_cons_ne hne l2

/-- No regex match beginning inside a located comment region (whitespace
prefix included) can extend to or past the closing star slash. -/
theorem no_straddle {rest : List Char} {w c : Nat}
    (h : findAdjacentComment rest = some (w, c)) :
    ∀ i, i < w + c → ∀ m2 r2, matchOklchAt (rest.drop i) = some (m2, r2) →
      i + m2.len ≤ w + c - 2 := by
  obtain ⟨hws, hsl, hst, hst2, hsl2, hc4, hbound⟩ := findAdjacentComment_anatomy h
  intro i hi m2 r2 hm
  have hwsel : ∀ j, j < w → ∃ ch2, rest[j]? = some ch2 ∧ isWs ch2 = true := by
    intro j hj
    have hjlen : j < rest.length := by omega
    refine ⟨rest[j], List.getElem?_eq_getElem hjlen, ?_⟩
    have hmem : rest[j] ∈ rest.take w := by
      have ht : (rest.take w)[j]? = some rest[j] := by
        rw [List.getElem?_take, if_pos hj]
        exact List.getElem?_eq_getElem hjlen
      exact mem_of_getElem?' ht
    exact (hws rest[j] hmem).1
  by_cases hiw : i < w
  · obtain ⟨ch2, hch2, hwsc⟩ := hwsel i hiw
    rw [matchOklchAt_drop_none hch2
      (fun he => by rw [he] at hwsc; exact absurd hwsc (by decide))] at hm
    exact absurd hm (by simp)
  push_neg at hiw
  by_cases hi2 : i = w
  · subst hi2
    rw [matchOklchAt_drop_none hsl (by decide)] at hm
    exact absurd hm (by simp)
  by_cases hi3 : i = w + 1
  · subst hi3
    rw [matchOklchAt_drop_none hst (by decide)] at hm
    exact absurd hm (by simp)
  by_cases hi4 : i = w + c - 2
  · subst hi4
    rw [matchOklchAt_drop_none hst2 (by decide)] at hm
    exact absurd hm (by simp)
  by_cases hi5 : i = w + c - 1
  · subst hi5
    rw [matchOklchAt_drop_none hsl2 (by decide)] at hm
    exact absurd hm (by simp)
  by_contra hgt
  push_neg at hgt
  have hcov : i ≤ w + c - 2 := by omega
  have hj0 : w + c - 2 - i < m2.len := by omega
  have hdec := matchOklchAt_decomp hm
  have hmlen : m2.len = m2.text.length := rfl
  have htxt : m2.text[w + c - 2 - i]? = some '*' := by
    have h1 : (rest.drop i)[w + c - 2 - i]? = rest[i + (w + c - 2 - i)]? :=
      List.getElem?_drop ..
    rw [hdec, List.getElem?_append_left (by omega),
      show i + (w + c - 2 - i) = w + c - 2 from by omega] at h1
    rw [h1]
    exact hst2
  have hwf2 := matchOklchAt_wf hm
  by_cases hj6 : w + c - 2 - i < 6
  · have hh : m2.text[w + c - 2 - i]? = oklchHead[w + c - 2 - i]? := by
      conv_lhs => rw [text_decomp m2]
      rw [List.getElem?_append_left (by simpa [oklchHead] using hj6)]
    rw [hh] at htxt
    exact absurd (mem_of_getElem?' htxt) (by decide)
  · push_neg at hj6
    have hmem : '*' ∈ m2.text.drop 6 := by
      have h2 : (m2.text.drop 6)[w + c - 2 - i - 6]? =
          m2.text[6 + (w + c - 2 - i - 6)]? := List.getElem?_drop ..
      rw [show 6 + (w + c - 2 - i - 6) = w + c - 2 - i from by omega, htxt] at h2
      exact mem_of_getElem?' h2
    exact wf_text_no_star hwf2 hmem

/-- Splitting a scan at a cut position that no match (accepted or rejected)
reaches: the scan decomposes into tokens confined before the bound `q` and
the scan of the suffix. -/
theorem scanAux_split : ∀ (n : Nat) (s : List Char) (p q pos f : Nat),
    s.length ≤ n → p ≤ s.length → s.length ≤ f → q ≤ p →
    (∀ i, i < p → ∀ m2 r2, matchOklchAt (s.drop i) = some (m2, r2) →
      i + m2.len ≤ q) →
    ∃ pre, scanAux f s pos = pre ++ scanAux (s.length - p) (s.drop p) (pos + p) ∧
      ∀ t ∈ pre, (pos ≤ t.start ∧ t.endPos ≤ pos + q) ∧ 7 ≤ t.len := by
  intro n
  induction n with
  | zero =>
    intro s p q pos f hsn hp hf hq hmatch
    have hs : s = [] := List.eq_nil_of_length_eq_zero (Nat.le_zero.mp hsn)
    subst hs
    have hp0 : p = 0 := by simpa using hp
    subst hp0
    refine ⟨[], ?_, by simp⟩
    simp [scanAux_nil]
  | succ n ih =>
    intro s p q pos f hsn hp hf hq hmatch
    rcases Nat.eq_zero_or_pos p with rfl | hppos
    · refine ⟨[], ?_, by simp⟩
      rw [List.drop_zero, Nat.add_zero, List.nil_append]
      exact scanAux_fuel s.length s le_rfl f (s.length - 0) pos hf (by omega)
    · cases s with
      | nil =>
        simp only [List.length_nil] at hp
        omega
      | cons ch r =>
        obtain ⟨f2, rfl⟩ : ∃ f2, f = f2 + 1 := by
          cases f with
          | zero => simp at hf
          | succ k => exact ⟨k, rfl⟩
        simp only [scanAux]
        cases hm : matchOklchAt (ch :: r) with
        | some pr =>
          obtain ⟨m, rest⟩ := pr
          have hbound := hmatch 0 hppos m rest (by simpa using hm)
          have hml : m.len ≤ q := by omega
          have hdec := matchOklchAt_decomp hm
          have hlen := matchOklchAt_rest_len hm
          have hge := m.len_ge
          have hdropalign : (ch :: r).drop p = rest.drop (p - m.len) := by
            conv_lhs => rw [hdec, show p = m.text.length + (p - m.len) from by
              (have hml2 : m.len = m.text.length := rfl; omega)]
            rw [List.drop_append]
          have hmatch2 : ∀ i, i < p - m.len → ∀ m2 r2,
              matchOklchAt (rest.drop i) = some (m2, r2) → i + m2.len ≤ q - m.len := by
            intro i hi m2 r2 hm2
            have hdrop2 : rest.drop i = (ch :: r).drop (m.len + i) := by
              conv_rhs => rw [hdec, show m.len + i = m.text.length + i from by
                (have hml2 : m.len = m.text.length := rfl; omega)]
              rw [List.drop_append]
            rw [hdrop2] at hm2
            have := hmatch (m.len + i) (by omega) m2 r2 hm2
            omega
          obtain ⟨pre2, hpre2, hbnd2⟩ := ih rest (p - m.len) (q - m.len)
            (pos + m.len) f2
            (by simp only [List.length_cons] at hsn hlen; omega)
            (by simp only [List.length_cons] at hp hlen; omega)
            (by simp only [List.length_cons] at hf hlen; omega)
            (by omega) hmatch2
          have e1 : rest.length - (p - m.len) = (ch :: r).length - p := by
            simp only [List.length_cons] at hlen ⊢
            omega
          have e2 : pos + m.len + (p - m.len) = pos + p := by omega
          cases hk : mkToken pos m with
          | some t =>
            obtain ⟨hstart, htlen, _⟩ := mkToken_some_fields hk
            refine ⟨t :: pre2, ?_, ?_⟩
            · simp only []
              rw [hpre2, e1, e2, ← hdropalign, hk]
              rfl
            · intro t2 ht2
              rcases List.mem_cons.mp ht2 with rfl | ht2
              · refine ⟨⟨by omega, ?_⟩, by omega⟩
                simp only [OklchToken.endPos, hstart, htlen]
                omega
              · obtain ⟨⟨h1, h2⟩, h3⟩ := hbnd2 t2 ht2
                exact ⟨⟨by omega, by omega⟩, h3⟩
          | none =>
            refine ⟨pre2, ?_, ?_⟩
            · simp only []
              rw [hk]
              show scanAux f2 rest (pos + m.len) = _
              rw [hpre2, e1, e2, ← hdropalign]
            · intro t2 ht2
              obtain ⟨⟨h1, h2⟩, h3⟩ := hbnd2 t2 ht2
              exact ⟨⟨by omega, by omega⟩, h3⟩
        | none =>
          have hmatch2 : ∀ i, i < p - 1 → ∀ m2 r2,
              matchOklchAt (r.drop i) = some (m2, r2) → i + m2.len ≤ q - 1 := by
            intro i hi m2 r2 hm2
            have hq7 : 7 ≤ m2.len := m2.len_ge
            have := hmatch (i + 1) (by omega) m2 r2 (by simpa using hm2)
            omega
          obtain ⟨pre2, hpre2, hbnd2⟩ := ih r (p - 1) (q - 1) (pos + 1) f2
            (by simp only [List.length_cons] at hsn; omega)
            (by simp only [List.length_cons] at hp; omega)
            (by simp only [List.length_cons] at hf; omega)
            (by omega) hmatch2
          refine ⟨pre2, ?_, ?_⟩
          · rw [hpre2]
            have e1 : r.length - (p - 1) = (ch :: r).length - p := by
              simp only [List.length_cons]
              omega
            have e2 : pos + 1 + (p - 1) = pos + p := by omega
            have e3 : r.drop (p - 1) = (ch :: r).drop p := by
              rw [show p = (p - 1) + 1 from by omega]
              rfl
            rw [e1, e2, e3]
          · intro t2 ht2
            obtain ⟨⟨h1, h2⟩, h3⟩ := hbnd2 t2 ht2
            refine ⟨⟨by omega, ?_⟩, h3⟩
            have h4 : pos + 1 + 7 ≤ t2.endPos := by
              simp only [OklchToken.endPos]
              omega
            omega

/-- A token scanned strictly inside a located comment region either produces
no edit, or produces an edit colliding with the replacement of that
comment. -/
theorem internal_step (pal : List ColorEntry) (M rest : List Char) (f w c : Nat)
    (X : List Char) (u : OklchToken)
    (hfa : findAdjacentComment rest = some (w, c))
    (hu : u ∈ scanAux f rest M.length)
    (hend : u.endPos ≤ M.length + (w + c - 2)) :
    annotateStep pal (M ++ rest) u = none ∨
    ∃ st op, annotateStep pal (M ++ rest) u = some (st, op) ∧
      editsCollide op (.replaceOp (M.length + w) c X) = true := by
  obtain ⟨hws, hsl, hst, hst2, hsl2, hc4, hbound⟩ := findAdjacentComment_anatomy hfa
  obtain ⟨m2, pre, r2, hsplit, hpos, hmk⟩ := scanAux_text f rest M.length u hu
  obtain ⟨-, htlen, -⟩ := mkToken_some_fields hmk
  have hge7 : 7 ≤ m2.len := m2.len_ge
  have hml2 : m2.len = m2.text.length := rfl
  have hEP : u.endPos = u.start + u.len := rfl
  have hi_le : pre.length + m2.len ≤ w + c - 2 := by omega
  have hsplit' : rest = pre ++ (m2.text ++ r2) := by
    rw [hsplit, List.append_assoc]
  have hio : rest[pre.length]? = some 'o' := by
    rw [hsplit', show (pre.length : Nat) = pre.length + 0 from rfl, getElem?_append_off,
      List.getElem?_append_left (by omega), text_head_o]
  have hwi : w ≤ pre.length := by
    by_contra hlt
    push_neg at hlt
    have hmem : 'o' ∈ rest.take w := by
      refine mem_of_getElem?' (n := pre.length) ?_
      rw [List.getElem?_take, if_pos hlt]
      exact hio
    have := (hws 'o' hmem).1
    exact absurd this (by decide)
  have hdropu : (M ++ rest).drop u.endPos = rest.drop (pre.length + m2.len) := by
    rw [show u.endPos = M.length + (pre.length + m2.len) from by omega, List.drop_append]
  unfold annotateStep
  rw [hdropu]
  cases hfa2 : findAdjacentComment (rest.drop (pre.length + m2.len)) with
  | none =>
    simp only []
    refine Or.inr ⟨u.start, _, rfl, ?_⟩
    simp only [editsCollide, EditOp.lo, EditOp.hi, Bool.and_eq_true, decide_eq_true_eq]
    constructor <;> omega
  | some pr =>
    obtain ⟨w2, c2⟩ := pr
    simp only []
    split
    · exact Or.inl rfl
    · obtain ⟨hws2, hslI, -, -, -, -, hboundI⟩ := findAdjacentComment_anatomy hfa2
      have hslI' : rest[pre.length + m2.len + w2]? = some '/' := by
        have h1 : (rest.drop (pre.length + m2.len))[w2]? =
            rest[pre.length + m2.len + w2]? := List.getElem?_drop ..
        rw [← h1]
        exact hslI
      have hlt : pre.length + m2.len + w2 < w + c := by
        by_contra hge2
        push_neg at hge2
        have hk : w + c - 2 - (pre.length + m2.len) < w2 := by omega
        have hmem : '*' ∈ (rest.drop (pre.length + m2.len)).take w2 := by
          refine mem_of_getElem?' (n := w + c - 2 - (pre.length + m2.len)) ?_
          rw [List.getElem?_take, if_pos hk, List.getElem?_drop,
            show pre.length + m2.len + (w + c - 2 - (pre.length + m2.len)) = w + c - 2 from
              by omega]
          exact hst2
        have := (hws2 '*' hmem).1
        exact absurd this (by decide)
      refine Or.inr ⟨u.start, _, rfl, ?_⟩
      simp only [editsCollide, EditOp.lo, EditOp.hi, Bool.and_eq_true, decide_eq_true_eq]
      constructor <;> omega

theorem aplan_shift (pal : List ColorEntry) (X₀ pre : List Char) (T₀ : List OklchToken) :
    ((T₀.map (tokenShift pre.length)).reverse.filterMap
        (annotateStep pal (pre ++ X₀))).map Prod.snd =
      (((T₀.reverse.filterMap (annotateStep pal X₀)).map Prod.snd).map
        (shiftOp pre.length)) := by
  rw [← List.map_reverse, List.filterMap_map]
  have hfun : (annotateStep pal (pre ++ X₀)) ∘ (tokenShift pre.length) = fun u =>
      (annotateStep pal X₀ u).map
        (fun pr => (pr.1 + pre.length, shiftOp pre.length pr.2)) := by
    funext u
    simp only [Function.comp_apply]
    exact annotateStep_shift pal pre X₀ u
  rw [hfun, ← List.map_filterMap, List.map_map, List.map_map]
  rfl

theorem scanAux_shift0 (f : Nat) (s : List Char) (k : Nat) :
    scanAux f s k = (scanAux f s 0).map (tokenShift k) := by
  conv_lhs => rw [← Nat.zero_add k]
  exact scanAux_shift f s 0 k

theorem aplan_shift_len (pal : List ColorEntry) (X₀ pre : List Char) (k : Nat)
    (hk : pre.length = k) (T₀ : List OklchToken) :
    ((T₀.map (tokenShift k)).reverse.filterMap
        (annotateStep pal (pre ++ X₀))).map Prod.snd =
      (((T₀.reverse.filterMap (annotateStep pal X₀)).map Prod.snd).map (shiftOp k)) := by
  subst hk
  exact aplan_shift pal X₀ pre T₀

theorem applyEdits_shift_len (pre s : List Char) (k : Nat) (hk : pre.length = k)
    (ops : List EditOp) :
    applyEdits (pre ++ s) (ops.map (shiftOp k)) = pre ++ applyEdits s ops := by
  subst hk
  exact applyEdits_shift pre s ops

/-- Bridge: when the emitted annotate plan is collision free, applying it
realizes the general recursive transformer `annotGo2`. -/
theorem applyEdits_annotPlan2 (pal : List ColorEntry) : ∀ (f : Nat) (s : List Char),
    s.length ≤ f →
    overlapFreeB (((scanAux f s 0).reverse.filterMap (annotateStep pal s)).map Prod.snd)
      = true →
    applyEdits s (((scanAux f s 0).reverse.filterMap (annotateStep pal s)).map Prod.snd) =
      annotGo2 pal f s := by
  intro f
  induction f with
  | zero =>
    intro s hsf _
    have hs : s = [] := List.eq_nil_of_length_eq_zero (Nat.le_zero.mp hsf)
    subst hs
    simp [scanAux, annotGo2, applyEdits]
  | succ f ih =>
    intro s hsf hfree
    cases s with
    | nil => simp [scanAux, annotGo2, applyEdits]
    | cons ch r =>
      simp only [scanAux, annotGo2] at hfree ⊢
      cases hm : matchOklchAt (ch :: r) with
      | none =>
        rw [hm] at hfree
        simp only [] at hfree ⊢
        have hplanrw : ((scanAux f r (0 + 1)).reverse.filterMap
            (annotateStep pal (ch :: r))).map Prod.snd =
            (((scanAux f r 0).reverse.filterMap (annotateStep pal r)).map Prod.snd).map
              (shiftOp 1) := by
          rw [scanAux_shift f r 0 1]
          exact aplan_shift pal r [ch] (scanAux f r 0)
        rw [hplanrw] at hfree ⊢
        rw [overlapFreeB_map_shift] at hfree
        have happ : applyEdits (ch :: r)
            ((((scanAux f r 0).reverse.filterMap (annotateStep pal r)).map Prod.snd).map
              (shiftOp 1)) =
            [ch] ++ applyEdits r
              (((scanAux f r 0).reverse.filterMap (annotateStep pal r)).map Prod.snd) :=
          applyEdits_shift [ch] r _
        rw [happ, ih r (by simp only [List.length_cons] at hsf; omega) hfree]
        rfl
      | some pr =>
        obtain ⟨m, rest⟩ := pr
        rw [hm] at hfree
        simp only [] at hfree ⊢
        have hdec : ch :: r = m.text ++ rest := matchOklchAt_decomp hm
        have hlen := matchOklchAt_rest_len hm
        have hge := m.len_ge
        have hml : m.text.length = m.len := rfl
        have hrestf : rest.length ≤ f := by
          simp only [List.length_cons] at hsf hlen
          omega
        cases hk : mkToken 0 m with
        | none =>
          rw [hk] at hfree
          simp only [] at hfree ⊢
          simp only [Nat.zero_add] at hfree ⊢
          have hplanrw : ((scanAux f rest m.len).reverse.filterMap
              (annotateStep pal (ch :: r))).map Prod.snd =
              (((scanAux f rest 0).reverse.filterMap (annotateStep pal rest)).map
                Prod.snd).map (shiftOp m.len) := by
            rw [scanAux_shift0 f rest m.len, hdec]
            exact aplan_shift_len pal rest m.text m.len hml (scanAux f rest 0)
          rw [hplanrw] at hfree ⊢
          rw [overlapFreeB_map_shift] at hfree
          rw [hdec]
          have happ : applyEdits (m.text ++ rest)
              ((((scanAux f rest 0).reverse.filterMap (annotateStep pal rest)).map
                Prod.snd).map (shiftOp m.len)) =
              m.text ++ applyEdits rest
                (((scanAux f rest 0).reverse.filterMap (annotateStep pal rest)).map
                  Prod.snd) :=
            applyEdits_shift_len m.text rest m.len hml _
          rw [happ, ih rest hrestf hfree]
        | some t =>
          rw [hk] at hfree
          simp only [] at hfree ⊢
          simp only [Nat.zero_add] at hfree ⊢
          obtain ⟨htst, htlen, -⟩ := mkToken_some_fields hk
          have htend : t.endPos = m.len := by
            simp only [OklchToken.endPos, htst, htlen]
            omega
          have hdropt : (ch :: r).drop t.endPos = rest := by
            rw [htend, hdec, ← hml]
            exact List.drop_left m.text rest
          cases hfa : findAdjacentComment rest with
          | none =>
            have hstep : annotateStep pal (ch :: r) t =
                some (t.start, .insertOp t.endPos (' ' :: annotCommentFor pal t)) :=
              annotateStep_clean (by rw [hdropt]; exact hfa)
            have hplanrw : ((t :: scanAux f rest m.len).reverse.filterMap
                (annotateStep pal (ch :: r))).map Prod.snd =
                ((((scanAux f rest 0).reverse.filterMap (annotateStep pal rest)).map
                  Prod.snd).map (shiftOp m.len)) ++
                  [.insertOp t.endPos (' ' :: annotCommentFor pal t)] := by
              rw [List.reverse_cons, List.filterMap_append, List.map_append]
              congr 1
              · rw [scanAux_shift0 f rest m.len, hdec]
                exact aplan_shift_len pal rest m.text m.len hml (scanAux f rest 0)
              · simp [hstep]
            rw [hplanrw] at hfree ⊢
            obtain ⟨hfreeA, -, -⟩ := overlapFreeB_append hfree
            rw [overlapFreeB_map_shift] at hfreeA
            unfold applyEdits
            rw [List.foldl_append]
            have hA : List.foldl applyOne (ch :: r)
                ((((scanAux f rest 0).reverse.filterMap (annotateStep pal rest)).map
                  Prod.snd).map (shiftOp m.len)) =
                m.text ++ annotGo2 pal f rest := by
              rw [hdec]
              exact (applyEdits_shift_len m.text rest m.len hml _).trans
                (by rw [ih rest hrestf hfreeA])
            rw [hA]
            simp only [List.foldl_cons, List.foldl_nil, applyOne]
            rw [htend, ← hml, List.take_left, List.drop_left]
          | some pr2 =>
            obtain ⟨w, c⟩ := pr2
            simp only [] at hfree ⊢
            obtain ⟨hws, hsl, hst, hst2, hsl2, hc4, hbound⟩ := findAdjacentComment_anatomy hfa
            by_cases heq : (rest.drop w).take c = annotCommentFor pal t
            · rw [if_pos heq]
              have hstep : annotateStep pal (ch :: r) t = none := by
                unfold annotateStep
                rw [hdropt, hfa]
                simp only []
                rw [show createAnnotationComment (annotationNameFor pal t) t.alpha =
                  annotCommentFor pal t from rfl, if_pos heq]
              have hplanrw : ((t :: scanAux f rest m.len).reverse.filterMap
                  (annotateStep pal (ch :: r))).map Prod.snd =
                  (((scanAux f rest 0).reverse.filterMap (annotateStep pal rest)).map
                    Prod.snd).map (shiftOp m.len) := by
                rw [List.reverse_cons, List.filterMap_append, List.map_append]
                rw [show ([t].filterMap (annotateStep pal (ch :: r))).map Prod.snd = []
                  from by simp [hstep]]
                rw [List.append_nil]
                rw [scanAux_shift0 f rest m.len, hdec]
                exact aplan_shift_len pal rest m.text m.len hml (scanAux f rest 0)
              rw [hplanrw] at hfree ⊢
              rw [overlapFreeB_map_shift] at hfree
              rw [hdec]
              have happ : applyEdits (m.text ++ rest)
                  ((((scanAux f rest 0).reverse.filterMap (annotateStep pal rest)).map
                    Prod.snd).map (shiftOp m.len)) =
                  m.text ++ applyEdits rest
                    (((scanAux f rest 0).reverse.filterMap (annotateStep pal rest)).map
                      Prod.snd) :=
                applyEdits_shift_len m.text rest m.len hml _
              rw [happ, ih rest hrestf hfree]
            · rw [if_neg heq]
              have hstep : annotateStep pal (ch :: r) t =
                  some (t.start, .replaceOp (m.text.length + w) c
                    (annotCommentFor pal t)) := by
                unfold annotateStep
                rw [hdropt, hfa]
                simp only []
                rw [show createAnnotationComment (annotationNameFor pal t) t.alpha =
                  annotCommentFor pal t from rfl, if_neg heq, htend, ← hml]
              obtain ⟨pre2, hpre2, hbnd2⟩ := scanAux_split rest.length rest (w + c)
                (w + c - 2) m.len f le_rfl hbound hrestf (by omega) (no_straddle hfa)
              have hplanrw : ((t :: scanAux f rest m.len).reverse.filterMap
                  (annotateStep pal (ch :: r))).map Prod.snd =
                  (((scanAux (rest.length - (w + c)) (rest.drop (w + c))
                      (m.len + (w + c))).reverse.filterMap
                    (annotateStep pal (ch :: r))).map Prod.snd) ++
                  ((pre2.reverse.filterMap (annotateStep pal (ch :: r))).map Prod.snd) ++
                  [.replaceOp (m.text.length + w) c (annotCommentFor pal t)] := by
                rw [hpre2, List.reverse_cons, List.reverse_append, List.append_assoc,
                  List.filterMap_append, List.filterMap_append, List.map_append,
                  List.map_append]
                rw [show ([t].filterMap (annotateStep pal (ch :: r))).map Prod.snd =
                  [.replaceOp (m.text.length + w) c (annotCommentFor pal t)]
                  from by simp [hstep]]
                rw [← List.append_assoc]
              rw [hplanrw] at hfree ⊢
              have hBnone : ∀ u ∈ pre2, annotateStep pal (ch :: r) u = none := by
                intro u hu
                have humem0 : u ∈ scanAux f rest m.len := by
                  rw [hpre2]
                  exact List.mem_append_left _ hu
                have humem : u ∈ scanAux f rest m.text.length := by
                  rw [hml]
                  exact humem0
                rcases internal_step pal m.text rest f w c (annotCommentFor pal t) u hfa
                  humem (by
                    obtain ⟨⟨h1, h2⟩, h3⟩ := hbnd2 u hu
                    omega) with hnone | ⟨st, op, hsome, hcol⟩
                · rw [hdec]
                  exact hnone
                · exfalso
                  obtain ⟨-, -, hcross⟩ := overlapFreeB_append hfree
                  have hopmem : op ∈
                      (((scanAux (rest.length - (w + c)) (rest.drop (w + c))
                          (m.len + (w + c))).reverse.filterMap
                        (annotateStep pal (ch :: r))).map Prod.snd) ++
                      ((pre2.reverse.filterMap (annotateStep pal (ch :: r))).map
                        Prod.snd) := by
                    refine List.mem_append_right _ ?_
                    refine List.mem_map.mpr ⟨(st, op), ?_, rfl⟩
                    refine List.mem_filterMap.mpr ⟨u, List.mem_reverse.mpr hu, ?_⟩
                    rw [hdec]
                    exact hsome
                  have := hcross op hopmem _ (List.mem_singleton.mpr rfl)
                  rw [hcol] at this
                  exact absurd this (by simp)
              have hB : pre2.reverse.filterMap (annotateStep pal (ch :: r)) = [] := by
                rw [List.filterMap_eq_nil_iff]
                exact fun u hu => hBnone u (List.mem_reverse.mp hu)
              rw [hB] at hfree ⊢
              simp only [List.map_nil, List.append_nil] at hfree ⊢
              have hdlen : (rest.drop (w + c)).length ≤ f := by
                simp only [List.length_drop]
                omega
              have hfar : scanAux (rest.length - (w + c)) (rest.drop (w + c))
                  (m.len + (w + c)) =
                  (scanAux f (rest.drop (w + c)) 0).map (tokenShift (m.len + (w + c))) := by
                rw [scanAux_fuel (rest.drop (w + c)).length (rest.drop (w + c)) le_rfl
                  (rest.length - (w + c)) f (m.len + (w + c))
                  (by simp only [List.length_drop]; exact le_rfl) hdlen]
                exact scanAux_shift0 f (rest.drop (w + c)) (m.len + (w + c))
              have hbufdec : ch :: r = (m.text ++ rest.take (w + c)) ++ rest.drop (w + c)
                := by
                rw [hdec, List.append_assoc, List.take_append_drop]
              have hKlen : m.len + (w + c) = (m.text ++ rest.take (w + c)).length := by
                simp only [List.length_append, List.length_take]
                omega
              have hA2 : (((scanAux (rest.length - (w + c)) (rest.drop (w + c))
                    (m.len + (w + c))).reverse.filterMap
                  (annotateStep pal (ch :: r))).map Prod.snd) =
                  (((scanAux f (rest.drop (w + c)) 0).reverse.filterMap
                    (annotateStep pal (rest.drop (w + c)))).map Prod.snd).map
                    (shiftOp (m.len + (w + c))) := by
                rw [hfar, hbufdec]
                exact aplan_shift_len pal (rest.drop (w + c))
                  (m.text ++ rest.take (w + c)) (m.len + (w + c)) hKlen.symm
                  (scanAux f (rest.drop (w + c)) 0)
              rw [hA2] at hfree ⊢
              obtain ⟨hfreeA, -, -⟩ := overlapFreeB_append hfree
              rw [overlapFreeB_map_shift] at hfreeA
              unfold applyEdits
              rw [List.foldl_append]
              have hA : List.foldl applyOne (ch :: r)
                  ((((scanAux f (rest.drop (w + c)) 0).reverse.filterMap
                    (annotateStep pal (rest.drop (w + c)))).map Prod.snd).map
                    (shiftOp (m.len + (w + c)))) =
                  (m.text ++ rest.take (w + c)) ++ annotGo2 pal f (rest.drop (w + c)) := by
                rw [hbufdec]
                exact (applyEdits_shift_len (m.text ++ rest.take (w + c))
                  (rest.drop (w + c)) (m.len + (w + c)) hKlen.symm _).trans
                  (by rw [ih (rest.drop (w + c)) hdlen hfreeA])
              rw [hA]
              simp only [List.foldl_cons, List.foldl_nil, applyOne]
              have htk : ((m.text ++ rest.take (w + c)) ++
                  annotGo2 pal f (rest.drop (w + c))).take (m.text.length + w) =
                  m.text ++ rest.take w := by
                rw [List.take_append_of_le_length (by
                    simp only [List.length_append, List.length_take]
                    omega),
                  List.take_append, List.take_take,
                  show min w (w + c) = w from by omega]
              have hdr : ((m.text ++ rest.take (w + c)) ++
                  annotGo2 pal f (rest.drop (w + c))).drop (m.text.length + w + c) =
                  annotGo2 pal f (rest.drop (w + c)) := by
                rw [show m.text.length + w + c = (m.text ++ rest.take (w + c)).length from
                  by simp only [List.length_append, List.length_take]; omega]
                exact List.drop_left _ _
              rw [htk, hdr]

theorem dropWhile_append_all {p : Char → Bool} : ∀ (P K : List Char),
    (∀ ch ∈ P, p ch = true) → (P ++ K).dropWhile p = K.dropWhile p := by
  intro P
  induction P with
  | nil => intro K _; rfl
  | cons a P ih =>
    intro K h
    rw [List.cons_append, List.dropWhile_cons_of_pos (h a (by simp))]
    exact ih K (fun ch hc => h ch (by simp [hc]))

/-- The comment locator finds a computed comment behind any run of same line
whitespace. -/
theorem findAdjacent_wscomment (name : List Char) (alpha : Option ℚ) (W K : List Char)
    (hs : saneName name) (hW : ∀ ch ∈ W, isWs ch = true ∧ notNl ch = true) :
    findAdjacentComment (W ++ createAnnotationComment name alpha ++ K) =
      some (W.length, (createAnnotationComment name alpha).length) := by
  obtain ⟨base, hshape, hstar, hpar, hnl⟩ := comment_shape name alpha hs
  have hline : (W ++ ('/' :: '*' :: ' ' :: (base ++ ' ' :: '*' :: '/' :: K))).takeWhile
      notNl =
      W ++ ('/' :: '*' :: ' ' :: (base ++ ' ' :: '*' :: '/' :: K.takeWhile notNl)) := by
    rw [List.takeWhile_append_of_pos (fun ch h => (hW ch h).2),
      List.takeWhile_cons_of_pos (by decide), List.takeWhile_cons_of_pos (by decide),
      List.takeWhile_cons_of_pos (by decide),
      List.takeWhile_append_of_pos hnl,
      List.takeWhile_cons_of_pos (by decide), List.takeWhile_cons_of_pos (by decide),
      List.takeWhile_cons_of_pos (by decide)]
  have hws : (W ++ ('/' :: '*' :: ' ' :: (base ++ ' ' :: '*' :: '/' ::
      K.takeWhile notNl))).takeWhile isWs = W := by
    rw [List.takeWhile_append_of_pos (fun ch h => (hW ch h).1),
      List.takeWhile_cons_of_neg (by decide), List.append_nil]
  have hdrop : (W ++ ('/' :: '*' :: ' ' :: (base ++ ' ' :: '*' :: '/' ::
      K.takeWhile notNl))).dropWhile isWs =
      '/' :: '*' :: ' ' :: (base ++ ' ' :: '*' :: '/' :: K.takeWhile notNl) := by
    rw [dropWhile_append_all W _ (fun ch h => (hW ch h).1),
      List.dropWhile_cons_of_neg (by decide)]
  unfold findAdjacentComment
  rw [hshape]
  simp only [List.cons_append, List.append_assoc, List.nil_append]
  rw [hline, hws, hdrop]
  simp only []
  have hbody : ' ' :: (base ++ ' ' :: '*' :: '/' :: K.takeWhile notNl) =
      (' ' :: (base ++ [' '])) ++ '*' :: '/' :: K.takeWhile notNl := by
    simp
  rw [hbody, findStarSlash_first (' ' :: (base ++ [' '])) _ (by
    intro hmem
    rcases List.mem_cons.mp hmem with h | h
    · exact absurd h.symm (by decide)
    · rcases List.mem_append.mp h with h2 | h2
      · exact hstar h2
      · exact absurd (List.mem_singleton.mp h2).symm (by decide))]
  simp only [Option.map_some']
  congr 2
  simp only [List.length_cons, List.length_append, List.length_singleton, List.length_nil]

/-- No regex match can begin inside a whitespace run followed by a computed
comment, whatever follows. -/
theorem wscomment_no_match (name : List Char) (alpha : Option ℚ) (hs : saneName name)
    (W : List Char) (hW : ∀ ch ∈ W, isWs ch = true) (K : List Char) :
    ∀ i, i < (W ++ createAnnotationComment name alpha).length →
      matchOklchAt ((W ++ createAnnotationComment name alpha).drop i ++ K) = none := by
  intro i hi
  by_cases hiW : i < W.length
  · have hdropeq : ((W ++ createAnnotationComment name alpha) ++ K).drop i =
        (W ++ createAnnotationComment name alpha).drop i ++ K :=
      List.drop_append_of_le_length (le_of_lt hi)
    rw [← hdropeq]
    have hch : ((W ++ createAnnotationComment name alpha) ++ K)[i]? = some (W.get ⟨i, hiW⟩)
        := by
      rw [List.getElem?_append_left (by
          simp only [List.length_append]
          omega),
        List.getElem?_append_left hiW]
      exact List.getElem?_eq_getElem hiW
    refine matchOklchAt_drop_none hch (fun he => ?_)
    have hmem := hW (W.get ⟨i, hiW⟩) (List.getElem_mem hiW)
    rw [he] at hmem
    exact absurd hmem (by decide)
  · push_neg at hiW
    have hC : (W ++ createAnnotationComment name alpha).drop i =
        (' ' :: createAnnotationComment name alpha).drop (i - W.length + 1) := by
      conv_lhs => rw [show i = W.length + (i - W.length) from by omega]
      rw [List.drop_append, List.drop_succ_cons]
    rw [hC]
    exact comment_drop_no_match name alpha hs K (i - W.length + 1) (by
      simp only [List.length_append] at hi
      simp only [List.length_cons]
      omega)

/-- The general transformer walks over a match free prefix untouched. -/
theorem annotGo2_skipPrefix (pal : List ColorEntry) : ∀ (P K : List Char) (f : Nat),
    (∀ i, i < P.length → matchOklchAt (P.drop i ++ K) = none) →
    P.length ≤ f →
    annotGo2 pal f (P ++ K) = P ++ annotGo2 pal (f - P.length) K := by
  intro P
  induction P with
  | nil =>
    intro K f _ _
    simp
  | cons a P ih =>
    intro K f hnone hf
    obtain ⟨f2, rfl⟩ : ∃ f2, f = f2 + 1 := by
      cases f with
      | zero => simp at hf
      | succ k => exact ⟨k, rfl⟩
    rw [List.cons_append]
    simp only [annotGo2]
    have h0 := hnone 0 (by simp)
    rw [List.drop_zero, List.cons_append] at h0
    rw [h0]
    simp only []
    rw [ih K f2 (fun i hi => by
        have h1 := hnone (i + 1) (by
          simp only [List.length_cons]
          omega)
        rwa [List.drop_succ_cons] at h1)
      (by simp only [List.length_cons] at hf; omega)]
    rw [show f2 + 1 - (a :: P).length = f2 - P.length from by
      simp only [List.length_cons]
      omega]
    rfl

/-- Structure of the general transformer output: the input itself, or a
match free prefix followed by a well formed match text in input and
output. -/
theorem annotGo2_struct (pal : List ColorEntry) : ∀ (f : Nat) (s : List Char),
    annotGo2 pal f s = s ∨
    ∃ s₁ m D rest₀, WFParts m ∧ s = s₁ ++ m.text ++ rest₀ ∧
      annotGo2 pal f s = s₁ ++ m.text ++ D := by
  intro f
  induction f with
  | zero => intro s; exact Or.inl rfl
  | succ f ih =>
    intro s
    cases s with
    | nil => exact Or.inl rfl
    | cons ch r =>
      simp only [annotGo2]
      cases hm : matchOklchAt (ch :: r) with
      | some pr =>
        obtain ⟨m, rest⟩ := pr
        simp only []
        have hs : ch :: r = m.text ++ rest := matchOklchAt_decomp hm
        have hwf : WFParts m := matchOklchAt_wf hm
        cases hk : mkToken 0 m with
        | some t =>
          cases hfa : findAdjacentComment rest with
          | none =>
            exact Or.inr ⟨[], m, (' ' :: annotCommentFor pal t) ++ annotGo2 pal f rest,
              rest, hwf, by simpa using hs, by simp⟩
          | some pr2 =>
            obtain ⟨w, c⟩ := pr2
            simp only []
            by_cases heq : (rest.drop w).take c = annotCommentFor pal t
            · rw [if_pos heq]
              exact Or.inr ⟨[], m, annotGo2 pal f rest, rest, hwf, by simpa using hs,
                by simp⟩
            · rw [if_neg heq]
              exact Or.inr ⟨[], m, rest.take w ++ annotCommentFor pal t ++
                annotGo2 pal f (rest.drop (w + c)), rest, hwf, by simpa using hs,
                by simp [List.append_assoc]⟩
        | none =>
          exact Or.inr ⟨[], m, annotGo2 pal f rest, rest, hwf, by simpa using hs, by simp⟩
      | none =>
        rcases ih r with hid | ⟨s₁, m, D, rest₀, hwf, hr, hgo⟩
        · exact Or.inl (by rw [hid])
        · exact Or.inr ⟨ch :: s₁, m, D, rest₀, hwf, by simp [hr], by simp [hgo]⟩

theorem match_none_stable2 (pal : List ColorEntry) (f : Nat) (ch : Char) (r : List Char)
    (h : matchOklchAt (ch :: r) = none) :
    matchOklchAt (ch :: annotGo2 pal f r) = none := by
  cases hnew : matchOklchAt (ch :: annotGo2 pal f r) with
  | none => rfl
  | some pr =>
    exfalso
    obtain ⟨m2, rest2⟩ := pr
    have hwf2 : WFParts m2 := matchOklchAt_wf hnew
    have hdec : ch :: annotGo2 pal f r = m2.text ++ rest2 := matchOklchAt_decomp hnew
    rcases annotGo2_struct pal f r with hid | ⟨s₁, m, D, rest₀, hwf, hr, hgo⟩
    · rw [hid] at hnew
      rw [hnew] at h
      exact absurd h (by simp)
    · -- the shared prefix of old and new buffer, containing a parenthesis
      -- beyond index 5
      have htext6 : m.text = m.text.take 6 ++ m.text.drop 6 :=
        (List.take_append_drop 6 m.text).symm
      have hhead : m.text.take 6 = oklchHead := by
        have : m.text = oklchHead ++ (m.ws1 ++ (m.lRaw ++ (m.ws2 ++ (m.cRaw ++
            (m.ws3 ++ (m.hRaw ++ ((match m.alphaRaw with | some a => a | none => []) ++
              (m.wsEnd ++ [')'])))))))) := by
          simp [MatchParts.text, List.append_assoc]
        rw [this, List.take_append_of_le_length (by decide)]
        rfl
      -- the new buffer as A ++ '(' :: B
      have hA : ch :: annotGo2 pal f r =
          (ch :: s₁ ++ ['o', 'k', 'l', 'c', 'h']) ++ '(' ::
            (m.text.drop 6 ++ D) := by
        rw [hgo]
        conv_lhs => rw [htext6, hhead]
        simp [oklchHead, List.append_assoc]
      have hAold : ch :: r =
          (ch :: s₁ ++ ['o', 'k', 'l', 'c', 'h']) ++ '(' ::
            (m.text.drop 6 ++ rest₀) := by
        rw [hr]
        conv_lhs => rw [htext6, hhead]
        simp [oklchHead, List.append_assoc]
      set A : List Char := ch :: s₁ ++ ['o', 'k', 'l', 'c', 'h'] with hAdef
      have hAlen : A.length = s₁.length + 6 := by
        simp [hAdef]
      -- the new match cannot reach past the parenthesis
      have hm2len : m2.len ≤ A.length := by
        by_contra hgt
        push_neg at hgt
        have hsplit : m2.text = (A ++ ['(']) ++ m2.text.drop (A.length + 1) := by
          have h1 : m2.text = m2.text.take (A.length + 1) ++ m2.text.drop (A.length + 1) :=
            (List.take_append_drop _ _).symm
          have h2 : m2.text.take (A.length + 1) = A ++ ['('] := by
            have h3 : m2.text.take (A.length + 1) =
                (m2.text ++ rest2).take (A.length + 1) := by
              rw [List.take_append_of_le_length]
              have h4 := m2.len_ge
              have h5 : m2.len = m2.text.length := rfl
              omega
            rw [h3, ← hdec, hA]
            rw [show A.length + 1 = A.length + 1 from rfl]
            rw [List.take_append]
            simp
          rw [← h2]
          exact h1
        have hparen : '(' ∈ m2.text.drop 6 := by
          rw [hsplit]
          rw [List.drop_append_of_le_length (by simp [hAlen])]
          apply List.mem_append_left
          have hmem2 : '(' ∈ A.drop 6 ++ ['('] := List.mem_append_right _ (by simp)
          have hAd : (A ++ ['(']).drop 6 = A.drop 6 ++ ['('] :=
            List.drop_append_of_le_length (by simp [hAlen])
          rw [hAd]
          exact hmem2
        exact wf_text_no_lparen hwf2 hparen
      -- hence the new match text is a prefix of the shared region
      have hCsh : m2.text = A.take m2.len := by
        have hlen2 : m2.len = m2.text.length := rfl
        have h1 : m2.text = (m2.text ++ rest2).take m2.len := by
          rw [hlen2, List.take_left]
        rw [h1, ← hdec, hA, List.take_append_of_le_length hm2len]
      have hold : matchOklchAt (ch :: r) = some (m2, (ch :: r).drop m2.len) := by
        have htake : (ch :: r).take m2.len = m2.text := by
          rw [hAold, List.take_append_of_le_length hm2len, ← hCsh]
        generalize hK : (ch :: r).drop m2.len = K
        have hsp : ch :: r = m2.text ++ K := by
          conv_lhs => rw [← List.take_append_drop m2.len (ch :: r)]
          rw [htake, hK]
        rw [hsp]
        exact matchOklchAt_sound m2 hwf2 K
      rw [hold] at h
      exact absurd h (by simp)

theorem goTokens2_shift (pal : List ColorEntry) : ∀ (f : Nat) (s : List Char) (pos k : Nat),
    goTokens2 pal f s (pos + k) = (goTokens2 pal f s pos).map (tokenShift k) := by
  intro f
  induction f with
  | zero => intro s pos k; simp [goTokens2]
  | succ f ih =>
    intro s pos k
    cases s with
    | nil => simp [goTokens2]
    | cons ch r =>
      simp only [goTokens2]
      cases hm : matchOklchAt (ch :: r) with
      | some pr =>
        obtain ⟨m, rest⟩ := pr
        simp only []
        rw [mkToken_shift]
        cases hk : mkToken pos m with
        | some t =>
          simp only [Option.map_some']
          cases hfa : findAdjacentComment rest with
          | none =>
            simp only []
            rw [annotCommentFor_shift,
              show pos + k + m.len + 1 + (annotCommentFor pal t).length =
                pos + m.len + 1 + (annotCommentFor pal t).length + k from by omega,
              ih rest _ k]
            simp
          | some pr2 =>
            obtain ⟨w, c⟩ := pr2
            simp only []
            rw [annotCommentFor_shift]
            by_cases heq : (rest.drop w).take c = annotCommentFor pal t
            · rw [if_pos heq, if_pos heq,
                show pos + k + m.len = pos + m.len + k from by omega, ih rest _ k]
              simp
            · rw [if_neg heq, if_neg heq,
                show pos + k + m.len + w + (annotCommentFor pal t).length =
                  pos + m.len + w + (annotCommentFor pal t).length + k from by omega,
                ih (rest.drop (w + c)) _ k]
              simp
        | none =>
          simp only [Option.map_none']
          rw [show pos + k + m.len = pos + m.len + k from by omega, ih rest (pos + m.len) k]
      | none =>
        rw [show pos + k + 1 = pos + 1 + k from by omega]
        exact ih r (pos + 1) k

/-- Scanning the generally annotated buffer yields exactly the reconstructed
token list `goTokens2`. -/
theorem scanAnnot2 (pal : List ColorEntry) (hsane : sanePalette pal) :
    ∀ (f : Nat) (s : List Char) (pos F : Nat), s.length ≤ f →
      (annotGo2 pal f s).length ≤ F →
      scanAux F (annotGo2 pal f s) pos = goTokens2 pal f s pos := by
  intro f
  induction f with
  | zero =>
    intro s pos F hsf hF
    have hs : s = [] := List.eq_nil_of_length_eq_zero (Nat.le_zero.mp hsf)
    subst hs
    simp [annotGo2, goTokens2, scanAux_nil]
  | succ f ih =>
    intro s pos F hsf hF
    cases s with
    | nil => simp [annotGo2, goTokens2, scanAux_nil]
    | cons ch r =>
      simp only [annotGo2] at hF ⊢
      simp only [goTokens2]
      cases hm : matchOklchAt (ch :: r) with
      | none =>
        rw [hm] at hF
        simp only [] at hF
        have hstable := match_none_stable2 pal f ch r hm
        obtain ⟨F2, rfl⟩ : ∃ F2, F = F2 + 1 := by
          cases F with
          | zero => simp at hF
          | succ k => exact ⟨k, rfl⟩
        simp only [scanAux]
        rw [hstable]
        exact ih r (pos + 1) F2 (by simp only [List.length_cons] at hsf; omega)
          (by simp only [List.length_cons] at hF; omega)
      | some pr =>
        obtain ⟨m, rest⟩ := pr
        rw [hm] at hF
        simp only [] at hF
        have hs : ch :: r = m.text ++ rest := matchOklchAt_decomp hm
        have hwf : WFParts m := matchOklchAt_wf hm
        have hrest : rest.length ≤ f := by
          have h1 := matchOklchAt_rest_len hm
          have h2 := m.len_ge
          simp only [List.length_cons] at h1 hsf
          omega
        have hmlen : m.text.length = m.len := rfl
        cases hk : mkToken 0 m with
        | some t =>
          rw [hk] at hF
          simp only [] at hF
          simp only []
          rw [hk]
          simp only []
          rw [mkToken_some_pos hk]
          try simp only []
          rw [annotCommentFor_shift]
          cases hfa : findAdjacentComment rest with
          | none =>
            rw [hfa] at hF
            simp only [] at hF
            try simp only []
            cases hne : m.text ++ (' ' :: annotCommentFor pal t) ++ annotGo2 pal f rest
              with
            | nil =>
              exfalso
              have := congrArg List.length hne
              simp only [List.length_append, List.length_nil] at this
              have := m.len_ge
              omega
            | cons c0 tl =>
              rw [hne] at hF
              obtain ⟨F2, rfl⟩ : ∃ F2, F = F2 + 1 := by
                cases F with
                | zero => simp at hF
                | succ k => exact ⟨k, rfl⟩
              simp only [scanAux]
              have hmOK : matchOklchAt (c0 :: tl) =
                  some (m, (' ' :: annotCommentFor pal t) ++ annotGo2 pal f rest) := by
                rw [← hne, List.append_assoc]
                exact matchOklchAt_sound m hwf _
              rw [hmOK]
              simp only []
              rw [mkToken_some_pos hk]
              simp only []
              have hsk := scanAux_skip (' ' :: annotCommentFor pal t)
                (annotGo2 pal f rest) (pos + m.len) F2
                (comment_drop_no_match (annotationNameFor pal t) t.alpha
                  (saneName_annotationNameFor hsane t) (annotGo2 pal f rest))
                (by
                  have hlen1 := congrArg List.length hne
                  simp only [List.length_append, List.length_cons] at hlen1 hF ⊢
                  have hge := m.len_ge
                  omega)
              rw [hsk]
              rw [show pos + m.len + (' ' :: annotCommentFor pal t).length =
                  pos + m.len + 1 + (annotCommentFor pal t).length from by
                simp only [List.length_cons]
                omega]
              congr 1
              exact ih rest _ (annotGo2 pal f rest).length hrest le_rfl
          | some pr2 =>
            obtain ⟨w, c⟩ := pr2
            rw [hfa] at hF
            simp only [] at hF
            try simp only []
            obtain ⟨hws, -, -, -, -, hc4, hbound⟩ := findAdjacentComment_anatomy hfa
            by_cases heq : (rest.drop w).take c = annotCommentFor pal t
            · rw [if_pos heq] at hF
              rw [if_pos heq, if_pos heq]
              cases hne : m.text ++ annotGo2 pal f rest with
              | nil =>
                exfalso
                have := congrArg List.length hne
                simp only [List.length_append, List.length_nil] at this
                have := m.len_ge
                omega
              | cons c0 tl =>
                rw [hne] at hF
                obtain ⟨F2, rfl⟩ : ∃ F2, F = F2 + 1 := by
                  cases F with
                  | zero => simp at hF
                  | succ k => exact ⟨k, rfl⟩
                simp only [scanAux]
                have hmOK : matchOklchAt (c0 :: tl) = some (m, annotGo2 pal f rest) := by
                  rw [← hne]
                  exact matchOklchAt_sound m hwf _
                rw [hmOK]
                simp only []
                rw [mkToken_some_pos hk]
                simp only []
                congr 1
                exact ih rest (pos + m.len) F2 hrest (by
                  have hlen1 := congrArg List.length hne
                  simp only [List.length_append, List.length_cons] at hlen1 hF
                  have hge := m.len_ge
                  omega)
            · rw [if_neg heq] at hF
              rw [if_neg heq, if_neg heq]
              cases hne : m.text ++ rest.take w ++ annotCommentFor pal t ++
                  annotGo2 pal f (rest.drop (w + c)) with
              | nil =>
                exfalso
                have := congrArg List.length hne
                simp only [List.length_append, List.length_nil] at this
                have := m.len_ge
                omega
              | cons c0 tl =>
                rw [hne] at hF
                obtain ⟨F2, rfl⟩ : ∃ F2, F = F2 + 1 := by
                  cases F with
                  | zero => simp at hF
                  | succ k => exact ⟨k, rfl⟩
                simp only [scanAux]
                have hmOK : matchOklchAt (c0 :: tl) =
                    some (m, rest.take w ++ (annotCommentFor pal t ++
                      annotGo2 pal f (rest.drop (w + c)))) := by
                  rw [← hne, List.append_assoc, List.append_assoc]
                  exact matchOklchAt_sound m hwf _
                rw [hmOK]
                simp only []
                rw [mkToken_some_pos hk]
                simp only []
                have hnomatch : ∀ i, i < (rest.take w ++ annotCommentFor pal t).length →
                    matchOklchAt ((rest.take w ++ annotCommentFor pal t).drop i ++
                      annotGo2 pal f (rest.drop (w + c))) = none :=
                  wscomment_no_match (annotationNameFor pal t) t.alpha
                    (saneName_annotationNameFor hsane t) (rest.take w)
                    (fun ch2 h2 => (hws ch2 h2).1) (annotGo2 pal f (rest.drop (w + c)))
                have hsk := scanAux_skip (rest.take w ++ annotCommentFor pal t)
                  (annotGo2 pal f (rest.drop (w + c))) (pos + m.len) F2 hnomatch
                  (by
                    have hlen1 := congrArg List.length hne
                    simp only [List.length_append, List.length_cons] at hlen1 hF ⊢
                    have hge := m.len_ge
                    omega)
                rw [show rest.take w ++ (annotCommentFor pal t ++
                    annotGo2 pal f (rest.drop (w + c))) =
                    (rest.take w ++ annotCommentFor pal t) ++
                      annotGo2 pal f (rest.drop (w + c)) from by
                  rw [List.append_assoc]]
                rw [hsk]
                rw [show pos + m.len + (rest.take w ++ annotCommentFor pal t).length =
                    pos + m.len + w + (annotCommentFor pal t).length from by
                  simp only [List.length_append, List.length_take]
                  omega]
                congr 1
                exact ih (rest.drop (w + c)) _
                  (annotGo2 pal f (rest.drop (w + c))).length
                  (by simp only [List.length_drop]; omega) le_rfl
        | none =>
          rw [hk] at hF
          simp only [] at hF
          simp only []
          rw [hk]
          simp only []
          rw [mkToken_none_pos hk]
          try simp only []
          cases hne : m.text ++ annotGo2 pal f rest with
          | nil =>
            exfalso
            have := congrArg List.length hne
            simp only [List.length_append, List.length_nil] at this
            have := m.len_ge
            omega
          | cons c0 tl =>
            rw [hne] at hF
            obtain ⟨F2, rfl⟩ : ∃ F2, F = F2 + 1 := by
              cases F with
              | zero => simp at hF
              | succ k => exact ⟨k, rfl⟩
            simp only [scanAux]
            have hmOK : matchOklchAt (c0 :: tl) = some (m, annotGo2 pal f rest) := by
              rw [← hne]
              exact matchOklchAt_sound m hwf _
            rw [hmOK]
            simp only []
            rw [mkToken_none_pos hk]
            simp only []
            exact ih rest (pos + m.len) F2 hrest (by
              have hlen1 := congrArg List.length hne
              simp only [List.length_append, List.length_cons] at hlen1 hF
              have hge := m.len_ge
              omega)

/-- Every token of the generally annotated buffer already carries exactly
the computed comment afterwards, so the annotate handler emits no edit for
it on a second run. -/
theorem allNone2 (pal : List ColorEntry) (hsane : sanePalette pal) :
    ∀ (f : Nat) (s : List Char), s.length ≤ f →
      ∀ t ∈ goTokens2 pal f s 0, annotateStep pal (annotGo2 pal f s) t = none := by
  intro f
  induction f with
  | zero =>
    intro s hsf t ht
    simp [goTokens2] at ht
  | succ f ih =>
    intro s hsf t ht
    cases s with
    | nil => simp [goTokens2] at ht
    | cons ch r =>
      simp only [goTokens2] at ht
      simp only [annotGo2]
      cases hm : matchOklchAt (ch :: r) with
      | none =>
        rw [hm] at ht
        simp only [] at ht
        simp only []
        rw [goTokens2_shift pal f r 0 1] at ht
        obtain ⟨u, hu, rfl⟩ := List.mem_map.mp ht
        have hnone := ih r (by simp only [List.length_cons] at hsf; omega) u hu
        exact annotateStep_shift_none pal [ch] (annotGo2 pal f r) u hnone
      | some pr =>
        obtain ⟨m, rest⟩ := pr
        rw [hm] at ht
        simp only [] at ht
        simp only []
        have hdec := matchOklchAt_decomp hm
        have hlen := matchOklchAt_rest_len hm
        have hge := m.len_ge
        have hml : m.text.length = m.len := rfl
        have hrest : rest.length ≤ f := by
          simp only [List.length_cons] at hsf hlen
          omega
        cases hk : mkToken 0 m with
        | none =>
          rw [hk] at ht
          simp only [] at ht
          simp only []
          rw [goTokens2_shift pal f rest 0 m.len] at ht
          obtain ⟨u, hu, rfl⟩ := List.mem_map.mp ht
          exact annotateStep_shift_none pal m.text (annotGo2 pal f rest) u
            (ih rest hrest u hu)
        | some t0 =>
          rw [hk] at ht
          simp only [] at ht
          simp only []
          obtain ⟨htst, htlen, -⟩ := mkToken_some_fields hk
          have htend : t0.endPos = m.len := by
            simp only [OklchToken.endPos, htst, htlen]
            omega
          cases hfa : findAdjacentComment rest with
          | none =>
            rw [hfa] at ht
            simp only [] at ht
            simp only []
            rcases List.mem_cons.mp ht with rfl | ht2
            · unfold annotateStep
              have hdropt : (m.text ++ (' ' :: annotCommentFor pal t) ++
                  annotGo2 pal f rest).drop t.endPos =
                  (' ' :: annotCommentFor pal t) ++ annotGo2 pal f rest := by
                rw [htend, ← hml, List.append_assoc]
                exact List.drop_left _ _
              rw [hdropt]
              have hfa2 : findAdjacentComment ((' ' :: annotCommentFor pal t) ++
                  annotGo2 pal f rest) = some (1, (annotCommentFor pal t).length) :=
                findAdjacent_inserted (annotationNameFor pal t) t.alpha
                  (annotGo2 pal f rest) (saneName_annotationNameFor hsane t)
              rw [hfa2]
              simp only []
              have hex : ((((' ' :: annotCommentFor pal t) ++ annotGo2 pal f rest).drop
                  1).take (annotCommentFor pal t).length) = annotCommentFor pal t := by
                rw [List.cons_append, List.drop_succ_cons, List.drop_zero, List.take_left]
              rw [hex, if_pos (show annotCommentFor pal t =
                createAnnotationComment (annotationNameFor pal t) t.alpha from rfl)]
            · rw [show (0 : Nat) + m.len + 1 + (annotCommentFor pal t0).length =
                  0 + (m.len + 1 + (annotCommentFor pal t0).length) from by omega] at ht2
              rw [goTokens2_shift pal f rest 0
                (m.len + 1 + (annotCommentFor pal t0).length)] at ht2
              obtain ⟨u, hu, rfl⟩ := List.mem_map.mp ht2
              have hnone := ih rest hrest u hu
              have h2 := annotateStep_shift_none pal
                (m.text ++ (' ' :: annotCommentFor pal t0)) (annotGo2 pal f rest) u hnone
              rwa [show (m.text ++ (' ' :: annotCommentFor pal t0)).length =
                  m.len + 1 + (annotCommentFor pal t0).length from by
                simp only [List.length_append, List.length_cons]
                omega] at h2
          | some pr2 =>
            obtain ⟨w, c⟩ := pr2
            rw [hfa] at ht
            simp only [] at ht
            simp only []
            obtain ⟨hws, -, -, -, -, hc4, hbound⟩ := findAdjacentComment_anatomy hfa
            by_cases heq : (rest.drop w).take c = annotCommentFor pal t0
            · rw [if_pos heq] at ht ⊢
              rcases List.mem_cons.mp ht with rfl | ht2
              · have hClen : (annotCommentFor pal t).length = c := by
                  rw [← heq, List.length_take, List.length_drop]
                  omega
                have hPK : rest = (rest.take w ++ annotCommentFor pal t) ++
                    rest.drop (w + c) := by
                  conv_lhs => rw [← List.take_append_drop (w + c) rest]
                  congr 1
                  rw [List.take_add, heq]
                have hnomatch : ∀ i, i < (rest.take w ++ annotCommentFor pal t).length →
                    matchOklchAt ((rest.take w ++ annotCommentFor pal t).drop i ++
                      rest.drop (w + c)) = none :=
                  wscomment_no_match (annotationNameFor pal t) t.alpha
                    (saneName_annotationNameFor hsane t) (rest.take w)
                    (fun ch2 h2 => (hws ch2 h2).1) (rest.drop (w + c))
                have hskip : annotGo2 pal f rest = (rest.take w ++ annotCommentFor pal t)
                    ++ annotGo2 pal (f - (rest.take w ++ annotCommentFor pal t).length)
                      (rest.drop (w + c)) := by
                  conv_lhs => rw [hPK]
                  exact annotGo2_skipPrefix pal
                    (rest.take w ++ annotCommentFor pal t) (rest.drop (w + c)) f hnomatch
                    (by
                      simp only [List.length_append, List.length_take]
                      omega)
                unfold annotateStep
                have hdropt : (m.text ++ annotGo2 pal f rest).drop t.endPos =
                    annotGo2 pal f rest := by
                  rw [htend, ← hml]
                  exact List.drop_left _ _
                rw [hdropt, hskip]
                have hfa2 : findAdjacentComment ((rest.take w ++ annotCommentFor pal t)
                    ++ annotGo2 pal (f - (rest.take w ++ annotCommentFor pal t).length)
                      (rest.drop (w + c))) =
                    some ((rest.take w).length, (annotCommentFor pal t).length) :=
                  findAdjacent_wscomment (annotationNameFor pal t) t.alpha (rest.take w)
                    (annotGo2 pal (f - (rest.take w ++ annotCommentFor pal t).length)
                      (rest.drop (w + c)))
                    (saneName_annotationNameFor hsane t) (fun ch2 h2 => hws ch2 h2)
                rw [hfa2]
                simp only []
                have hex : ((((rest.take w ++ annotCommentFor pal t) ++
                    annotGo2 pal (f - (rest.take w ++ annotCommentFor pal t).length)
                      (rest.drop (w + c))).drop (rest.take w).length).take
                    (annotCommentFor pal t).length) = annotCommentFor pal t := by
                  rw [List.append_assoc, List.drop_left, List.take_left]
                rw [hex, if_pos (show annotCommentFor pal t =
                  createAnnotationComment (annotationNameFor pal t) t.alpha from rfl)]
              · rw [goTokens2_shift pal f rest 0 m.len] at ht2
                obtain ⟨u, hu, rfl⟩ := List.mem_map.mp ht2
                exact annotateStep_shift_none pal m.text (annotGo2 pal f rest) u
                  (ih rest hrest u hu)
            · rw [if_neg heq] at ht ⊢
              rcases List.mem_cons.mp ht with rfl | ht2
              · unfold annotateStep
                have hdropt : (m.text ++ rest.take w ++ annotCommentFor pal t ++
                    annotGo2 pal f (rest.drop (w + c))).drop t.endPos =
                    rest.take w ++ annotCommentFor pal t ++
                      annotGo2 pal f (rest.drop (w + c)) := by
                  rw [htend, ← hml]
                  conv_lhs => rw [List.append_assoc, List.append_assoc]
                  rw [List.drop_left, ← List.append_assoc]
                rw [hdropt]
                have hfa2 : findAdjacentComment (rest.take w ++ annotCommentFor pal t ++
                    annotGo2 pal f (rest.drop (w + c))) =
                    some ((rest.take w).length, (annotCommentFor pal t).length) :=
                  findAdjacent_wscomment (annotationNameFor pal t) t.alpha (rest.take w)
                    (annotGo2 pal f (rest.drop (w + c)))
                    (saneName_annotationNameFor hsane t) (fun ch2 h2 => hws ch2 h2)
                rw [hfa2]
                simp only []
                have hex : (((rest.take w ++ annotCommentFor pal t ++
                    annotGo2 pal f (rest.drop (w + c))).drop
                      (rest.take w).length).take (annotCommentFor pal t).length) =
                    annotCommentFor pal t := by
                  rw [List.append_assoc, List.drop_left, List.take_left]
                rw [hex, if_pos (show annotCommentFor pal t =
                  createAnnotationComment (annotationNameFor pal t) t.alpha from rfl)]
              · rw [show (0 : Nat) + m.len + w + (annotCommentFor pal t0).length =
                    0 + (m.len + w + (annotCommentFor pal t0).length) from by omega] at ht2
                rw [goTokens2_shift pal f (rest.drop (w + c)) 0
                  (m.len + w + (annotCommentFor pal t0).length)] at ht2
                obtain ⟨u, hu, rfl⟩ := List.mem_map.mp ht2
                have hdlen : (rest.drop (w + c)).length ≤ f := by
                  simp only [List.length_drop]
                  omega
                have hnone := ih (rest.drop (w + c)) hdlen u hu
                have h2 := annotateStep_shift_none pal
                  (m.text ++ rest.take w ++ annotCommentFor pal t0)
                  (annotGo2 pal f (rest.drop (w + c))) u hnone
                rwa [show (m.text ++ rest.take w ++ annotCommentFor pal t0).length =
                    m.len + w + (annotCommentFor pal t0).length from by
                  simp only [List.length_append, List.length_take]
                  omega] at h2

/-- Claim C2 (amended).  For a palette whose names contain no parenthesis,
star or line break, the annotate command is idempotent on every buffer:
either the first run's plan collides and the buffer is returned unchanged,
or after the first run every color token is followed by exactly the
computed comment, so the second run emits no edit. -/
theorem C2_idempotent_sane (pal : List ColorEntry) (buf : List Char)
    (hsane : sanePalette pal) :
    annotateAll pal (annotateAll pal buf) = annotateAll pal buf := by
  cases hfree : overlapFreeB (annotatePlan pal buf) with
  | false =>
    have hid : annotateAll pal buf = buf := by
      unfold annotateAll applyEditsIfSafe
      rw [if_neg (by rw [hfree]; exact Bool.false_ne_true)]
    rw [hid]
    exact hid
  | true =>
    have hbridge : annotateAll pal buf = annotGo2 pal buf.length buf := by
      unfold annotateAll applyEditsIfSafe
      rw [if_pos hfree]
      exact applyEdits_annotPlan2 pal buf.length buf le_rfl hfree
    rw [hbridge]
    have hTok : scanTokens (annotGo2 pal buf.length buf) =
        goTokens2 pal buf.length buf 0 :=
      scanAnnot2 pal hsane buf.length buf 0 _ le_rfl le_rfl
    have hpairs : annotatePairs pal (annotGo2 pal buf.length buf) = [] := by
      unfold annotatePairs
      rw [hTok, List.filterMap_eq_nil_iff]
      exact fun t ht => allNone2 pal hsane buf.length buf le_rfl t
        (List.mem_reverse.mp ht)
    unfold annotateAll applyEditsIfSafe annotatePlan
    rw [hpairs]
    rfl

unseal Rat.add Rat.sub Rat.mul Rat.inv in
theorem C2_idempotent_sane_witness :
    annotateAll [⟨"White".toList, 1, 0, 0⟩]
        (annotateAll [⟨"White".toList, 1, 0, 0⟩] "a: oklch(1 0 0)".toList) =
      annotateAll [⟨"White".toList, 1, 0, 0⟩] "a: oklch(1 0 0)".toList :=
  C2_idempotent_sane [⟨"White".toList, 1, 0, 0⟩] "a: oklch(1 0 0)".toList
    (fun e he => by
      rcases List.mem_singleton.mp he with rfl
      exact ⟨by decide, by decide, by decide, by decide⟩)

end SCT

